import Mathlib

/-!
Verification development for the peer / ip-block core of
network-config-analyzer (`nca/CoreDS/Peer.py`).

The interval engine (`CanonicalIntervalSet`) is imported by `Peer.py` but its
source file is not part of the analysed tree, so it is modelled from the
specification (spec §3, §4.1): a canonical interval set is a sorted list of
pairwise disjoint, non-adjacent (`end + 1 < next.start`), well-formed closed
intervals; `add_interval` merge-inserts absorbing overlapping or adjacent
intervals, `add_hole` removes a sub-range splitting intervals as needed, and
union / intersection / difference always return canonical form.

Network addresses are embedded into the integer line: an IPv4 address of value
`v` is the integer `v` (in `[0, 2^32 - 1]`), an IPv6 address of value `v` is
the integer `2^32 + 1 + v`.  The single missing integer `2^32` mirrors the
clamped `+1` arithmetic of `IPNetworkAddress`: the highest IPv4 address and
the lowest IPv6 address are never considered adjacent, so no interval ever
crosses the version boundary, exactly as in the Python code.
-/

namespace NCA

/-- Modelled from the spec: `CanonicalIntervalSet.Interval`, a closed range
`[start, end]` over a comparable domain (here: the integer line).  The Python
attribute `end` is spelled `end_` because `end` is a Lean keyword. -/
structure Interval where
  start : Int
  end_ : Int
deriving DecidableEq, Repr

/-- A well-formed (non-empty) interval: `start ≤ end`. -/
def Interval.wf (iv : Interval) : Prop := iv.start ≤ iv.end_

instance (iv : Interval) : Decidable iv.wf := by
  unfold Interval.wf; infer_instance

/-- Semantic membership of a point in an interval. -/
def memI (x : Int) (iv : Interval) : Prop := iv.start ≤ x ∧ x ≤ iv.end_

instance (x : Int) (iv : Interval) : Decidable (memI x iv) := by
  unfold memI; infer_instance

/-- Semantic membership of a point in a list of intervals. -/
def memL (x : Int) (l : List Interval) : Prop := ∃ iv ∈ l, memI x iv

instance (x : Int) (l : List Interval) : Decidable (memL x l) := by
  unfold memL; infer_instance

/-- Two intervals are separated when they are disjoint and not even adjacent
(spec §3: `end+1 == next.start` never holds in canonical form). -/
def sep (a b : Interval) : Prop := a.end_ + 1 < b.start

/-- Modelled from the spec: the canonical-form invariant of
`CanonicalIntervalSet` — intervals are well-formed, sorted ascending, pairwise
disjoint, and no two are mergeable-adjacent. -/
def canonical (l : List Interval) : Prop :=
  (∀ iv ∈ l, iv.wf) ∧ l.Pairwise sep

theorem canonical_nil : canonical [] := ⟨by simp, List.Pairwise.nil⟩

theorem canonical_cons_iff {h : Interval} {t : List Interval} :
    canonical (h :: t) ↔ (h.wf ∧ (∀ j ∈ t, sep h j) ∧ canonical t) := by
  unfold canonical
  simp only [List.mem_cons, List.pairwise_cons]
  constructor
  · rintro ⟨hwf, hsep, hpw⟩
    exact ⟨hwf h (Or.inl rfl), hsep, fun j hj => hwf j (Or.inr hj), hpw⟩
  · rintro ⟨hwf, hsep, hwf', hpw⟩
    exact ⟨fun j hj => hj.elim (fun e => e ▸ hwf) (hwf' j), hsep, hpw⟩

theorem canonical_tail {h : Interval} {t : List Interval} (hc : canonical (h :: t)) :
    canonical t := (canonical_cons_iff.mp hc).2.2

theorem memL_nil (x : Int) : ¬ memL x [] := by
  intro hx; rcases hx with ⟨iv, hiv, _⟩; exact (List.not_mem_nil iv) hiv

theorem memL_cons {x : Int} {h : Interval} {t : List Interval} :
    memL x (h :: t) ↔ memI x h ∨ memL x t := by
  unfold memL
  constructor
  · rintro ⟨iv, hiv, hm⟩
    rcases List.mem_cons.mp hiv with e | ht
    · exact Or.inl (e ▸ hm)
    · exact Or.inr ⟨iv, ht, hm⟩
  · rintro (hm | ⟨iv, ht, hm⟩)
    · exact ⟨h, List.mem_cons_self h t, hm⟩
    · exact ⟨iv, List.mem_cons_of_mem h ht, hm⟩

/-- Every point of a canonical cons-list beyond the head lies strictly above
the head's end-plus-one. -/
theorem memL_tail_lb {h : Interval} {t : List Interval} (hc : canonical (h :: t))
    {x : Int} (hx : memL x t) : h.end_ + 1 < x := by
  rcases hx with ⟨iv, hiv, hm⟩
  have hsep := (canonical_cons_iff.mp hc).2.1 iv hiv
  unfold sep at hsep
  unfold memI at hm
  omega

/-- All points of a canonical list are at or above the head's start. -/
theorem memL_head_lb {h : Interval} {t : List Interval} (hc : canonical (h :: t))
    {x : Int} (hx : memL x (h :: t)) : h.start ≤ x := by
  rcases memL_cons.mp hx with hm | hm
  · exact hm.1
  · have := memL_tail_lb hc hm
    have hwf := (canonical_cons_iff.mp hc).1
    unfold Interval.wf at hwf
    omega

/-- The point `head.end_ + 1` is never in a canonical cons-list (this is the
gap that canonical form guarantees after every interval). -/
theorem memL_gap {h : Interval} {t : List Interval} (hc : canonical (h :: t)) :
    ¬ memL (h.end_ + 1) (h :: t) := by
  intro hx
  rcases memL_cons.mp hx with hm | hm
  · unfold memI at hm; omega
  · exact absurd (memL_tail_lb hc hm) (by omega)

/-- Canonical interval lists are extensional: equal point sets force equal
lists.  This is the uniqueness of canonical form (spec §3). -/
theorem canonical_ext : ∀ {a b : List Interval}, canonical a → canonical b →
    (∀ x, memL x a ↔ memL x b) → a = b := by
  intro a
  induction a with
  | nil =>
    intro b _ hcb hiff
    cases b with
    | nil => rfl
    | cons j tb =>
      exfalso
      have hj : memL j.start (j :: tb) :=
        ⟨j, List.mem_cons_self j tb, le_refl _, (canonical_cons_iff.mp hcb).1⟩
      exact memL_nil j.start ((hiff j.start).mpr hj)
  | cons i ta ih =>
    intro b hca hcb hiff
    cases b with
    | nil =>
      exfalso
      have hi : memL i.start (i :: ta) :=
        ⟨i, List.mem_cons_self i ta, le_refl _, (canonical_cons_iff.mp hca).1⟩
      exact memL_nil i.start ((hiff i.start).mp hi)
    | cons j tb =>
      have hiwf := (canonical_cons_iff.mp hca).1
      have hjwf := (canonical_cons_iff.mp hcb).1
      have hi : memL i.start (i :: ta) :=
        ⟨i, List.mem_cons_self i ta, le_refl _, hiwf⟩
      have hj : memL j.start (j :: tb) :=
        ⟨j, List.mem_cons_self j tb, le_refl _, hjwf⟩
      have hs1 : j.start ≤ i.start := memL_head_lb hcb ((hiff i.start).mp hi)
      have hs2 : i.start ≤ j.start := memL_head_lb hca ((hiff j.start).mpr hj)
      have hstart : i.start = j.start := le_antisymm hs2 hs1
      have hend : i.end_ = j.end_ := by
        by_contra hne
        rcases lt_or_gt_of_ne hne with hlt | hgt
        · have hmem : memL (i.end_ + 1) (j :: tb) := by
            refine ⟨j, List.mem_cons_self j tb, ?_, ?_⟩
            · unfold Interval.wf at hiwf; omega
            · omega
          exact memL_gap hca ((hiff (i.end_ + 1)).mpr hmem)
        · have hmem : memL (j.end_ + 1) (i :: ta) := by
            refine ⟨i, List.mem_cons_self i ta, ?_, ?_⟩
            · unfold Interval.wf at hjwf; omega
            · omega
          exact memL_gap hcb ((hiff (j.end_ + 1)).mp hmem)
      have hhead : i = j := by cases i; cases j; simp_all
      subst hhead
      have htails : ∀ x, memL x ta ↔ memL x tb := by
        intro x
        constructor
        · intro hx
          have hgt := memL_tail_lb hca hx
          have : memL x (i :: tb) := (hiff x).mp (memL_cons.mpr (Or.inr hx))
          rcases memL_cons.mp this with hm | hm
          · exfalso; unfold memI at hm; omega
          · exact hm
        · intro hx
          have hgt := memL_tail_lb hcb hx
          have : memL x (i :: ta) := (hiff x).mpr (memL_cons.mpr (Or.inr hx))
          rcases memL_cons.mp this with hm | hm
          · exfalso; unfold memI at hm; omega
          · exact hm
      exact congrArg (i :: ·) (ih (canonical_tail hca) (canonical_tail hcb) htails)

/-- A canonical list is empty exactly when its point set is empty. -/
theorem canonical_empty_iff {l : List Interval} (hc : canonical l) :
    l = [] ↔ ∀ x, ¬ memL x l := by
  constructor
  · rintro rfl x; exact memL_nil x
  · intro h
    cases l with
    | nil => rfl
    | cons i t =>
      exfalso
      exact h i.start ⟨i, List.mem_cons_self i t, le_refl _, (canonical_cons_iff.mp hc).1⟩

/-- Canonical lists with the same points are equal and conversely. -/
theorem canonical_eq_iff {a b : List Interval} (hca : canonical a) (hcb : canonical b) :
    a = b ↔ ∀ x, memL x a ↔ memL x b := by
  constructor
  · rintro rfl x; exact Iff.rfl
  · exact canonical_ext hca hcb

/-- Modelled from the spec: `CanonicalIntervalSet.add_interval` — a linear
merge pass over the sorted intervals that absorbs every existing interval
overlapping or adjacent to the inserted one (`end+1 == start` counts as
mergeable). -/
def addInterval : List Interval → Interval → List Interval
  | [], iv => [iv]
  | h :: t, iv =>
    if iv.end_ + 1 < h.start then iv :: h :: t
    else if h.end_ + 1 < iv.start then h :: addInterval t iv
    else addInterval t ⟨min h.start iv.start, max h.end_ iv.end_⟩

theorem addInterval_start_lb {c : Int} : ∀ (l : List Interval) (iv : Interval),
    (∀ j ∈ l, c < j.start) → c < iv.start →
    ∀ j ∈ addInterval l iv, c < j.start := by
  intro l
  induction l with
  | nil =>
    intro iv _ hiv j hj
    simp only [addInterval] at hj
    rcases List.mem_singleton.mp hj with rfl
    exact hiv
  | cons a t ih =>
    intro iv hl hiv j hj
    simp only [addInterval] at hj
    by_cases h1 : iv.end_ + 1 < a.start
    · simp only [if_pos h1] at hj
      rcases List.mem_cons.mp hj with rfl | hj'
      · exact hiv
      · exact hl j hj'
    · simp only [if_neg h1] at hj
      by_cases h2 : a.end_ + 1 < iv.start
      · simp only [if_pos h2] at hj
        rcases List.mem_cons.mp hj with heq | hj'
        · rw [heq]; exact hl a (List.mem_cons_self a t)
        · exact ih iv (fun k hk => hl k (List.mem_cons_of_mem a hk)) hiv j hj'
      · simp only [if_neg h2] at hj
        refine ih _ (fun k hk => hl k (List.mem_cons_of_mem a hk)) ?_ j hj
        have ha := hl a (List.mem_cons_self a t)
        simp only [lt_min_iff]
        exact ⟨ha, hiv⟩

theorem addInterval_canonical : ∀ {l : List Interval} {iv : Interval},
    canonical l → iv.wf → canonical (addInterval l iv) := by
  intro l
  induction l with
  | nil =>
    intro iv _ hiv
    simp only [addInterval]
    exact canonical_cons_iff.mpr ⟨hiv, by simp, canonical_nil⟩
  | cons a t ih =>
    intro iv hc hiv
    rcases canonical_cons_iff.mp hc with ⟨hwf, hsep, hct⟩
    simp only [addInterval]
    by_cases h1 : iv.end_ + 1 < a.start
    · simp only [if_pos h1]
      refine canonical_cons_iff.mpr ⟨hiv, ?_, hc⟩
      intro j hj
      rcases List.mem_cons.mp hj with rfl | hj'
      · exact h1
      · have hs := hsep j hj'
        unfold sep at *
        unfold Interval.wf at hwf
        omega
    · simp only [if_neg h1]
      by_cases h2 : a.end_ + 1 < iv.start
      · simp only [if_pos h2]
        refine canonical_cons_iff.mpr ⟨hwf, ?_, ih hct hiv⟩
        intro j hj
        have hall : ∀ k ∈ t, a.end_ + 1 < k.start := fun k hk => hsep k hk
        exact addInterval_start_lb t iv hall h2 j hj
      · simp only [if_neg h2]
        refine ih hct ?_
        unfold Interval.wf at *
        simp only [min_le_iff, le_max_iff]
        omega

theorem addInterval_mem : ∀ {l : List Interval} {iv : Interval},
    canonical l → iv.wf →
    ∀ x, memL x (addInterval l iv) ↔ memL x l ∨ memI x iv := by
  intro l
  induction l with
  | nil =>
    intro iv _ hiv x
    simp only [addInterval]
    rw [memL_cons]
    constructor
    · rintro (hm | hm)
      · exact Or.inr hm
      · exact absurd hm (memL_nil x)
    · rintro (hm | hm)
      · exact absurd hm (memL_nil x)
      · exact Or.inl hm
  | cons a t ih =>
    intro iv hc hiv x
    rcases canonical_cons_iff.mp hc with ⟨hwf, _, hct⟩
    simp only [addInterval]
    by_cases h1 : iv.end_ + 1 < a.start
    · simp only [if_pos h1]
      rw [memL_cons, memL_cons]
      tauto
    · simp only [if_neg h1]
      by_cases h2 : a.end_ + 1 < iv.start
      · simp only [if_pos h2]
        rw [memL_cons, memL_cons, ih hct hiv]
        tauto
      · simp only [if_neg h2]
        have hm : Interval.wf ⟨min a.start iv.start, max a.end_ iv.end_⟩ := by
          unfold Interval.wf at *
          simp only [min_le_iff, le_max_iff]
          omega
        rw [ih hct hm, memL_cons]
        have hhull : memI x ⟨min a.start iv.start, max a.end_ iv.end_⟩ ↔
            (memI x a ∨ memI x iv) := by
          unfold memI Interval.wf at *
          simp only [min_le_iff, le_max_iff]
          omega
        rw [hhull]
        tauto

/-- Modelled from the spec: `CanonicalIntervalSet.add_hole` — removes a
sub-range from the set, splitting intervals as needed (spec §4.1). -/
def addHole : List Interval → Interval → List Interval
  | [], _ => []
  | a :: t, hole =>
    ((if a.start < hole.start then [⟨a.start, min a.end_ (hole.start - 1)⟩] else []) ++
     (if hole.end_ < a.end_ then [⟨max a.start (hole.end_ + 1), a.end_⟩] else [])) ++
    addHole t hole

theorem addHole_start_lb {c : Int} : ∀ (l : List Interval) (hole : Interval),
    (∀ j ∈ l, c < j.start) →
    ∀ j ∈ addHole l hole, c < j.start := by
  intro l
  induction l with
  | nil => intro hole _ j hj; simp only [addHole] at hj; exact absurd hj (List.not_mem_nil j)
  | cons a t ih =>
    intro hole hl j hj
    simp only [addHole, List.mem_append] at hj
    have ha := hl a (List.mem_cons_self a t)
    rcases hj with (hj | hj) | hj
    · by_cases hs : a.start < hole.start
      · simp only [if_pos hs, List.mem_singleton] at hj
        rw [hj]; exact ha
      · simp only [if_neg hs] at hj; exact absurd hj (List.not_mem_nil j)
    · by_cases he : hole.end_ < a.end_
      · simp only [if_pos he, List.mem_singleton] at hj
        rw [hj]
        simp only [lt_max_iff]
        exact Or.inl ha
      · simp only [if_neg he] at hj; exact absurd hj (List.not_mem_nil j)
    · exact ih hole (fun k hk => hl k (List.mem_cons_of_mem a hk)) j hj

theorem addHole_canonical : ∀ {l : List Interval} {hole : Interval},
    canonical l → hole.wf → canonical (addHole l hole) := by
  intro l
  induction l with
  | nil => intro hole _ _; simpa only [addHole] using canonical_nil
  | cons a t ih =>
    intro hole hc hh
    rcases canonical_cons_iff.mp hc with ⟨hwf, hsep, hct⟩
    have hrest : canonical (addHole t hole) := ih hct hh
    have hrest_lb : ∀ j ∈ addHole t hole, a.end_ + 1 < j.start :=
      addHole_start_lb t hole (fun k hk => hsep k hk)
    simp only [addHole]
    unfold Interval.wf at hwf hh
    by_cases hs : a.start < hole.start
    · by_cases he : hole.end_ < a.end_
      · simp only [if_pos hs, if_pos he]
        refine canonical_cons_iff.mpr ⟨?_, ?_, canonical_cons_iff.mpr ⟨?_, ?_, hrest⟩⟩
        · unfold Interval.wf
          simp only [le_min_iff]
          omega
        · intro j hj
          rcases List.mem_cons.mp hj with heq | hj'
          · rw [heq]
            unfold sep
            simp only [min_lt_iff ,lt_max_iff]
            omega
          · have hlb := hrest_lb j hj'
            unfold sep
            dsimp only
            omega
        · unfold Interval.wf
          simp only [max_le_iff]
          omega
        · intro j hj
          have hlb := hrest_lb j hj
          unfold sep
          dsimp only
          omega
      · simp only [if_pos hs, if_neg he, List.append_nil]
        refine canonical_cons_iff.mpr ⟨?_, ?_, hrest⟩
        · unfold Interval.wf
          simp only [le_min_iff]
          omega
        · intro j hj
          have hlb := hrest_lb j hj
          unfold sep
          dsimp only
          omega
    · by_cases he : hole.end_ < a.end_
      · simp only [if_neg hs, if_pos he, List.nil_append]
        refine canonical_cons_iff.mpr ⟨?_, ?_, hrest⟩
        · unfold Interval.wf
          simp only [max_le_iff]
          omega
        · intro j hj
          have hlb := hrest_lb j hj
          unfold sep
          dsimp only
          omega
      · simp only [if_neg hs, if_neg he, List.nil_append, List.append_nil]
        exact hrest

theorem addHole_mem : ∀ {l : List Interval} {hole : Interval},
    (∀ iv ∈ l, iv.wf) → hole.wf →
    ∀ x, memL x (addHole l hole) ↔ memL x l ∧ ¬ memI x hole := by
  intro l
  induction l with
  | nil =>
    intro hole _ _ x
    simp only [addHole]
    constructor
    · intro hx; exact absurd hx (memL_nil x)
    · rintro ⟨hx, _⟩; exact absurd hx (memL_nil x)
  | cons a t ih =>
    intro hole hwf hh x
    have hawf := hwf a (List.mem_cons_self a t)
    have htwf : ∀ iv ∈ t, iv.wf := fun iv hiv => hwf iv (List.mem_cons_of_mem a hiv)
    simp only [addHole]
    have hiff := ih htwf hh x
    constructor
    · intro hx
      rcases hx with ⟨iv, hiv, hm⟩
      simp only [List.mem_append] at hiv
      rcases hiv with (hiv | hiv) | hiv
      · by_cases hs : a.start < hole.start
        · simp only [if_pos hs, List.mem_singleton] at hiv
          subst hiv
          unfold memI at hm ⊢
          simp only [le_min_iff] at hm
          refine ⟨memL_cons.mpr (Or.inl ?_), ?_⟩
          · exact ⟨hm.1, by omega⟩
          · omega
        · simp only [if_neg hs] at hiv; exact absurd hiv (List.not_mem_nil iv)
      · by_cases he : hole.end_ < a.end_
        · simp only [if_pos he, List.mem_singleton] at hiv
          subst hiv
          unfold memI at hm ⊢
          simp only [max_le_iff] at hm
          refine ⟨memL_cons.mpr (Or.inl ?_), ?_⟩
          · constructor
            · omega
            · exact hm.2
          · omega
        · simp only [if_neg he] at hiv; exact absurd hiv (List.not_mem_nil iv)
      · have := hiff.mp ⟨iv, hiv, hm⟩
        exact ⟨memL_cons.mpr (Or.inr this.1), this.2⟩
    · rintro ⟨hx, hnot⟩
      rcases memL_cons.mp hx with hm | hm
      · unfold memI at hm hnot
        unfold Interval.wf at hawf hh
        by_cases hxlt : x < hole.start
        · have hs : a.start < hole.start := by omega
          refine ⟨⟨a.start, min a.end_ (hole.start - 1)⟩, ?_, ?_⟩
          · simp [List.mem_append, hs]
          · unfold memI
            simp only [le_min_iff]
            omega
        · have hxgt : hole.end_ < x := by omega
          have he : hole.end_ < a.end_ := by omega
          refine ⟨⟨max a.start (hole.end_ + 1), a.end_⟩, ?_, ?_⟩
          · simp [List.mem_append, he]
          · unfold memI
            simp only [max_le_iff]
            omega
      · rcases hiff.mpr ⟨hm, hnot⟩ with ⟨iv, hiv, hmi⟩
        exact ⟨iv, by simp only [List.mem_append]; exact Or.inr hiv, hmi⟩

/-- Modelled from the spec: union of canonical interval sets (`__ior__` /
`__or__`), folding every interval of the right operand into the left one. -/
def unionL (a b : List Interval) : List Interval := b.foldl addInterval a

theorem unionL_spec : ∀ {b a : List Interval}, canonical a → (∀ iv ∈ b, iv.wf) →
    canonical (unionL a b) ∧ (∀ x, memL x (unionL a b) ↔ memL x a ∨ memL x b) := by
  intro b
  induction b with
  | nil =>
    intro a hca _
    refine ⟨hca, fun x => ?_⟩
    simp only [unionL, List.foldl_nil]
    have := memL_nil x
    tauto
  | cons iv t ih =>
    intro a hca hwf
    have hivwf : iv.wf := hwf iv (List.mem_cons_self iv t)
    have htwf : ∀ j ∈ t, j.wf := fun j hj => hwf j (List.mem_cons_of_mem iv hj)
    have hca' : canonical (addInterval a iv) := addInterval_canonical hca hivwf
    have hmem := addInterval_mem hca hivwf
    rcases ih hca' htwf with ⟨hc, hm⟩
    refine ⟨hc, fun x => ?_⟩
    simp only [unionL, List.foldl_cons] at *
    rw [hm x, hmem x, memL_cons]
    tauto

/-- Modelled from the spec: difference of canonical interval sets
(`__isub__` / `__sub__`), removing every interval of the right operand as a
hole. -/
def diffL (a b : List Interval) : List Interval := b.foldl addHole a

theorem diffL_spec : ∀ {b a : List Interval}, canonical a → (∀ iv ∈ b, iv.wf) →
    canonical (diffL a b) ∧ (∀ x, memL x (diffL a b) ↔ memL x a ∧ ¬ memL x b) := by
  intro b
  induction b with
  | nil =>
    intro a hca _
    refine ⟨hca, fun x => ?_⟩
    simp only [diffL, List.foldl_nil]
    have := memL_nil x
    tauto
  | cons iv t ih =>
    intro a hca hwf
    have hivwf : iv.wf := hwf iv (List.mem_cons_self iv t)
    have htwf : ∀ j ∈ t, j.wf := fun j hj => hwf j (List.mem_cons_of_mem iv hj)
    have hca' : canonical (addHole a iv) := addHole_canonical hca hivwf
    have hmem := addHole_mem hca.1 hivwf
    rcases ih hca' htwf with ⟨hc, hm⟩
    refine ⟨hc, fun x => ?_⟩
    simp only [diffL, List.foldl_cons] at *
    rw [hm x, hmem x, memL_cons]
    tauto

/-- The pairwise clip of one interval against a list: the parts of `i` also
covered by some interval of `b`. -/
def clipRow (i : Interval) (b : List Interval) : List Interval :=
  b.foldr (fun j acc2 =>
    if max i.start j.start ≤ min i.end_ j.end_ then
      ⟨max i.start j.start, min i.end_ j.end_⟩ :: acc2
    else acc2) []

/-- All pairwise clips of the intervals of `a` against those of `b`. -/
def clipList (a b : List Interval) : List Interval :=
  a.foldr (fun i acc => clipRow i b ++ acc) []

/-- Modelled from the spec: intersection of canonical interval sets
(`__iand__` / `__and__`): the canonical set whose points are the common
points, built from the pairwise clips of the two operands. -/
def interL (a b : List Interval) : List Interval :=
  (clipList a b).foldl addInterval []

theorem memL_append {x : Int} (u v : List Interval) :
    memL x (u ++ v) ↔ memL x u ∨ memL x v := by
  unfold memL
  constructor
  · rintro ⟨iv, hiv, hm⟩
    rcases List.mem_append.mp hiv with h | h
    · exact Or.inl ⟨iv, h, hm⟩
    · exact Or.inr ⟨iv, h, hm⟩
  · rintro (⟨iv, hiv, hm⟩ | ⟨iv, hiv, hm⟩)
    · exact ⟨iv, List.mem_append.mpr (Or.inl hiv), hm⟩
    · exact ⟨iv, List.mem_append.mpr (Or.inr hiv), hm⟩

theorem clipRow_mem (i : Interval) (b : List Interval) (x : Int) :
    memL x (clipRow i b) ↔ (memI x i ∧ memL x b) := by
  induction b with
  | nil =>
    simp only [clipRow, List.foldr_nil]
    have h1 := memL_nil x
    tauto
  | cons j tb ihb =>
    simp only [clipRow, List.foldr_cons] at *
    by_cases hij : max i.start j.start ≤ min i.end_ j.end_
    · simp only [if_pos hij]
      rw [memL_cons, ihb, memL_cons]
      have hclip : memI x ⟨max i.start j.start, min i.end_ j.end_⟩ ↔
          (memI x i ∧ memI x j) := by
        unfold memI
        simp only [max_le_iff, le_min_iff]
        omega
      rw [hclip]
      tauto
    · simp only [if_neg hij]
      rw [ihb, memL_cons]
      have hnn : ¬ (memI x i ∧ memI x j) := by
        unfold memI at *
        intro hcon
        simp only [max_le_iff, le_min_iff, not_le] at *
        omega
      tauto

theorem clipList_mem (a b : List Interval) (x : Int) :
    memL x (clipList a b) ↔ memL x a ∧ memL x b := by
  induction a with
  | nil =>
    simp only [clipList, List.foldr_nil]
    have h1 := memL_nil x
    tauto
  | cons i ta iha =>
    simp only [clipList, List.foldr_cons] at *
    rw [memL_append, iha, memL_cons, clipRow_mem]
    tauto

theorem clipRow_wf (i : Interval) (b : List Interval) :
    ∀ iv ∈ clipRow i b, iv.wf := by
  induction b with
  | nil => intro iv hiv; exact absurd hiv (List.not_mem_nil iv)
  | cons j tb ihb =>
    intro iv hiv
    simp only [clipRow, List.foldr_cons] at hiv ihb
    by_cases hij : max i.start j.start ≤ min i.end_ j.end_
    · simp only [if_pos hij] at hiv
      rcases List.mem_cons.mp hiv with heq | hiv2
      · rw [heq]; exact hij
      · exact ihb iv hiv2
    · simp only [if_neg hij] at hiv
      exact ihb iv hiv

theorem clipList_wf (a b : List Interval) :
    ∀ iv ∈ clipList a b, iv.wf := by
  induction a with
  | nil => intro iv hiv; exact absurd hiv (List.not_mem_nil iv)
  | cons i ta iha =>
    intro iv hiv
    simp only [clipList, List.foldr_cons, List.mem_append] at hiv iha
    rcases hiv with hiv | hiv
    · exact clipRow_wf i b iv hiv
    · exact iha iv hiv

theorem interL_spec (a b : List Interval) :
    canonical (interL a b) ∧ (∀ x, memL x (interL a b) ↔ memL x a ∧ memL x b) := by
  unfold interL
  have h := unionL_spec (b := clipList a b) (a := []) canonical_nil (clipList_wf a b)
  unfold unionL at h
  refine ⟨h.1, fun x => ?_⟩
  rw [h.2 x]
  have h1 := memL_nil x
  rw [clipList_mem]
  tauto

/-- Modelled from the spec: `CanonicalIntervalSet.overlaps` — the two sets
share at least one point. -/
def overlaps (a b : List Interval) : Bool :=
  a.any fun i => b.any fun j => max i.start j.start ≤ min i.end_ j.end_

theorem overlaps_iff (a b : List Interval) :
    overlaps a b = true ↔ ∃ x, memL x a ∧ memL x b := by
  unfold overlaps
  simp only [List.any_eq_true, decide_eq_true_eq]
  constructor
  · rintro ⟨i, hi, j, hj, hij⟩
    refine ⟨max i.start j.start, ⟨i, hi, ?_⟩, ⟨j, hj, ?_⟩⟩
    · unfold memI
      simp only [max_le_iff, le_max_iff] at *
      omega
    · unfold memI
      simp only [max_le_iff, le_max_iff] at *
      omega
  · rintro ⟨x, ⟨i, hi, hmi⟩, ⟨j, hj, hmj⟩⟩
    refine ⟨i, hi, j, hj, ?_⟩
    unfold memI at *
    simp only [max_le_iff, le_min_iff]
    omega

/-- Modelled from the spec: `CanonicalIntervalSet.contained_in` — every
interval of the left set is covered by a single interval of the right set. -/
def containedIn (a b : List Interval) : Bool :=
  a.all fun i => b.any fun j => decide (j.start ≤ i.start) && decide (i.end_ ≤ j.end_)

theorem containedIn_iff {a b : List Interval} (hca : canonical a) (hcb : canonical b) :
    containedIn a b = true ↔ ∀ x, memL x a → memL x b := by
  unfold containedIn
  simp only [List.all_eq_true, List.any_eq_true, Bool.and_eq_true, decide_eq_true_eq]
  constructor
  · rintro h x ⟨i, hi, hmi⟩
    rcases h i hi with ⟨j, hj, hj1, hj2⟩
    refine ⟨j, hj, ?_⟩
    unfold memI at *
    omega
  · intro h i hi
    have hiwf : i.wf := hca.1 i hi
    have hstart : memL i.start b := h i.start ⟨i, hi, le_refl _, hiwf⟩
    rcases hstart with ⟨j, hj, hmj⟩
    refine ⟨j, hj, hmj.1, ?_⟩
    by_contra hlt
    push_neg at hlt
    have hnext : memL (j.end_ + 1) b := by
      refine h (j.end_ + 1) ⟨i, hi, ?_, ?_⟩
      · unfold memI at hmj; omega
      · omega
    rcases hnext with ⟨k, hk, hmk⟩
    have hkj : j ≠ k := by
      intro heq
      rw [heq] at hmk
      unfold memI at hmk
      omega
    -- j and k are distinct members of the canonical list b, hence separated
    have hsym : Symmetric (fun u v : Interval => sep u v ∨ sep v u) :=
      fun u v h => h.symm
    have hpw : b.Pairwise (fun u v => sep u v ∨ sep v u) :=
      hcb.2.imp (fun h => Or.inl h)
    have hsep : sep j k ∨ sep k j := List.Pairwise.forall hsym hpw hj hk hkj
    unfold sep at hsep
    unfold memI at hmj hmk
    have hjwf : j.wf := hcb.1 j hj
    have hkwf : k.wf := hcb.1 k hk
    unfold Interval.wf at hjwf hkwf
    rcases hsep with hsep | hsep <;> omega

/-! ### Network addresses, CIDRs and IpBlock -/

/-- Number of IPv4 addresses (`2^32`). -/
def ipv4Count : Int := 2 ^ 32

/-- Number of IPv6 addresses (`2^128`). -/
def ipv6Count : Int := 2 ^ 128

/-- Highest IPv4 address value. -/
def v4max : Int := ipv4Count - 1

/-- Integer-line position of IPv6 address `0`; the single missing integer
`2^32` separates the two versions so that they are never adjacent. -/
def v6base : Int := ipv4Count + 1

/-- Integer-line position of the highest IPv6 address. -/
def v6maxAddr : Int := v6base + ipv6Count - 1

/-- Errors raised by the embedded Python code: `TypeError` (from
`subnet_of` on mixed IP versions), `AssertionError` (from `assert`),
`IndexError` (out-of-range list access), `AddressValueError` (address
constructor input outside the valid range). -/
inductive PyErr where
  | typeError
  | assertionError
  | indexError
  | addressValueError
deriving DecidableEq, Repr

/-- Embeds `IpBlock`: its `CanonicalIntervalSet` content on the integer
line.  The `name`, `namespace` and `is_global` attributes do not participate
in equality or hashing (both are content-based, per spec §3) nor in any
claim, so they are not represented. -/
structure IpBlock where
  interval_set : List Interval
deriving DecidableEq, Repr

/-- Embeds the result of `ip_network(cidr_string, strict=False)`: an IP
version, the raw address value written before the slash (host bits may be
set) and the prefix length `plen`. -/
structure Cidr where
  v4 : Bool
  value : Int
  plen : Nat
deriving DecidableEq, Repr

/-- Address bits of the CIDR's IP version. -/
def Cidr.bits (c : Cidr) : Nat := if c.v4 then 32 else 128

/-- Number of addresses covered by the CIDR. -/
def Cidr.hostCount (c : Cidr) : Int := 2 ^ (c.bits - c.plen)

/-- `ip_network(..., strict=False).network_address`: host bits cleared. -/
def Cidr.network (c : Cidr) : Int := c.value - c.value % c.hostCount

/-- `ip_network(..., strict=False).broadcast_address`. -/
def Cidr.broadcast (c : Cidr) : Int := c.network + c.hostCount - 1

/-- Integer-line offset of the CIDR's IP version. -/
def Cidr.base (c : Cidr) : Int := if c.v4 then 0 else v6base

/-- Integer-line position of the CIDR's network address. -/
def Cidr.startAddr (c : Cidr) : Int := c.base + c.network

/-- Integer-line position of the CIDR's broadcast address. -/
def Cidr.endAddr (c : Cidr) : Int := c.base + c.broadcast

/-- A well-formed parsed CIDR: prefix length within the version's bits and
the raw value a valid address of that version. -/
def Cidr.wfc (c : Cidr) : Prop :=
  c.plen ≤ c.bits ∧ 0 ≤ c.value ∧ c.value ≤ (if c.v4 then v4max else ipv6Count - 1)

/-- Embeds `IpBlock.add_cidr` (Peer.py lines 378-388): insert the interval
`[network_address, broadcast_address]`, then for each exception call
`exception_n.subnet_of(ipn)` — which raises `TypeError` exactly when the two
networks have different IP versions and otherwise returns a Boolean that the
code discards — and punch the exception's range as a hole.  (The source
comment says the `subnet_of` line is "only used to raise an exception when
exception_n is not within cidr"; `subnet_of` does not do that.) -/
def IpBlock.add_cidr (b : IpBlock) (cidr : Cidr) (exceptions : List Cidr) :
    Except PyErr IpBlock := do
  let b1 := addInterval b.interval_set ⟨cidr.startAddr, cidr.endAddr⟩
  let res ← exceptions.foldlM (fun (acc : List Interval) e =>
    if e.v4 ≠ cidr.v4 then Except.error PyErr.typeError
    else Except.ok (addHole acc ⟨e.startAddr, e.endAddr⟩)) b1
  Except.ok ⟨res⟩

/-- The parsed form of the CIDR literal `10.0.0.0/8`. -/
def cidr_10_slash_8 : Cidr := ⟨true, 167772160, 8⟩

/-- The parsed form of the CIDR literal `11.0.0.0/8`; it is disjoint from —
in particular not contained in — `10.0.0.0/8`. -/
def cidr_11_slash_8 : Cidr := ⟨true, 184549376, 8⟩

/-- Embeds `IPNetworkAddress`: an IP version plus the address value. -/
structure IPNetworkAddress where
  v4 : Bool
  value : Int
deriving DecidableEq, Repr

/-- Highest address value of the address's IP version. -/
def IPNetworkAddress.maxValue (a : IPNetworkAddress) : Int :=
  if a.v4 then v4max else ipv6Count - 1

/-- A valid address of its version. -/
def IPNetworkAddress.wfa (a : IPNetworkAddress) : Prop :=
  0 ≤ a.value ∧ a.value ≤ a.maxValue

instance (a : IPNetworkAddress) : Decidable a.wfa := by
  unfold IPNetworkAddress.wfa; infer_instance

/-- Embeds `IPNetworkAddress.__add__` (Peer.py lines 239-246): build the
address of value `value + n`; the underlying constructor raises
`AddressValueError` when that value is outside the version's valid range, in
which case the original address is returned unchanged. -/
def IPNetworkAddress.addInt (a : IPNetworkAddress) (n : Int) : IPNetworkAddress :=
  if 0 ≤ a.value + n ∧ a.value + n ≤ a.maxValue then ⟨a.v4, a.value + n⟩ else a

/-- Embeds `IPNetworkAddress.__sub__` (Peer.py lines 248-255), analogous to
`__add__`. -/
def IPNetworkAddress.subInt (a : IPNetworkAddress) (n : Int) : IPNetworkAddress :=
  if 0 ≤ a.value - n ∧ a.value - n ≤ a.maxValue then ⟨a.v4, a.value - n⟩ else a

/-- C1 (code bug): for the target CIDR `10.0.0.0/8` with exception list
`['11.0.0.0/8']` — an exception of the same IP version that is NOT contained
in the target — `add_cidr` does not fail: `subnet_of` only raises on an IP
version mismatch and its Boolean result is discarded, so the call silently
applies `add_hole` (here without effect) and returns normally, contradicting
the spec's ContainmentError and the source's own comment. -/
theorem c1_uncontained_exception_silently_accepted :
    IpBlock.add_cidr ⟨[]⟩ cidr_10_slash_8 [cidr_11_slash_8] =
      Except.ok ⟨[⟨167772160, 184549375⟩]⟩ ∧
    containedIn [⟨cidr_11_slash_8.startAddr, cidr_11_slash_8.endAddr⟩]
      [⟨cidr_10_slash_8.startAddr, cidr_10_slash_8.endAddr⟩] = false := by
  constructor
  · rfl
  · rfl

/-- C5 counterexample: adding `2^32` to the IPv4 address of value `10`
overflows the IPv4 range, and the code returns the ORIGINAL address `10`
rather than clamping to the highest IPv4 address `2^32 - 1` as the claim
states. -/
theorem c5_counterexample_add_returns_original :
    IPNetworkAddress.addInt ⟨true, 10⟩ (2 ^ 32) = ⟨true, 10⟩ ∧
    v4max < 10 + 2 ^ 32 ∧
    IPNetworkAddress.addInt ⟨true, 10⟩ (2 ^ 32) ≠ ⟨true, v4max⟩ := by
  refine ⟨by rfl, by decide, by decide⟩

/-- C5 (amended): address `+ n` / `- n` never wraps and never raises: when
the exact result is a valid address of the version it is returned, and when
it falls outside the valid range the operation returns the ORIGINAL address
unchanged (not the nearest valid address); in all cases the result is a
valid address of the same version. -/
theorem c5_amended_add_sub_total_no_wrap (a : IPNetworkAddress) (n : Int)
    (hwf : a.wfa) :
    ((a.addInt n).wfa ∧ (a.addInt n).v4 = a.v4) ∧
    ((0 ≤ a.value + n ∧ a.value + n ≤ a.maxValue) → a.addInt n = ⟨a.v4, a.value + n⟩) ∧
    (¬ (0 ≤ a.value + n ∧ a.value + n ≤ a.maxValue) → a.addInt n = a) ∧
    ((a.subInt n).wfa ∧ (a.subInt n).v4 = a.v4) ∧
    ((0 ≤ a.value - n ∧ a.value - n ≤ a.maxValue) → a.subInt n = ⟨a.v4, a.value - n⟩) ∧
    (¬ (0 ≤ a.value - n ∧ a.value - n ≤ a.maxValue) → a.subInt n = a) := by
  refine ⟨?_, ?_, ?_, ?_, ?_, ?_⟩
  · unfold IPNetworkAddress.addInt
    split_ifs with h1
    · exact ⟨h1, rfl⟩
    · exact ⟨hwf, rfl⟩
  · intro h
    unfold IPNetworkAddress.addInt
    exact if_pos h
  · intro h
    unfold IPNetworkAddress.addInt
    exact if_neg h
  · unfold IPNetworkAddress.subInt
    split_ifs with h1
    · exact ⟨h1, rfl⟩
    · exact ⟨hwf, rfl⟩
  · intro h
    unfold IPNetworkAddress.subInt
    exact if_pos h
  · intro h
    unfold IPNetworkAddress.subInt
    exact if_neg h

/-- C5 witness: the amended theorem applied to the IPv4 address `10` and
increment `5`. -/
theorem c5_amended_witness :
    IPNetworkAddress.wfa ⟨true, 10⟩ ∧
    IPNetworkAddress.addInt ⟨true, 10⟩ 5 = ⟨true, 15⟩ := by
  have h := c5_amended_add_sub_total_no_wrap ⟨true, 10⟩ 5 (by decide)
  refine ⟨by decide, ?_⟩
  have h2 := h.2.1 (by decide)
  simpa using h2

/-! ### Peers and PeerSet -/

/-- Embeds the concrete (non-IpBlock) peer kinds (`ClusterEP` / `Pod` /
`HostEP`): their set identity, equality and sort key all reduce to the full
name, which is everything the PeerSet layer uses about them. -/
inductive Member where
  | pod (full_name : String)
  | ipb (b : IpBlock)
deriving DecidableEq, Repr

/-- `isinstance(elem, IpBlock)`. -/
def Member.isIpBlock : Member → Bool
  | .pod _ => false
  | .ipb _ => true

/-- Embeds `by_full_name` (Peer.py lines 705-711), the key used to sort the
concrete peer list.  Only concrete peers are ever sorted. -/
def by_full_name : Member → String
  | .pod n => n
  | .ipb _ => ""

/-- Embeds Python `set.add`: a set is represented as the list of its
distinct elements in iteration order; adding appends unless present. -/
def pyAdd (l : List Member) (m : Member) : List Member :=
  if m ∈ l then l else l ++ [m]

/-- Embeds the construction of a Python `set` from an iterable. -/
def pySet (l : List Member) : List Member := l.foldl pyAdd []

/-- Embeds Python set union (`set.__or__` / `__ior__`). -/
def pyUnion (a b : List Member) : List Member := b.foldl pyAdd a

/-- Embeds Python set equality (`==` on sets): same elements. -/
def setEqB (a b : List Member) : Bool :=
  (a.all fun m => decide (m ∈ b)) && (b.all fun m => decide (m ∈ a))

/-- `PeerSet.max_num_of_pods` (Peer.py line 483). -/
def max_num_of_pods : Nat := 10000

/-- `PeerSet.gap_width` (Peer.py line 484): the gap between index segments
that keeps a merge from fusing adjacent segments of different domains. -/
def gap_width : Int := 5

/-- `PeerSet.min_ipv4_index`. -/
def min_ipv4_index : Int := 0

/-- `PeerSet.max_ipv4_index = min_ipv4_index + ipv4_highest_number`. -/
def max_ipv4_index : Int := min_ipv4_index + (ipv4Count - 1)

/-- `PeerSet.min_ipv6_index = max_ipv4_index + gap_width`. -/
def min_ipv6_index : Int := max_ipv4_index + gap_width

/-- `PeerSet.max_ipv6_index = min_ipv6_index + ipv6_highest_number`. -/
def max_ipv6_index : Int := min_ipv6_index + (ipv6Count - 1)

/-- `PeerSet.min_pod_index = max_ipv6_index + gap_width`. -/
def min_pod_index : Int := max_ipv6_index + gap_width

/-- `PeerSet.max_pod_index = min_pod_index + max_num_of_pods - 1`. -/
def max_pod_index : Int := min_pod_index + (max_num_of_pods : Int) - 1

/-- Embeds `PeerSet`: the set contents plus the size-keyed cache of the
sorted concrete peer list. -/
structure PeerSet where
  members : List Member
  sorted_peer_list : List Member
  last_size_when_updated_sorted_peer_list : Nat
deriving DecidableEq, Repr

/-- The concrete (non-IpBlock) elements, in order. -/
def concreteMembers (l : List Member) : List Member :=
  l.filter (fun m => !m.isIpBlock)

/-- Embeds `PeerSet.get_set_without_ip_block` (Peer.py lines 589-593). -/
def PeerSet.get_set_without_ip_block (S : PeerSet) : List Member :=
  concreteMembers S.members

/-- Embeds `PeerSet.__init__` (Peer.py lines 492-496): build the set and
`assert len(get_set_without_ip_block()) <= max_num_of_pods`. -/
def PeerSet.init (peer_set : List Member) : Except PyErr PeerSet :=
  let mems := pySet peer_set
  if (concreteMembers mems).length ≤ max_num_of_pods then Except.ok ⟨mems, [], 0⟩
  else Except.error PyErr.assertionError

/-- Embeds `set.add` on a PeerSet — inherited unchanged from the built-in
`set`, so it performs NO capacity check and leaves the cache fields alone. -/
def PeerSet.add (S : PeerSet) (m : Member) : PeerSet :=
  { S with members := pyAdd S.members m }

/-- Embeds `PeerSet.__contains__` (Peer.py lines 498-504): an IpBlock is a
member when some single IpBlock member contains it; anything else uses plain
set membership. -/
def PeerSet.containsB (S : PeerSet) (item : Member) : Bool :=
  match item with
  | Member.ipb b => S.members.any fun m => match m with
      | Member.ipb p => containedIn b.interval_set p.interval_set
      | _ => false
  | _ => decide (item ∈ S.members)

/-- Embeds `PeerSet.get_ip_block_canonical_form` (Peer.py lines 595-603):
`res = IpBlock()` then `res |= elem` for every IpBlock element. -/
def PeerSet.get_ip_block_canonical_form (S : PeerSet) : List Interval :=
  S.members.foldl (fun acc m => match m with
    | Member.ipb b => unionL acc b.interval_set
    | _ => acc) []

/-- Embeds `PeerSet.__eq__` (Peer.py lines 506-513): concrete members are
compared as plain sets, IpBlock members via their merged canonical forms. -/
def PeerSet.eqB (A B : PeerSet) : Bool :=
  setEqB A.get_set_without_ip_block B.get_set_without_ip_block &&
  decide (A.get_ip_block_canonical_form = B.get_ip_block_canonical_form)

/-- Embeds `PeerSet.__or__` / `__ior__` (Peer.py lines 544-552): set union
re-wrapped through `PeerSet.__init__`, whose capacity assertion (repeated
explicitly in the code) may fail. -/
def PeerSet.orOp (A B : PeerSet) : Except PyErr PeerSet :=
  PeerSet.init (pyUnion A.members B.members)

/-- Embeds `IpBlock.get_peer_set` (Peer.py lines 396-400): `PeerSet({self})`
when the block is non-empty, else the empty PeerSet. -/
def IpBlock.get_peer_set (b : IpBlock) : List Member :=
  if b.interval_set = [] then [] else [Member.ipb b]

/-- Embeds `PeerSet.__iand__` / `__and__` (Peer.py lines 527-542). -/
def PeerSet.andOp (A B : PeerSet) : Except PyErr PeerSet := do
  let res_ipb := IpBlock.get_peer_set
    ⟨interL A.get_ip_block_canonical_form B.get_ip_block_canonical_form⟩
  let res_wo := A.get_set_without_ip_block.filter
    (fun m => decide (m ∈ B.get_set_without_ip_block))
  let left ← PeerSet.init res_wo
  left.orOp ⟨res_ipb, [], 0⟩

/-- Embeds `PeerSet.__isub__` / `__sub__` (Peer.py lines 554-569). -/
def PeerSet.subOp (A B : PeerSet) : Except PyErr PeerSet := do
  let res_ipb := IpBlock.get_peer_set
    ⟨diffL A.get_ip_block_canonical_form B.get_ip_block_canonical_form⟩
  let res_wo := A.get_set_without_ip_block.filter
    (fun m => !decide (m ∈ B.get_set_without_ip_block))
  let left ← PeerSet.init res_wo
  left.orOp ⟨res_ipb, [], 0⟩

/-- The sort relation `key=by_full_name`. -/
def nameLe (a b : Member) : Prop := by_full_name a ≤ by_full_name b

instance : DecidableRel nameLe := fun a b => by unfold nameLe; infer_instance

instance : IsTotal Member nameLe :=
  ⟨fun a b => le_total (by_full_name a) (by_full_name b)⟩

instance : IsTrans Member nameLe :=
  ⟨fun _ _ _ hab hbc => le_trans hab hbc⟩

/-- `sorted((elem for elem in self if not isinstance(elem, IpBlock)),
key=by_full_name)`. -/
def sortedConcrete (l : List Member) : List Member :=
  List.insertionSort nameLe (concreteMembers l)

/-- Embeds `PeerSet.update_sorted_peer_list_if_needed` (Peer.py lines
617-625): rebuild the sorted concrete list only when the set size changed
since the last rebuild. -/
def PeerSet.update_sorted_peer_list_if_needed (S : PeerSet) : PeerSet :=
  if S.last_size_when_updated_sorted_peer_list ≠ S.members.length then
    { S with sorted_peer_list := sortedConcrete S.members,
             last_size_when_updated_sorted_peer_list := S.members.length }
  else S

/-- Embeds `PeerSet.get_peer_interval_of` (Peer.py lines 627-652): single
point `min_pod_index + position` for every sorted concrete peer that is in
the argument set (with the code's `assert not isinstance(peer, IpBlock)`),
then every range of every IpBlock element shifted into the IPv4 or IPv6
segment.  Returns the interval set together with the updated receiver. -/
def PeerSet.get_peer_interval_of (S : PeerSet) (peer_set : PeerSet) :
    Except PyErr (List Interval × PeerSet) := do
  let S' := S.update_sorted_peer_list_if_needed
  let res1 ← S'.sorted_peer_list.enum.foldlM (fun (acc : List Interval) p =>
    if peer_set.containsB p.2 then
      if p.2.isIpBlock then Except.error PyErr.assertionError
      else Except.ok (addInterval acc ⟨min_pod_index + p.1, min_pod_index + p.1⟩)
    else Except.ok acc) []
  let res := peer_set.members.foldl (fun acc m => match m with
    | Member.ipb b => b.interval_set.foldl (fun acc2 cidr =>
        if cidr.start ≤ v4max then
          addInterval acc2 ⟨min_ipv4_index + cidr.start, min_ipv4_index + cidr.end_⟩
        else
          addInterval acc2 ⟨min_ipv6_index + (cidr.start - v6base),
                            min_ipv6_index + (cidr.end_ - v6base)⟩) acc
    | _ => acc) res1
  Except.ok (res, S')

/-- Embeds Python list indexing `l[i]`: negative indices wrap once from the
end; anything else out of range raises `IndexError`. -/
def pyGet (l : List Member) (i : Int) : Except PyErr Member :=
  let j : Int := if i < 0 then i + l.length else i
  if 0 ≤ j then
    match l[j.toNat]? with
    | some m => Except.ok m
    | none => Except.error PyErr.indexError
  else Except.error PyErr.indexError

/-- Embeds Python `range(a, b)` over integers. -/
def intRange (a b : Int) : List Int :=
  (List.range (b - a).toNat).map (fun k : Nat => a + (k : Int))

/-- Embeds `PeerSet.get_peer_set_by_indices` (Peer.py lines 654-682):
intervals ending in the IPv4 / IPv6 segment become single-range IpBlocks
(the address constructors raise `AddressValueError` outside the valid
range); any other interval is asserted to end within the pod segment, its
bounds are clipped with `min(. , len(self) - 1)` — note: `len(self)`, the
FULL member count including IpBlocks — and the positions index into
`sorted_peer_list`.  The collected peers go through `PeerSet.__init__`. -/
def PeerSet.get_peer_set_by_indices (S : PeerSet) (peer_interval_set : List Interval) :
    Except PyErr PeerSet := do
  let S' := S.update_sorted_peer_list_if_needed
  let peer_list ← peer_interval_set.foldlM (fun (acc : List Member) interval => do
    if interval.end_ ≤ max_ipv4_index then
      let s := interval.start - min_ipv4_index
      let e := interval.end_ - min_ipv4_index
      if 0 ≤ s ∧ s ≤ v4max ∧ 0 ≤ e ∧ e ≤ v4max then
        Except.ok (acc ++ [Member.ipb ⟨[⟨s, e⟩]⟩])
      else Except.error PyErr.addressValueError
    else if interval.end_ ≤ max_ipv6_index then
      let s := interval.start - min_ipv6_index
      let e := interval.end_ - min_ipv6_index
      if 0 ≤ s ∧ s ≤ ipv6Count - 1 ∧ 0 ≤ e ∧ e ≤ ipv6Count - 1 then
        Except.ok (acc ++ [Member.ipb ⟨[⟨v6base + s, v6base + e⟩]⟩])
      else Except.error PyErr.addressValueError
    else if interval.end_ ≤ max_pod_index then
      let mx : Int := (S'.members.length : Int) - 1
      (intRange (min (interval.start - min_pod_index) mx)
                (min (interval.end_ - min_pod_index) mx + 1)).foldlM
        (fun (acc2 : List Member) ind => do
          let p ← pyGet S'.sorted_peer_list ind
          Except.ok (acc2 ++ [p])) acc
    else Except.error PyErr.assertionError) []
  PeerSet.init peer_list

instance : DecidableRel sep := fun a b => by unfold sep; infer_instance

instance (l : List Interval) : Decidable (canonical l) := by
  unfold canonical; infer_instance

/-- The pod name used in small concrete examples. -/
def nameA : String := "a"

set_option maxRecDepth 100000 in
/-- C6 (code bug): for the PeerSet `{pod "a", IpBlock}` (one concrete
member, one IpBlock member) and the pod-segment interval
`[min_pod_index + 1, min_pod_index + 1]`, the clip bound
`curr_pods_max_ind = len(self) - 1 = 1` counts the IpBlock member, so the
code indexes `sorted_peer_list[1]` — past the end of the one-element sorted
concrete list — and raises IndexError; dropping the IpBlock member from the
same set makes the same call clip to the ordering's valid range `[0, 0]`
and return the concrete peer there, as the claim describes. -/
theorem c6_pod_clipping_counts_ipblocks_index_error :
    PeerSet.get_peer_set_by_indices ⟨[Member.pod nameA, Member.ipb ⟨[⟨0, 0⟩]⟩], [], 0⟩
      [⟨min_pod_index + 1, min_pod_index + 1⟩] = Except.error PyErr.indexError ∧
    PeerSet.get_peer_set_by_indices ⟨[Member.pod nameA], [], 0⟩
      [⟨min_pod_index + 1, min_pod_index + 1⟩] = Except.ok ⟨[Member.pod nameA], [], 0⟩ := by
  constructor
  · rfl
  · rfl

/-- C10 (confirmed): the membership test `b in S` for an IpBlock `b` holds
exactly when some single IpBlock member of `S` contains all of `b`'s
addresses; coverage by a union of several members does not make it a
member. -/
theorem c10_contains_iff_single_covering_block (S : PeerSet) (b : IpBlock)
    (hb : canonical b.interval_set)
    (hS : ∀ p : IpBlock, Member.ipb p ∈ S.members → canonical p.interval_set) :
    S.containsB (Member.ipb b) = true ↔
      ∃ p : IpBlock, Member.ipb p ∈ S.members ∧
        ∀ x, memL x b.interval_set → memL x p.interval_set := by
  unfold PeerSet.containsB
  simp only [List.any_eq_true]
  constructor
  · rintro ⟨m, hm, hmb⟩
    cases m with
    | pod n => exact absurd hmb (by simp)
    | ipb p => exact ⟨p, hm, (containedIn_iff hb (hS p hm)).mp hmb⟩
  · rintro ⟨p, hp, hcov⟩
    exact ⟨Member.ipb p, hp, (containedIn_iff hb (hS p hp)).mpr hcov⟩

/-- C10 witness: a PeerSet whose two IpBlock members `[0,4]` and `[6,10]`
jointly but not singly cover `[2,8]`: the block `[2,3]` is a member (single
cover by `[0,4]`), while `[2,8]` is covered only by the union and is
correctly not a member. -/
theorem c10_witness :
    canonical [(⟨2, 8⟩ : Interval)] ∧
    (PeerSet.containsB ⟨[Member.ipb ⟨[⟨0, 4⟩]⟩, Member.ipb ⟨[⟨6, 10⟩]⟩], [], 0⟩
        (Member.ipb ⟨[⟨2, 8⟩]⟩) = false) := by
  refine ⟨by decide, ?_⟩
  have h := c10_contains_iff_single_covering_block
    ⟨[Member.ipb ⟨[⟨0, 4⟩]⟩, Member.ipb ⟨[⟨6, 10⟩]⟩], [], 0⟩ ⟨[⟨2, 8⟩]⟩
    (by decide)
    (by
      intro p hp
      simp only [List.mem_cons, List.mem_singleton] at hp
      rcases hp with hp | hp | hp
      · cases hp; decide
      · cases hp; decide
      · exact absurd hp (List.not_mem_nil _))
  rcases hcase : PeerSet.containsB ⟨[Member.ipb ⟨[⟨0, 4⟩]⟩, Member.ipb ⟨[⟨6, 10⟩]⟩], [], 0⟩
      (Member.ipb ⟨[⟨2, 8⟩]⟩) with _ | _
  · rfl
  · exfalso
    rcases h.mp hcase with ⟨p, hp, hcov⟩
    simp only [List.mem_cons, List.mem_singleton] at hp
    rcases hp with hp | hp | hp
    · cases hp
      have h5 := hcov 5 (by decide)
      revert h5; decide
    · cases hp
      have h2 := hcov 2 (by decide)
      revert h2; decide
    · exact absurd hp (List.not_mem_nil _)

/-! ### C4: the capacity bound -/

/-- Distinct pod names for bulk examples: pod `i` is named by `i`
repetitions of the letter `a`. -/
def podName (i : Nat) : String := ⟨List.replicate i 'a'⟩

/-- A list of `n` distinct concrete pods. -/
def podListUpTo (n : Nat) : List Member :=
  (List.range n).map (fun i => Member.pod (podName i))

theorem podName_inj : Function.Injective podName := by
  intro i j h
  have hd : (podName i).data = (podName j).data := congrArg String.data h
  simpa [podName] using congrArg List.length hd

theorem podListUpTo_nodup (n : Nat) : (podListUpTo n).Nodup := by
  refine List.Nodup.map ?_ (List.nodup_range n)
  intro i j h
  simp only [Member.pod.injEq] at h
  exact podName_inj h

theorem foldl_pyAdd_of_nodup : ∀ (l acc : List Member), (acc ++ l).Nodup →
    l.foldl pyAdd acc = acc ++ l := by
  intro l
  induction l with
  | nil => intro acc _; simp
  | cons a t ih =>
    intro acc h
    have hna : a ∉ acc := by
      rcases List.nodup_append.mp h with ⟨_, _, hdisj⟩
      intro hmem
      exact hdisj hmem (List.mem_cons_self a t)
    simp only [List.foldl_cons]
    have hstep : pyAdd acc a = acc ++ [a] := by
      unfold pyAdd
      rw [if_neg hna]
    rw [hstep]
    have hre : (acc ++ [a]) ++ t = acc ++ a :: t := by simp
    have := ih (acc ++ [a]) (by rw [hre]; exact h)
    rw [this, hre]

theorem pySet_of_nodup {l : List Member} (h : l.Nodup) : pySet l = l := by
  unfold pySet
  simpa using foldl_pyAdd_of_nodup l [] (by simpa using h)

theorem concreteMembers_podListUpTo (n : Nat) :
    concreteMembers (podListUpTo n) = podListUpTo n := by
  refine List.filter_eq_self.mpr ?_
  intro m hm
  rcases List.mem_map.mp hm with ⟨i, _, heq⟩
  rw [← heq]
  rfl

theorem podListUpTo_length (n : Nat) : (podListUpTo n).length = n := by
  simp [podListUpTo]

theorem podListUpTo_concrete_count (n : Nat) :
    (concreteMembers (pySet (podListUpTo n))).length = n := by
  rw [pySet_of_nodup (podListUpTo_nodup n), concreteMembers_podListUpTo,
    podListUpTo_length]

theorem new_pod_not_mem (n : Nat) :
    Member.pod (podName n) ∉ podListUpTo n := by
  intro h
  rcases List.mem_map.mp h with ⟨i, hi, heq⟩
  simp only [Member.pod.injEq] at heq
  have := podName_inj heq
  rw [this] at hi
  exact absurd (List.mem_range.mp hi) (lt_irrefl _)

theorem podList_init_ok (n : Nat) (h : n ≤ max_num_of_pods) :
    PeerSet.init (podListUpTo n) = Except.ok ⟨podListUpTo n, [], 0⟩ := by
  unfold PeerSet.init
  rw [pySet_of_nodup (podListUpTo_nodup _)]
  rw [if_pos (by rw [concreteMembers_podListUpTo, podListUpTo_length]; exact h)]

theorem pyAdd_of_not_mem {l : List Member} {m : Member} (h : m ∉ l) :
    pyAdd l m = l ++ [m] := by
  unfold pyAdd
  rw [if_neg h]

theorem podList_add_count (n : Nat) :
    (concreteMembers ((PeerSet.add ⟨podListUpTo n, [], 0⟩
      (Member.pod (podName n))).members)).length = n + 1 := by
  unfold PeerSet.add
  show (concreteMembers (pyAdd (podListUpTo n) (Member.pod (podName n)))).length = n + 1
  rw [pyAdd_of_not_mem (new_pod_not_mem n)]
  unfold concreteMembers
  rw [List.filter_append, List.length_append]
  have h1 : List.filter (fun m => !m.isIpBlock) (podListUpTo n) =
      podListUpTo n := concreteMembers_podListUpTo n
  rw [h1, podListUpTo_length]
  simp [Member.isIpBlock]

/-- C4 counterexample: a PeerSet holding exactly `max_num_of_pods` concrete
peers is accepted by the constructor, and `set.add` — inherited from the
built-in `set`, not overridden — then inserts one more concrete peer with NO
failure of any kind, leaving the set one past the maximum.  The claim that
EVERY mutation exceeding the maximum fails is therefore false. -/
theorem c4_counterexample_add_is_unchecked :
    PeerSet.init (podListUpTo max_num_of_pods) =
      Except.ok ⟨podListUpTo max_num_of_pods, [], 0⟩ ∧
    (concreteMembers ((PeerSet.add ⟨podListUpTo max_num_of_pods, [], 0⟩
        (Member.pod (podName max_num_of_pods))).members)).length =
      max_num_of_pods + 1 :=
  ⟨podList_init_ok max_num_of_pods (le_refl _), podList_add_count max_num_of_pods⟩

/-- C4 (amended): PeerSet CONSTRUCTION (`__init__`) and UNION (`|` / `|=`)
that would exceed the maximum concrete-member count fail with an
AssertionError; the element-wise `set.add` is inherited unchecked, so only
those operations enforce the bound (see the counterexample). -/
theorem c4_amended_init_and_or_enforce_capacity :
    (∀ l : List Member, max_num_of_pods < (concreteMembers (pySet l)).length →
      PeerSet.init l = Except.error PyErr.assertionError) ∧
    (∀ A B : PeerSet,
      max_num_of_pods < (concreteMembers (pySet (pyUnion A.members B.members))).length →
      A.orOp B = Except.error PyErr.assertionError) := by
  constructor
  · intro l h
    unfold PeerSet.init
    rw [if_neg (by omega)]
  · intro A B h
    unfold PeerSet.orOp PeerSet.init
    rw [if_neg (by omega)]

/-- C4 witness: constructing a PeerSet from `max_num_of_pods + 1` distinct
concrete pods trips the capacity assertion. -/
theorem c4_amended_witness :
    max_num_of_pods < (concreteMembers (pySet (podListUpTo (max_num_of_pods + 1)))).length ∧
    PeerSet.init (podListUpTo (max_num_of_pods + 1)) = Except.error PyErr.assertionError := by
  have hlen := podListUpTo_concrete_count (max_num_of_pods + 1)
  refine ⟨by rw [hlen]; omega, ?_⟩
  exact c4_amended_init_and_or_enforce_capacity.1 _ (by rw [hlen]; omega)

/-! ### Aggregation of IpBlock members and PeerSet equality (C7) -/

/-- Every IpBlock member of the set has well-formed intervals (the data-model
invariant of spec §3: interval sets only hold non-empty intervals). -/
def aggWf (S : PeerSet) : Prop :=
  ∀ b : IpBlock, Member.ipb b ∈ S.members → ∀ iv ∈ b.interval_set, iv.wf

theorem aggFold_spec (l : List Member) :
    ∀ (acc : List Interval), canonical acc →
    (∀ b : IpBlock, Member.ipb b ∈ l → ∀ iv ∈ b.interval_set, iv.wf) →
    canonical (l.foldl (fun acc m => match m with
      | Member.ipb b => unionL acc b.interval_set
      | _ => acc) acc) ∧
    ∀ x, memL x (l.foldl (fun acc m => match m with
      | Member.ipb b => unionL acc b.interval_set
      | _ => acc) acc) ↔
      memL x acc ∨ ∃ b : IpBlock, Member.ipb b ∈ l ∧ memL x b.interval_set := by
  induction l with
  | nil =>
    intro acc hacc _
    simp only [List.foldl_nil]
    refine ⟨hacc, fun x => ?_⟩
    simp
  | cons m t ih =>
    intro acc hacc hwf
    cases m with
    | pod n =>
      simp only [List.foldl_cons]
      have ht := ih acc hacc (fun b hb => hwf b (List.mem_cons_of_mem _ hb))
      refine ⟨ht.1, fun x => ?_⟩
      rw [ht.2 x]
      constructor
      · rintro (h | ⟨b, hb, hm⟩)
        · exact Or.inl h
        · exact Or.inr ⟨b, List.mem_cons_of_mem _ hb, hm⟩
      · rintro (h | ⟨b, hb, hm⟩)
        · exact Or.inl h
        · rcases List.mem_cons.mp hb with heq | hb'
          · exact absurd heq (by simp)
          · exact Or.inr ⟨b, hb', hm⟩
    | ipb b =>
      simp only [List.foldl_cons]
      have hbwf : ∀ iv ∈ b.interval_set, iv.wf :=
        hwf b (List.mem_cons_self _ _)
      have hacc' := unionL_spec hacc hbwf
      have ht := ih (unionL acc b.interval_set) hacc'.1
        (fun p hp => hwf p (List.mem_cons_of_mem _ hp))
      refine ⟨ht.1, fun x => ?_⟩
      rw [ht.2 x, hacc'.2 x]
      constructor
      · rintro ((h | h) | ⟨p, hp, hm⟩)
        · exact Or.inl h
        · exact Or.inr ⟨b, List.mem_cons_self _ _, h⟩
        · exact Or.inr ⟨p, List.mem_cons_of_mem _ hp, hm⟩
      · rintro (h | ⟨p, hp, hm⟩)
        · exact Or.inl (Or.inl h)
        · rcases List.mem_cons.mp hp with heq | hp'
          · have : p = b := by
              have := heq
              simpa [Member.ipb.injEq] using this
            rw [this] at hm
            exact Or.inl (Or.inr hm)
          · exact Or.inr ⟨p, hp', hm⟩

theorem get_ip_block_canonical_form_spec (S : PeerSet) (h : aggWf S) :
    canonical S.get_ip_block_canonical_form ∧
    ∀ x, memL x S.get_ip_block_canonical_form ↔
      ∃ b : IpBlock, Member.ipb b ∈ S.members ∧ memL x b.interval_set := by
  unfold PeerSet.get_ip_block_canonical_form
  have hspec := aggFold_spec S.members [] canonical_nil h
  refine ⟨hspec.1, fun x => ?_⟩
  rw [hspec.2 x]
  have h1 := memL_nil x
  tauto

theorem setEqB_iff (a b : List Member) :
    setEqB a b = true ↔ ∀ m : Member, m ∈ a ↔ m ∈ b := by
  unfold setEqB
  rw [Bool.and_eq_true]
  simp only [List.all_eq_true, decide_eq_true_eq]
  constructor
  · rintro ⟨h1, h2⟩ m
    exact ⟨fun hm => h1 m hm, fun hm => h2 m hm⟩
  · intro h
    exact ⟨fun m hm => (h m).mp hm, fun m hm => (h m).mpr hm⟩

theorem mem_concreteMembers {l : List Member} {x : Member} :
    x ∈ concreteMembers l ↔ x ∈ l ∧ x.isIpBlock = false := by
  unfold concreteMembers
  rw [List.mem_filter]
  simp

/-- C7 (confirmed): PeerSet equality holds exactly when the concrete members
agree as plain sets and the IpBlock members cover the same addresses as
interval sets; it never depends on how those addresses are partitioned into
IpBlock elements. -/
theorem c7_eq_iff_concrete_sets_and_merged_blocks (A B : PeerSet)
    (hA : aggWf A) (hB : aggWf B) :
    A.eqB B = true ↔
      ((∀ m : Member, m.isIpBlock = false → (m ∈ A.members ↔ m ∈ B.members)) ∧
       (∀ x : Int,
         (∃ b : IpBlock, Member.ipb b ∈ A.members ∧ memL x b.interval_set) ↔
         (∃ b : IpBlock, Member.ipb b ∈ B.members ∧ memL x b.interval_set))) := by
  unfold PeerSet.eqB
  rw [Bool.and_eq_true, decide_eq_true_eq, setEqB_iff]
  rcases get_ip_block_canonical_form_spec A hA with ⟨hcA, hmA⟩
  rcases get_ip_block_canonical_form_spec B hB with ⟨hcB, hmB⟩
  unfold PeerSet.get_set_without_ip_block
  constructor
  · rintro ⟨hconc, hagg⟩
    constructor
    · intro m hm
      have h := hconc m
      rw [mem_concreteMembers, mem_concreteMembers] at h
      constructor
      · intro hmem; exact (h.mp ⟨hmem, hm⟩).1
      · intro hmem; exact (h.mpr ⟨hmem, hm⟩).1
    · intro x
      rw [← hmA x, ← hmB x, hagg]
  · rintro ⟨hconc, hagg⟩
    constructor
    · intro m
      rw [mem_concreteMembers, mem_concreteMembers]
      constructor
      · rintro ⟨h1, h2⟩; exact ⟨(hconc m h2).mp h1, h2⟩
      · rintro ⟨h1, h2⟩; exact ⟨(hconc m h2).mpr h1, h2⟩
    · refine canonical_ext hcA hcB ?_
      intro x
      rw [hmA x, hmB x]
      exact hagg x

/-- C7 witness: `{IpBlock [0,5]}` and `{IpBlock [0,2], IpBlock [3,5]}`
partition the same addresses differently and compare equal. -/
theorem c7_witness :
    PeerSet.eqB ⟨[Member.ipb ⟨[⟨0, 5⟩]⟩], [], 0⟩
      ⟨[Member.ipb ⟨[⟨0, 2⟩]⟩, Member.ipb ⟨[⟨3, 5⟩]⟩], [], 0⟩ = true ∧
    (PeerSet.eqB ⟨[Member.ipb ⟨[⟨0, 5⟩]⟩], [], 0⟩
        ⟨[Member.ipb ⟨[⟨0, 2⟩]⟩, Member.ipb ⟨[⟨3, 5⟩]⟩], [], 0⟩ = true ↔
      ((∀ m : Member, m.isIpBlock = false →
        (m ∈ ([Member.ipb ⟨[⟨0, 5⟩]⟩] : List Member) ↔
         m ∈ ([Member.ipb ⟨[⟨0, 2⟩]⟩, Member.ipb ⟨[⟨3, 5⟩]⟩] : List Member))) ∧
       (∀ x : Int,
         (∃ b : IpBlock, Member.ipb b ∈ ([Member.ipb ⟨[⟨0, 5⟩]⟩] : List Member) ∧
           memL x b.interval_set) ↔
         (∃ b : IpBlock,
           Member.ipb b ∈ ([Member.ipb ⟨[⟨0, 2⟩]⟩, Member.ipb ⟨[⟨3, 5⟩]⟩] : List Member) ∧
           memL x b.interval_set)))) := by
  constructor
  · decide
  · exact c7_eq_iff_concrete_sets_and_merged_blocks
      ⟨[Member.ipb ⟨[⟨0, 5⟩]⟩], [], 0⟩
      ⟨[Member.ipb ⟨[⟨0, 2⟩]⟩, Member.ipb ⟨[⟨3, 5⟩]⟩], [], 0⟩
      (by
        intro b hb
        simp only [List.mem_singleton, Member.ipb.injEq] at hb
        subst hb
        decide)
      (by
        intro b hb
        simp only [List.mem_cons, List.mem_singleton, Member.ipb.injEq] at hb
        rcases hb with hb | hb | hb
        · subst hb; decide
        · subst hb; decide
        · exact absurd hb (by simp))

/-! ### Python-set membership and size lemmas -/

theorem pyAdd_mem {l : List Member} {m x : Member} :
    x ∈ pyAdd l m ↔ x ∈ l ∨ x = m := by
  unfold pyAdd
  split_ifs with h
  · constructor
    · exact Or.inl
    · rintro (h1 | rfl)
      · exact h1
      · exact h
  · simp [List.mem_append]

theorem pyUnion_mem : ∀ {b a : List Member} {x : Member},
    x ∈ pyUnion a b ↔ x ∈ a ∨ x ∈ b := by
  intro b
  induction b with
  | nil =>
    intro a x
    simp only [pyUnion, List.foldl_nil]
    simp
  | cons m t ih =>
    intro a x
    simp only [pyUnion, List.foldl_cons] at *
    rw [ih, pyAdd_mem]
    simp only [List.mem_cons]
    constructor
    · rintro ((h | h) | h)
      · exact Or.inl h
      · exact Or.inr (Or.inl h)
      · exact Or.inr (Or.inr h)
    · rintro (h | h | h)
      · exact Or.inl (Or.inl h)
      · exact Or.inl (Or.inr h)
      · exact Or.inr h

theorem pySet_mem {l : List Member} {x : Member} : x ∈ pySet l ↔ x ∈ l := by
  have h : pySet l = pyUnion [] l := rfl
  rw [h, pyUnion_mem]
  simp

theorem foldl_pyAdd_sublist : ∀ (l acc : List Member),
    List.Sublist (l.foldl pyAdd acc) (acc ++ l) := by
  intro l
  induction l with
  | nil => intro acc; simp
  | cons m t ih =>
    intro acc
    simp only [List.foldl_cons]
    have h1 : List.Sublist (t.foldl pyAdd (pyAdd acc m)) (pyAdd acc m ++ t) :=
      ih (pyAdd acc m)
    have h2 : List.Sublist (pyAdd acc m ++ t) (acc ++ m :: t) := by
      unfold pyAdd
      split_ifs with hmem
      · exact List.Sublist.append_left (List.sublist_cons_self m t) acc
      · have he : (acc ++ [m]) ++ t = acc ++ m :: t := by simp
        rw [he]
    exact h1.trans h2

theorem pySet_sublist (l : List Member) : List.Sublist (pySet l) l := by
  have h := foldl_pyAdd_sublist l []
  simpa using h

theorem concrete_pySet_le (u : List Member) :
    (concreteMembers (pySet u)).length ≤ (concreteMembers u).length :=
  List.Sublist.length_le (List.Sublist.filter _ (pySet_sublist u))

theorem init_eq_ok {l : List Member}
    (h : (concreteMembers (pySet l)).length ≤ max_num_of_pods) :
    PeerSet.init l = Except.ok ⟨pySet l, [], 0⟩ := by
  unfold PeerSet.init
  rw [if_pos h]

theorem orOp_eq_ok {A B : PeerSet}
    (h : (concreteMembers (pySet (pyUnion A.members B.members))).length ≤ max_num_of_pods) :
    A.orOp B = Except.ok ⟨pySet (pyUnion A.members B.members), [], 0⟩ := by
  unfold PeerSet.orOp
  exact init_eq_ok h

theorem concrete_pyAdd_ipb (a : List Member) (b : IpBlock) :
    concreteMembers (pyAdd a (Member.ipb b)) = concreteMembers a := by
  unfold pyAdd
  split_ifs with h
  · rfl
  · unfold concreteMembers
    rw [List.filter_append]
    simp [Member.isIpBlock]

theorem concrete_pyUnion_peer_set (a : List Member) (b : IpBlock) :
    concreteMembers (pyUnion a (IpBlock.get_peer_set b)) = concreteMembers a := by
  unfold IpBlock.get_peer_set
  split_ifs with h
  · rfl
  · show concreteMembers (pyAdd a (Member.ipb b)) = concreteMembers a
    exact concrete_pyAdd_ipb a b

/-! ### C9: intersection equals difference of differences -/

/-- The concrete-member part of `A & B` before re-wrapping. -/
def wFilterAnd (A B : PeerSet) : List Member :=
  A.get_set_without_ip_block.filter
    (fun m => decide (m ∈ B.get_set_without_ip_block))

/-- The concrete-member part of `A - B` before re-wrapping. -/
def wFilterSub (A B : PeerSet) : List Member :=
  A.get_set_without_ip_block.filter
    (fun m => !decide (m ∈ B.get_set_without_ip_block))

/-- The PeerSet built from a concrete part and an IpBlock's peer set, the
shape produced by `__iand__` / `__isub__`. -/
def combinePS (w : List Member) (blk : IpBlock) : PeerSet :=
  ⟨pySet (pyUnion (pySet w) (IpBlock.get_peer_set blk)), [], 0⟩

/-- The value computed by `A & B`. -/
def andRes (A B : PeerSet) : PeerSet :=
  combinePS (wFilterAnd A B)
    ⟨interL A.get_ip_block_canonical_form B.get_ip_block_canonical_form⟩

/-- The value computed by `A - B`. -/
def subRes (A B : PeerSet) : PeerSet :=
  combinePS (wFilterSub A B)
    ⟨diffL A.get_ip_block_canonical_form B.get_ip_block_canonical_form⟩

theorem wFilterAnd_concrete (A B : PeerSet) :
    ∀ m ∈ wFilterAnd A B, m.isIpBlock = false := by
  intro m hm
  have h1 : m ∈ A.get_set_without_ip_block := List.mem_of_mem_filter hm
  exact (mem_concreteMembers.mp h1).2

theorem wFilterSub_concrete (A B : PeerSet) :
    ∀ m ∈ wFilterSub A B, m.isIpBlock = false := by
  intro m hm
  have h1 : m ∈ A.get_set_without_ip_block := List.mem_of_mem_filter hm
  exact (mem_concreteMembers.mp h1).2

theorem wFilterAnd_count_le (A B : PeerSet) :
    (concreteMembers (pySet (wFilterAnd A B))).length ≤
      (concreteMembers A.members).length := by
  refine le_trans (concrete_pySet_le _) ?_
  refine le_trans (List.length_filter_le _ _) ?_
  refine le_trans (List.length_filter_le _ _) ?_
  exact le_of_eq rfl

theorem wFilterSub_count_le (A B : PeerSet) :
    (concreteMembers (pySet (wFilterSub A B))).length ≤
      (concreteMembers A.members).length := by
  refine le_trans (concrete_pySet_le _) ?_
  refine le_trans (List.length_filter_le _ _) ?_
  refine le_trans (List.length_filter_le _ _) ?_
  exact le_of_eq rfl

theorem andOp_eq_ok (A B : PeerSet)
    (hA : (concreteMembers A.members).length ≤ max_num_of_pods) :
    A.andOp B = Except.ok (andRes A B) := by
  have h1 : (concreteMembers (pySet (wFilterAnd A B))).length ≤ max_num_of_pods :=
    le_trans (wFilterAnd_count_le A B) hA
  have h2 : (concreteMembers (pySet (pyUnion (pySet (wFilterAnd A B))
      (IpBlock.get_peer_set
        ⟨interL A.get_ip_block_canonical_form B.get_ip_block_canonical_form⟩)))).length ≤
      max_num_of_pods := by
    refine le_trans (concrete_pySet_le _) ?_
    rw [concrete_pyUnion_peer_set]
    exact le_trans (concrete_pySet_le _)
      (le_trans (le_trans (List.length_filter_le _ _) (List.length_filter_le _ _)) hA)
  unfold PeerSet.andOp
  show (do
    let left ← PeerSet.init (wFilterAnd A B)
    left.orOp ⟨IpBlock.get_peer_set
      ⟨interL A.get_ip_block_canonical_form B.get_ip_block_canonical_form⟩, [], 0⟩) =
    Except.ok (andRes A B)
  rw [init_eq_ok h1]
  show ((⟨pySet (wFilterAnd A B), [], 0⟩ : PeerSet)).orOp
    ⟨IpBlock.get_peer_set
      ⟨interL A.get_ip_block_canonical_form B.get_ip_block_canonical_form⟩, [], 0⟩ =
    Except.ok (andRes A B)
  exact orOp_eq_ok h2

theorem subOp_eq_ok (A B : PeerSet)
    (hA : (concreteMembers A.members).length ≤ max_num_of_pods) :
    A.subOp B = Except.ok (subRes A B) := by
  have h1 : (concreteMembers (pySet (wFilterSub A B))).length ≤ max_num_of_pods :=
    le_trans (wFilterSub_count_le A B) hA
  have h2 : (concreteMembers (pySet (pyUnion (pySet (wFilterSub A B))
      (IpBlock.get_peer_set
        ⟨diffL A.get_ip_block_canonical_form B.get_ip_block_canonical_form⟩)))).length ≤
      max_num_of_pods := by
    refine le_trans (concrete_pySet_le _) ?_
    rw [concrete_pyUnion_peer_set]
    exact le_trans (concrete_pySet_le _)
      (le_trans (le_trans (List.length_filter_le _ _) (List.length_filter_le _ _)) hA)
  unfold PeerSet.subOp
  show (do
    let left ← PeerSet.init (wFilterSub A B)
    left.orOp ⟨IpBlock.get_peer_set
      ⟨diffL A.get_ip_block_canonical_form B.get_ip_block_canonical_form⟩, [], 0⟩) =
    Except.ok (subRes A B)
  rw [init_eq_ok h1]
  show ((⟨pySet (wFilterSub A B), [], 0⟩ : PeerSet)).orOp
    ⟨IpBlock.get_peer_set
      ⟨diffL A.get_ip_block_canonical_form B.get_ip_block_canonical_form⟩, [], 0⟩ =
    Except.ok (subRes A B)
  exact orOp_eq_ok h2

theorem combinePS_mem {w : List Member} {blk : IpBlock} {x : Member} :
    x ∈ (combinePS w blk).members ↔
      x ∈ w ∨ (blk.interval_set ≠ [] ∧ x = Member.ipb blk) := by
  unfold combinePS
  show x ∈ pySet (pyUnion (pySet w) (IpBlock.get_peer_set blk)) ↔ _
  rw [pySet_mem, pyUnion_mem, pySet_mem]
  unfold IpBlock.get_peer_set
  split_ifs with h
  · simp [h]
  · simp [h, List.mem_singleton]

theorem combinePS_concrete_mem {w : List Member} {blk : IpBlock} {x : Member}
    (hw : ∀ m ∈ w, m.isIpBlock = false) :
    x ∈ concreteMembers (combinePS w blk).members ↔ x ∈ w := by
  rw [mem_concreteMembers, combinePS_mem]
  constructor
  · rintro ⟨h1 | ⟨hne, rfl⟩, h2⟩
    · exact h1
    · exact absurd h2 (by simp [Member.isIpBlock])
  · intro h
    exact ⟨Or.inl h, hw x h⟩

theorem combinePS_agg {w : List Member} {blk : IpBlock}
    (hw : ∀ m ∈ w, m.isIpBlock = false) (hc : canonical blk.interval_set) :
    canonical (combinePS w blk).get_ip_block_canonical_form ∧
    ∀ x, memL x (combinePS w blk).get_ip_block_canonical_form ↔
      memL x blk.interval_set := by
  have hwf : aggWf (combinePS w blk) := by
    intro p hp iv hiv
    rcases combinePS_mem.mp hp with hmem | ⟨_, heq⟩
    · exact absurd (hw _ hmem) (by simp [Member.isIpBlock])
    · have : p = blk := by simpa [Member.ipb.injEq] using heq
      rw [this] at hiv
      exact hc.1 iv hiv
  rcases get_ip_block_canonical_form_spec _ hwf with ⟨hcagg, hmagg⟩
  refine ⟨hcagg, fun x => ?_⟩
  rw [hmagg x]
  constructor
  · rintro ⟨p, hp, hm⟩
    rcases combinePS_mem.mp hp with hmem | ⟨_, heq⟩
    · exact absurd (hw _ hmem) (by simp [Member.isIpBlock])
    · have : p = blk := by simpa [Member.ipb.injEq] using heq
      rw [this] at hm
      exact hm
  · intro hm
    have hne : blk.interval_set ≠ [] := by
      intro he
      rw [he] at hm
      exact memL_nil x hm
    exact ⟨blk, combinePS_mem.mpr (Or.inr ⟨hne, rfl⟩), hm⟩

theorem wFilterAnd_mem {A B : PeerSet} {m : Member} :
    m ∈ wFilterAnd A B ↔
      m ∈ A.get_set_without_ip_block ∧ m ∈ B.get_set_without_ip_block := by
  unfold wFilterAnd
  rw [List.mem_filter]
  simp

theorem wFilterSub_mem {A B : PeerSet} {m : Member} :
    m ∈ wFilterSub A B ↔
      m ∈ A.get_set_without_ip_block ∧ m ∉ B.get_set_without_ip_block := by
  unfold wFilterSub
  rw [List.mem_filter]
  simp

theorem andRes_concrete_mem (A B : PeerSet) {m : Member} :
    m ∈ concreteMembers (andRes A B).members ↔ m ∈ wFilterAnd A B :=
  combinePS_concrete_mem (wFilterAnd_concrete A B)

theorem subRes_concrete_mem (A B : PeerSet) {m : Member} :
    m ∈ concreteMembers (subRes A B).members ↔ m ∈ wFilterSub A B :=
  combinePS_concrete_mem (wFilterSub_concrete A B)

theorem andRes_agg (A B : PeerSet)
    (hcA : canonical A.get_ip_block_canonical_form)
    (hcB : canonical B.get_ip_block_canonical_form) :
    canonical (andRes A B).get_ip_block_canonical_form ∧
    ∀ x, memL x (andRes A B).get_ip_block_canonical_form ↔
      (memL x A.get_ip_block_canonical_form ∧
       memL x B.get_ip_block_canonical_form) := by
  have hspec := interL_spec A.get_ip_block_canonical_form B.get_ip_block_canonical_form
  have h := @combinePS_agg (wFilterAnd A B)
    ⟨interL A.get_ip_block_canonical_form B.get_ip_block_canonical_form⟩
    (wFilterAnd_concrete A B) hspec.1
  unfold andRes
  refine ⟨h.1, fun x => ?_⟩
  rw [h.2 x]
  exact hspec.2 x

theorem subRes_agg (A B : PeerSet)
    (hcA : canonical A.get_ip_block_canonical_form)
    (hcB : canonical B.get_ip_block_canonical_form) :
    canonical (subRes A B).get_ip_block_canonical_form ∧
    ∀ x, memL x (subRes A B).get_ip_block_canonical_form ↔
      (memL x A.get_ip_block_canonical_form ∧
       ¬ memL x B.get_ip_block_canonical_form) := by
  have hspec := diffL_spec (b := B.get_ip_block_canonical_form)
    (a := A.get_ip_block_canonical_form) hcA hcB.1
  have h := @combinePS_agg (wFilterSub A B)
    ⟨diffL A.get_ip_block_canonical_form B.get_ip_block_canonical_form⟩
    (wFilterSub_concrete A B) hspec.1
  unfold subRes
  refine ⟨h.1, fun x => ?_⟩
  rw [h.2 x]
  exact hspec.2 x

/-- C9 (confirmed): for all PeerSets `A` and `B` (mixing concrete endpoints
and IpBlocks, within capacity and with well-formed IpBlock members), the
operations `A & B` and `A - (A - B)` both succeed and their results compare
equal under the IpBlock-aware PeerSet equality. -/
theorem c9_inter_eq_diff_of_diff (A B : PeerSet)
    (hA : (concreteMembers A.members).length ≤ max_num_of_pods)
    (hAw : aggWf A) (hBw : aggWf B) :
    A.andOp B = Except.ok (andRes A B) ∧
    A.subOp B = Except.ok (subRes A B) ∧
    A.subOp (subRes A B) = Except.ok (subRes A (subRes A B)) ∧
    (andRes A B).eqB (subRes A (subRes A B)) = true := by
  refine ⟨andOp_eq_ok A B hA, subOp_eq_ok A B hA, subOp_eq_ok A _ hA, ?_⟩
  rcases get_ip_block_canonical_form_spec A hAw with ⟨hcA, _⟩
  rcases get_ip_block_canonical_form_spec B hBw with ⟨hcB, _⟩
  have hE := subRes_agg A B hcA hcB
  have hD := subRes_agg A (subRes A B) hcA hE.1
  have hC := andRes_agg A B hcA hcB
  unfold PeerSet.eqB
  rw [Bool.and_eq_true, decide_eq_true_eq, setEqB_iff]
  constructor
  · intro m
    show m ∈ concreteMembers (andRes A B).members ↔
      m ∈ concreteMembers (subRes A (subRes A B)).members
    rw [andRes_concrete_mem, subRes_concrete_mem, wFilterAnd_mem, wFilterSub_mem]
    have hEconc : m ∈ (subRes A B).get_set_without_ip_block ↔
        (m ∈ A.get_set_without_ip_block ∧ m ∉ B.get_set_without_ip_block) := by
      show m ∈ concreteMembers (subRes A B).members ↔ _
      rw [subRes_concrete_mem, wFilterSub_mem]
    rw [hEconc]
    tauto
  · refine canonical_ext hC.1 hD.1 ?_
    intro x
    rw [hC.2 x, hD.2 x, hE.2 x]
    tauto

/-- C9 witness: the theorem applied to `A = {pod "a", IpBlock [0,10]}` and
`B = {IpBlock [5,20]}`. -/
theorem c9_witness :
    ((concreteMembers ([Member.pod nameA, Member.ipb ⟨[⟨0, 10⟩]⟩] : List Member)).length ≤
      max_num_of_pods) ∧
    (PeerSet.andOp ⟨[Member.pod nameA, Member.ipb ⟨[⟨0, 10⟩]⟩], [], 0⟩
        ⟨[Member.ipb ⟨[⟨5, 20⟩]⟩], [], 0⟩ =
      Except.ok (andRes ⟨[Member.pod nameA, Member.ipb ⟨[⟨0, 10⟩]⟩], [], 0⟩
        ⟨[Member.ipb ⟨[⟨5, 20⟩]⟩], [], 0⟩) ∧
     PeerSet.subOp ⟨[Member.pod nameA, Member.ipb ⟨[⟨0, 10⟩]⟩], [], 0⟩
        ⟨[Member.ipb ⟨[⟨5, 20⟩]⟩], [], 0⟩ =
      Except.ok (subRes ⟨[Member.pod nameA, Member.ipb ⟨[⟨0, 10⟩]⟩], [], 0⟩
        ⟨[Member.ipb ⟨[⟨5, 20⟩]⟩], [], 0⟩) ∧
     PeerSet.subOp ⟨[Member.pod nameA, Member.ipb ⟨[⟨0, 10⟩]⟩], [], 0⟩
        (subRes ⟨[Member.pod nameA, Member.ipb ⟨[⟨0, 10⟩]⟩], [], 0⟩
          ⟨[Member.ipb ⟨[⟨5, 20⟩]⟩], [], 0⟩) =
      Except.ok (subRes ⟨[Member.pod nameA, Member.ipb ⟨[⟨0, 10⟩]⟩], [], 0⟩
        (subRes ⟨[Member.pod nameA, Member.ipb ⟨[⟨0, 10⟩]⟩], [], 0⟩
          ⟨[Member.ipb ⟨[⟨5, 20⟩]⟩], [], 0⟩)) ∧
     (andRes ⟨[Member.pod nameA, Member.ipb ⟨[⟨0, 10⟩]⟩], [], 0⟩
        ⟨[Member.ipb ⟨[⟨5, 20⟩]⟩], [], 0⟩).eqB
       (subRes ⟨[Member.pod nameA, Member.ipb ⟨[⟨0, 10⟩]⟩], [], 0⟩
         (subRes ⟨[Member.pod nameA, Member.ipb ⟨[⟨0, 10⟩]⟩], [], 0⟩
           ⟨[Member.ipb ⟨[⟨5, 20⟩]⟩], [], 0⟩)) = true) := by
  refine ⟨by decide, ?_⟩
  exact c9_inter_eq_diff_of_diff
    ⟨[Member.pod nameA, Member.ipb ⟨[⟨0, 10⟩]⟩], [], 0⟩
    ⟨[Member.ipb ⟨[⟨5, 20⟩]⟩], [], 0⟩
    (by decide)
    (by
      intro b hb
      simp only [List.mem_cons, List.mem_singleton] at hb
      rcases hb with hb | hb | hb
      · exact absurd hb (by simp)
      · cases hb; decide
      · exact absurd hb (List.not_mem_nil _))
    (by
      intro b hb
      simp only [List.mem_singleton] at hb
      cases hb; decide)

/-! ### C3: disjoint_ip_blocks -/

/-- `IpBlock.overlaps` lifted to blocks. -/
def overlapsBk (a b : IpBlock) : Bool := overlaps a.interval_set b.interval_set

/-- `ip_block & interval` (CanonicalIntervalSet intersection on blocks). -/
def interBk (a b : IpBlock) : IpBlock := ⟨interL a.interval_set b.interval_set⟩

/-- `ip_block -= intersection` (CanonicalIntervalSet difference on blocks). -/
def diffBk (a b : IpBlock) : IpBlock := ⟨diffL a.interval_set b.interval_set⟩

/-- Embeds `IpBlock.split` (Peer.py lines 358-366): one single-range block
per range. -/
def splitBk (b : IpBlock) : List IpBlock :=
  b.interval_set.map (fun iv => ⟨[iv]⟩)

/-- Embeds `IpBlock.ip_count` (Peer.py lines 368-376). -/
def ip_count (b : IpBlock) : Int :=
  b.interval_set.foldl (fun acc iv => acc + (iv.end_ - iv.start + 1)) 0

/-- The sort key relation used by `sorted(ip_blocks_set, key=IpBlock.ip_count)`. -/
def countLe (a b : IpBlock) : Prop := ip_count a ≤ ip_count b

instance : DecidableRel countLe := fun a b => by unfold countLe; infer_instance

/-- Python `set.add` on a set of IpBlocks. -/
def pyAddBk (l : List IpBlock) (b : IpBlock) : List IpBlock :=
  if b ∈ l then l else l ++ [b]

/-- Python set union on sets of IpBlocks. -/
def pyUnionBk (a b : List IpBlock) : List IpBlock := b.foldl pyAddBk a

/-- Python set construction from a collection of IpBlocks. -/
def pySetBk (l : List IpBlock) : List IpBlock := l.foldl pyAddBk []

/-- Embeds `IpBlock.get_all_ips_block` (Peer.py lines 331-345). -/
def get_all_ips_block (exclude_ipv6 : Bool) (exclude_ipv4 : Bool) : IpBlock :=
  let s1 : List Interval :=
    if exclude_ipv4 = false then addInterval [] ⟨0, v4max⟩ else []
  let s2 : List Interval :=
    if exclude_ipv6 = false then addInterval s1 ⟨v6base, v6maxAddr⟩ else s1
  ⟨s2⟩

/-- Embeds the loop body of `IpBlock._add_interval_to_list` (Peer.py lines
402-423): walk the existing non-overlapping blocks; for each one overlapping
the candidate, cut out the intersection (shrinking the existing block when
it is not wholly inside the candidate) and shrink the candidate; stop early
when the candidate is consumed.  Returns the walked list, the remaining
candidate and the collected intersections (`to_add`). -/
def addIntervalToListLoop : List IpBlock → IpBlock → (List IpBlock × IpBlock × List IpBlock)
  | [], interval => ([], interval, [])
  | b :: rest, interval =>
    if overlapsBk b interval = false then
      let r := addIntervalToListLoop rest interval
      (b :: r.1, r.2.1, r.2.2)
    else
      let intersection := interBk b interval
      let interval2 := diffBk interval intersection
      if b = intersection then
        if interval2.interval_set = [] then (b :: rest, interval2, [])
        else
          let r := addIntervalToListLoop rest interval2
          (b :: r.1, r.2.1, r.2.2)
      else
        if interval2.interval_set = [] then
          (diffBk b intersection :: rest, interval2, [intersection])
        else
          let r := addIntervalToListLoop rest interval2
          (diffBk b intersection :: r.1, r.2.1, intersection :: r.2.2)

/-- Embeds `IpBlock._add_interval_to_list`: after the loop, append the
remaining candidate fragments (`interval.split()`) and the collected
intersections (`to_add`). -/
def _add_interval_to_list (interval : IpBlock) (lst : List IpBlock) : List IpBlock :=
  let r := addIntervalToListLoop lst interval
  r.1 ++ splitBk r.2.1 ++ r.2.2

/-- Embeds `IpBlock.disjoint_ip_blocks` (Peer.py lines 425-456). -/
def disjoint_ip_blocks (ip_blocks1 ip_blocks2 : List IpBlock) (exclude_ipv6 : Bool) :
    PeerSet :=
  let ip_blocks_set := pyUnionBk (pySetBk ip_blocks1) ip_blocks2
  let ip_blocks := List.insertionSort countLe ip_blocks_set
  let blocks_with_no_overlap :=
    ip_blocks.foldl (fun acc b => _add_interval_to_list b acc) []
  let res := blocks_with_no_overlap.foldl (fun acc b => pyAdd acc (Member.ipb b)) []
  if res = [] then ⟨[Member.ipb (get_all_ips_block exclude_ipv6 false)], [], 0⟩
  else ⟨res, [], 0⟩

/-- A point of a block. -/
def bkMem (x : Int) (b : IpBlock) : Prop := memL x b.interval_set

/-- A point of some block in the collection. -/
def memUnion (x : Int) (l : List IpBlock) : Prop := ∃ b ∈ l, bkMem x b

/-- Two blocks without a common point. -/
def disjBk (a b : IpBlock) : Prop := ∀ x, ¬ (bkMem x a ∧ bkMem x b)

/-- The blocks of the collection are pairwise non-overlapping. -/
def pairwiseDisjoint (l : List IpBlock) : Prop := l.Pairwise disjBk

theorem disjBk_symm : Symmetric disjBk := by
  intro a b h x hx
  exact h x ⟨hx.2, hx.1⟩

theorem memUnion_nil (x : Int) : ¬ memUnion x [] := by
  rintro ⟨b, hb, _⟩
  exact List.not_mem_nil b hb

theorem memUnion_cons {x : Int} {b : IpBlock} {l : List IpBlock} :
    memUnion x (b :: l) ↔ bkMem x b ∨ memUnion x l := by
  unfold memUnion
  constructor
  · rintro ⟨p, hp, hm⟩
    rcases List.mem_cons.mp hp with heq | hp'
    · exact Or.inl (heq ▸ hm)
    · exact Or.inr ⟨p, hp', hm⟩
  · rintro (hm | ⟨p, hp, hm⟩)
    · exact ⟨b, List.mem_cons_self b l, hm⟩
    · exact ⟨p, List.mem_cons_of_mem b hp, hm⟩

theorem memUnion_append {x : Int} {l1 l2 : List IpBlock} :
    memUnion x (l1 ++ l2) ↔ memUnion x l1 ∨ memUnion x l2 := by
  unfold memUnion
  constructor
  · rintro ⟨p, hp, hm⟩
    rcases List.mem_append.mp hp with h | h
    · exact Or.inl ⟨p, h, hm⟩
    · exact Or.inr ⟨p, h, hm⟩
  · rintro (⟨p, hp, hm⟩ | ⟨p, hp, hm⟩)
    · exact ⟨p, List.mem_append.mpr (Or.inl hp), hm⟩
    · exact ⟨p, List.mem_append.mpr (Or.inr hp), hm⟩

theorem pairwiseDisjoint_perm {l1 l2 : List IpBlock} (h : List.Perm l1 l2) :
    pairwiseDisjoint l1 ↔ pairwiseDisjoint l2 :=
  List.Perm.pairwise_iff (R := disjBk) (fun hxy => disjBk_symm hxy) h

theorem pairwiseDisjoint_cons {b : IpBlock} {l : List IpBlock} :
    pairwiseDisjoint (b :: l) ↔ (∀ y ∈ l, disjBk b y) ∧ pairwiseDisjoint l := by
  unfold pairwiseDisjoint
  exact List.pairwise_cons

theorem splitBk_canonical {b : IpBlock} (h : canonical b.interval_set) :
    ∀ p ∈ splitBk b, canonical p.interval_set := by
  intro p hp
  rcases List.mem_map.mp hp with ⟨iv, hiv, heq⟩
  rw [← heq]
  refine ⟨?_, by simp⟩
  intro j hj
  have hj2 : j = iv := List.mem_singleton.mp hj
  rw [hj2]
  exact h.1 iv hiv

theorem splitBk_nonempty {b : IpBlock} :
    ∀ p ∈ splitBk b, p.interval_set ≠ [] := by
  intro p hp
  rcases List.mem_map.mp hp with ⟨iv, _, heq⟩
  rw [← heq]
  simp

theorem splitBk_memUnion {b : IpBlock} {x : Int} :
    memUnion x (splitBk b) ↔ bkMem x b := by
  unfold memUnion splitBk bkMem memL
  constructor
  · rintro ⟨p, hp, iv, hiv, hm⟩
    rcases List.mem_map.mp hp with ⟨jv, hjv, heq⟩
    rw [← heq] at hiv
    have hiv2 : iv = jv := List.mem_singleton.mp hiv
    rw [hiv2] at hm
    exact ⟨jv, hjv, hm⟩
  · rintro ⟨iv, hiv, hm⟩
    exact ⟨⟨[iv]⟩, List.mem_map.mpr ⟨iv, hiv, rfl⟩, iv, List.mem_singleton.mpr rfl, hm⟩

theorem splitBk_pairwise {b : IpBlock} (h : canonical b.interval_set) :
    pairwiseDisjoint (splitBk b) := by
  unfold pairwiseDisjoint splitBk
  refine List.Pairwise.map _ ?_ h.2
  intro u v huv x hx
  rcases hx with ⟨⟨iu, hiu, hmu⟩, ⟨jv, hjv, hmv⟩⟩
  rcases List.mem_singleton.mp hiu with rfl
  rcases List.mem_singleton.mp hjv with rfl
  unfold sep at huv
  unfold memI at hmu hmv
  omega

theorem interBk_spec (a b : IpBlock) :
    canonical (interBk a b).interval_set ∧
    ∀ x, bkMem x (interBk a b) ↔ bkMem x a ∧ bkMem x b :=
  interL_spec a.interval_set b.interval_set

theorem diffBk_spec {a b : IpBlock} (ha : canonical a.interval_set)
    (hb : canonical b.interval_set) :
    canonical (diffBk a b).interval_set ∧
    ∀ x, bkMem x (diffBk a b) ↔ bkMem x a ∧ ¬ bkMem x b :=
  diffL_spec ha hb.1

theorem overlapsBk_iff (a b : IpBlock) :
    overlapsBk a b = true ↔ ∃ x, bkMem x a ∧ bkMem x b :=
  overlaps_iff a.interval_set b.interval_set

theorem bk_ext {a b : IpBlock} (ha : canonical a.interval_set)
    (hb : canonical b.interval_set) (h : ∀ x, bkMem x a ↔ bkMem x b) : a = b := by
  cases a
  cases b
  exact congrArg IpBlock.mk (canonical_ext ha hb h)

theorem add_interval_to_list_spec : ∀ (lst : List IpBlock) (I : IpBlock),
    (∀ b ∈ lst, canonical b.interval_set) →
    pairwiseDisjoint lst →
    (∀ b ∈ lst, b.interval_set ≠ []) →
    canonical I.interval_set →
    ((∀ b ∈ _add_interval_to_list I lst, canonical b.interval_set) ∧
     pairwiseDisjoint (_add_interval_to_list I lst) ∧
     (∀ b ∈ _add_interval_to_list I lst, b.interval_set ≠ []) ∧
     (∀ x, memUnion x (_add_interval_to_list I lst) ↔ memUnion x lst ∨ bkMem x I)) := by
  intro lst
  induction lst with
  | nil =>
    intro I _ _ _ hI
    have hout : _add_interval_to_list I [] = splitBk I := by
      unfold _add_interval_to_list addIntervalToListLoop
      simp
    rw [hout]
    refine ⟨splitBk_canonical hI, splitBk_pairwise hI, splitBk_nonempty, fun x => ?_⟩
    rw [splitBk_memUnion]
    have hn := memUnion_nil x
    tauto
  | cons b rest ih =>
    intro I hcan hpw hne hI
    have hbc : canonical b.interval_set := hcan b (List.mem_cons_self b rest)
    have hrestc : ∀ p ∈ rest, canonical p.interval_set :=
      fun p hp => hcan p (List.mem_cons_of_mem b hp)
    have hbdisj : ∀ y ∈ rest, disjBk b y := (pairwiseDisjoint_cons.mp hpw).1
    have hrestpw : pairwiseDisjoint rest := (pairwiseDisjoint_cons.mp hpw).2
    have hbne : b.interval_set ≠ [] := hne b (List.mem_cons_self b rest)
    have hrestne : ∀ p ∈ rest, p.interval_set ≠ [] :=
      fun p hp => hne p (List.mem_cons_of_mem b hp)
    by_cases hov : overlapsBk b I = false
    · -- no overlap with the head: walk on
      have hstep : addIntervalToListLoop (b :: rest) I =
          (b :: (addIntervalToListLoop rest I).1, (addIntervalToListLoop rest I).2.1,
           (addIntervalToListLoop rest I).2.2) := by
        simp only [addIntervalToListLoop]
        rw [if_pos hov]
      have hout : _add_interval_to_list I (b :: rest) =
          b :: _add_interval_to_list I rest := by
        unfold _add_interval_to_list
        rw [hstep]
        rfl
      rw [hout]
      obtain ⟨ihc, ihpw, ihne, ihmem⟩ := ih I hrestc hrestpw hrestne hI
      refine ⟨?_, ?_, ?_, ?_⟩
      · intro p hp
        rcases List.mem_cons.mp hp with heq | hp'
        · rw [heq]; exact hbc
        · exact ihc p hp'
      · rw [pairwiseDisjoint_cons]
        refine ⟨?_, ihpw⟩
        intro y hy x hx
        have hxy : memUnion x (_add_interval_to_list I rest) := ⟨y, hy, hx.2⟩
        rcases (ihmem x).mp hxy with hxr | hxI
        · rcases hxr with ⟨p, hp, hpm⟩
          exact hbdisj p hp x ⟨hx.1, hpm⟩
        · have hcon : overlapsBk b I = true := (overlapsBk_iff b I).mpr ⟨x, hx.1, hxI⟩
          rw [hov] at hcon
          exact Bool.noConfusion hcon
      · intro p hp
        rcases List.mem_cons.mp hp with heq | hp'
        · rw [heq]; exact hbne
        · exact ihne p hp'
      · intro x
        rw [memUnion_cons, ihmem x, memUnion_cons]
        tauto
    · -- the head overlaps the candidate
      have hov' : overlapsBk b I = true := by
        revert hov
        cases overlapsBk b I <;> simp
      have hovFalse : ¬ (overlapsBk b I = false) := by
        rw [hov']
        simp
      have hinter := interBk_spec b I
      have hI2 := diffBk_spec (a := I) (b := interBk b I) hI hinter.1
      by_cases heqb : b = interBk b I
      · by_cases hI2e : (diffBk I (interBk b I)).interval_set = []
        · -- head swallowed the whole candidate; nothing changes
          have hstep : addIntervalToListLoop (b :: rest) I =
              (b :: rest, diffBk I (interBk b I), []) := by
            simp only [addIntervalToListLoop]
            rw [if_neg hovFalse, if_pos heqb, if_pos hI2e]
          have hout : _add_interval_to_list I (b :: rest) = b :: rest := by
            unfold _add_interval_to_list
            rw [hstep]
            show (b :: rest) ++ splitBk (diffBk I (interBk b I)) ++ [] = b :: rest
            have hsplit : splitBk (diffBk I (interBk b I)) = [] := by
              unfold splitBk
              rw [hI2e]
              rfl
            rw [hsplit]
            simp
          rw [hout]
          have hIabs : ∀ x, bkMem x I → bkMem x b := by
            intro x hx
            have hnm : ¬ bkMem x (diffBk I (interBk b I)) := by
              intro hm
              rcases hm with ⟨iv, hiv, _⟩
              rw [hI2e] at hiv
              exact List.not_mem_nil iv hiv
            rw [hI2.2 x] at hnm
            push_neg at hnm
            exact (hinter.2 x).mp (hnm hx) |>.1
          refine ⟨hcan, hpw, hne, fun x => ?_⟩
          rw [memUnion_cons]
          have hIx := hIabs x
          tauto
        · -- head swallowed part of the candidate, stays intact; recurse
          have hstep : addIntervalToListLoop (b :: rest) I =
              (b :: (addIntervalToListLoop rest (diffBk I (interBk b I))).1,
               (addIntervalToListLoop rest (diffBk I (interBk b I))).2.1,
               (addIntervalToListLoop rest (diffBk I (interBk b I))).2.2) := by
            simp only [addIntervalToListLoop]
            rw [if_neg hovFalse, if_pos heqb, if_neg hI2e]
          have hout : _add_interval_to_list I (b :: rest) =
              b :: _add_interval_to_list (diffBk I (interBk b I)) rest := by
            unfold _add_interval_to_list
            rw [hstep]
            rfl
          rw [hout]
          obtain ⟨ihc, ihpw, ihne, ihmem⟩ := ih (diffBk I (interBk b I)) hrestc hrestpw hrestne hI2.1
          refine ⟨?_, ?_, ?_, ?_⟩
          · intro p hp
            rcases List.mem_cons.mp hp with heq | hp'
            · rw [heq]; exact hbc
            · exact ihc p hp'
          · rw [pairwiseDisjoint_cons]
            refine ⟨?_, ihpw⟩
            intro y hy x hx
            have hxy : memUnion x (_add_interval_to_list (diffBk I (interBk b I)) rest) :=
              ⟨y, hy, hx.2⟩
            rcases (ihmem x).mp hxy with hxr | hxI2
            · rcases hxr with ⟨p, hp, hpm⟩
              exact hbdisj p hp x ⟨hx.1, hpm⟩
            · rw [hI2.2 x] at hxI2
              exact hxI2.2 ((hinter.2 x).mpr ⟨hx.1, hxI2.1⟩)
          · intro p hp
            rcases List.mem_cons.mp hp with heq | hp'
            · rw [heq]; exact hbne
            · exact ihne p hp'
          · intro x
            rw [memUnion_cons, ihmem x, memUnion_cons]
            have h1 := hI2.2 x
            have h2 := hinter.2 x
            tauto
      · -- head partially overlaps: shrink it and queue the intersection
        have hkeep := diffBk_spec (a := b) (b := interBk b I) hbc hinter.1
        by_cases hI2e : (diffBk I (interBk b I)).interval_set = []
        · have hstep : addIntervalToListLoop (b :: rest) I =
              (diffBk b (interBk b I) :: rest, diffBk I (interBk b I), [interBk b I]) := by
            simp only [addIntervalToListLoop]
            rw [if_neg hovFalse, if_neg heqb, if_pos hI2e]
          have hout : _add_interval_to_list I (b :: rest) =
              diffBk b (interBk b I) :: (rest ++ [interBk b I]) := by
            unfold _add_interval_to_list
            rw [hstep]
            show (diffBk b (interBk b I) :: rest) ++ splitBk (diffBk I (interBk b I)) ++
              [interBk b I] = _
            have hsplit : splitBk (diffBk I (interBk b I)) = [] := by
              unfold splitBk
              rw [hI2e]
              rfl
            rw [hsplit]
            simp
          rw [hout]
          have hIabs : ∀ x, bkMem x I → bkMem x (interBk b I) := by
            intro x hx
            have hnm : ¬ bkMem x (diffBk I (interBk b I)) := by
              intro hm
              rcases hm with ⟨iv, hiv, _⟩
              rw [hI2e] at hiv
              exact List.not_mem_nil iv hiv
            rw [hI2.2 x] at hnm
            push_neg at hnm
            exact hnm hx
          refine ⟨?_, ?_, ?_, ?_⟩
          · intro p hp
            rcases List.mem_cons.mp hp with heq | hp'
            · rw [heq]; exact hkeep.1
            · rcases List.mem_append.mp hp' with hp2 | hp2
              · exact hrestc p hp2
              · rcases List.mem_singleton.mp hp2 with rfl
                exact hinter.1
          · rw [pairwiseDisjoint_cons]
            constructor
            · intro y hy x hx
              rcases List.mem_append.mp hy with hy2 | hy2
              · have hxb : bkMem x b := ((hkeep.2 x).mp hx.1).1
                exact hbdisj y hy2 x ⟨hxb, hx.2⟩
              · rcases List.mem_singleton.mp hy2 with rfl
                exact ((hkeep.2 x).mp hx.1).2 hx.2
            · unfold pairwiseDisjoint
              rw [List.pairwise_append]
              refine ⟨hrestpw, List.pairwise_singleton _ _, ?_⟩
              intro y hy z hz x hx
              rcases List.mem_singleton.mp hz with rfl
              have hxb : bkMem x b := ((hinter.2 x).mp hx.2).1
              exact hbdisj y hy x ⟨hxb, hx.1⟩
          · intro p hp
            rcases List.mem_cons.mp hp with heq | hp'
            · rw [heq]
              intro hemp
              apply heqb
              refine bk_ext hbc hinter.1 ?_
              intro x
              constructor
              · intro hxb
                by_contra hni
                have hxk : bkMem x (diffBk b (interBk b I)) := (hkeep.2 x).mpr ⟨hxb, hni⟩
                rcases hxk with ⟨iv, hiv, _⟩
                rw [hemp] at hiv
                exact List.not_mem_nil iv hiv
              · intro hxi
                exact ((hinter.2 x).mp hxi).1
            · rcases List.mem_append.mp hp' with hp2 | hp2
              · exact hrestne p hp2
              · rcases List.mem_singleton.mp hp2 with rfl
                rcases (overlapsBk_iff b I).mp hov' with ⟨x, hxb, hxI⟩
                have hxi : bkMem x (interBk b I) := (hinter.2 x).mpr ⟨hxb, hxI⟩
                intro hemp
                rcases hxi with ⟨iv, hiv, _⟩
                rw [hemp] at hiv
                exact List.not_mem_nil iv hiv
          · intro x
            rw [memUnion_cons, memUnion_append, memUnion_cons, memUnion_cons]
            have h1 := hkeep.2 x
            have h2 := hinter.2 x
            have h3 := hIabs x
            have h4 := memUnion_nil x
            constructor
            · rintro (hk | hr | hi | hn)
              · exact Or.inl (Or.inl ((h1.mp hk).1))
              · exact Or.inl (Or.inr hr)
              · exact Or.inl (Or.inl ((h2.mp hi).1))
              · exact absurd hn h4
            · rintro ((hb2 | hr) | hI3)
              · by_cases hxi : bkMem x (interBk b I)
                · exact Or.inr (Or.inr (Or.inl hxi))
                · exact Or.inl (h1.mpr ⟨hb2, hxi⟩)
              · exact Or.inr (Or.inl hr)
              · exact Or.inr (Or.inr (Or.inl (h3 hI3)))
        · -- shrink the head, queue the intersection, recurse with the remainder
          have hstep : addIntervalToListLoop (b :: rest) I =
              (diffBk b (interBk b I) ::
                 (addIntervalToListLoop rest (diffBk I (interBk b I))).1,
               (addIntervalToListLoop rest (diffBk I (interBk b I))).2.1,
               interBk b I ::
                 (addIntervalToListLoop rest (diffBk I (interBk b I))).2.2) := by
            simp only [addIntervalToListLoop]
            rw [if_neg hovFalse, if_neg heqb, if_neg hI2e]
          obtain ⟨ihc, ihpw, ihne, ihmem⟩ :=
            ih (diffBk I (interBk b I)) hrestc hrestpw hrestne hI2.1
          have hout : _add_interval_to_list I (b :: rest) =
              diffBk b (interBk b I) ::
                ((addIntervalToListLoop rest (diffBk I (interBk b I))).1 ++
                 (splitBk (addIntervalToListLoop rest (diffBk I (interBk b I))).2.1 ++
                  (interBk b I ::
                    (addIntervalToListLoop rest (diffBk I (interBk b I))).2.2))) := by
            unfold _add_interval_to_list
            rw [hstep]
            simp [List.cons_append, List.append_assoc]
          have houtIH : _add_interval_to_list (diffBk I (interBk b I)) rest =
              (addIntervalToListLoop rest (diffBk I (interBk b I))).1 ++
              (splitBk (addIntervalToListLoop rest (diffBk I (interBk b I))).2.1 ++
               (addIntervalToListLoop rest (diffBk I (interBk b I))).2.2) := by
            unfold _add_interval_to_list
            simp [List.append_assoc]
          have hperm : List.Perm
              ((addIntervalToListLoop rest (diffBk I (interBk b I))).1 ++
               (splitBk (addIntervalToListLoop rest (diffBk I (interBk b I))).2.1 ++
                (interBk b I ::
                  (addIntervalToListLoop rest (diffBk I (interBk b I))).2.2)))
              (interBk b I :: _add_interval_to_list (diffBk I (interBk b I)) rest) := by
            rw [houtIH]
            have h := @List.perm_middle _ (interBk b I)
              ((addIntervalToListLoop rest (diffBk I (interBk b I))).1 ++
                splitBk (addIntervalToListLoop rest (diffBk I (interBk b I))).2.1)
              ((addIntervalToListLoop rest (diffBk I (interBk b I))).2.2)
            simp only [List.append_assoc] at h
            exact h
          rw [hout]
          -- transfer along the permutation keep :: inter :: out'
          have hpermC : List.Perm
              (diffBk b (interBk b I) ::
                ((addIntervalToListLoop rest (diffBk I (interBk b I))).1 ++
                 (splitBk (addIntervalToListLoop rest (diffBk I (interBk b I))).2.1 ++
                  (interBk b I ::
                    (addIntervalToListLoop rest (diffBk I (interBk b I))).2.2))))
              (diffBk b (interBk b I) :: interBk b I ::
                _add_interval_to_list (diffBk I (interBk b I)) rest) :=
            List.Perm.cons _ hperm
          have hinterne : (interBk b I).interval_set ≠ [] := by
            rcases (overlapsBk_iff b I).mp hov' with ⟨x, hxb, hxI⟩
            have hxi : bkMem x (interBk b I) := (hinter.2 x).mpr ⟨hxb, hxI⟩
            intro hemp
            rcases hxi with ⟨iv, hiv, _⟩
            rw [hemp] at hiv
            exact List.not_mem_nil iv hiv
          have hkeepne : (diffBk b (interBk b I)).interval_set ≠ [] := by
            intro hemp
            apply heqb
            refine bk_ext hbc hinter.1 ?_
            intro x
            constructor
            · intro hxb
              by_contra hni
              have hxk : bkMem x (diffBk b (interBk b I)) := (hkeep.2 x).mpr ⟨hxb, hni⟩
              rcases hxk with ⟨iv, hiv, _⟩
              rw [hemp] at hiv
              exact List.not_mem_nil iv hiv
            · intro hxi
              exact ((hinter.2 x).mp hxi).1
          refine ⟨?_, ?_, ?_, ?_⟩
          · intro p hp
            rcases List.mem_cons.mp hp with heq | hp'
            · rw [heq]; exact hkeep.1
            · have hp2 : p ∈ interBk b I ::
                  _add_interval_to_list (diffBk I (interBk b I)) rest :=
                hperm.mem_iff.mp hp'
              rcases List.mem_cons.mp hp2 with heq | hp3
              · rw [heq]; exact hinter.1
              · exact ihc p hp3
          · refine (pairwiseDisjoint_perm hpermC).mpr ?_
            rw [pairwiseDisjoint_cons]
            constructor
            · intro y hy x hx
              rcases List.mem_cons.mp hy with heq | hy'
              · rw [heq] at hx
                exact ((hkeep.2 x).mp hx.1).2 hx.2
              · have hxy : memUnion x (_add_interval_to_list (diffBk I (interBk b I)) rest) :=
                  ⟨y, hy', hx.2⟩
                have hxb : bkMem x b := ((hkeep.2 x).mp hx.1).1
                rcases (ihmem x).mp hxy with hxr | hxI2
                · rcases hxr with ⟨p, hp, hpm⟩
                  exact hbdisj p hp x ⟨hxb, hpm⟩
                · rw [hI2.2 x] at hxI2
                  exact hxI2.2 ((hinter.2 x).mpr ⟨hxb, hxI2.1⟩)
            · rw [pairwiseDisjoint_cons]
              refine ⟨?_, ihpw⟩
              intro y hy x hx
              have hxy : memUnion x (_add_interval_to_list (diffBk I (interBk b I)) rest) :=
                ⟨y, hy, hx.2⟩
              have hxb : bkMem x b := ((hinter.2 x).mp hx.1).1
              rcases (ihmem x).mp hxy with hxr | hxI2
              · rcases hxr with ⟨p, hp, hpm⟩
                exact hbdisj p hp x ⟨hxb, hpm⟩
              · rw [hI2.2 x] at hxI2
                exact hxI2.2 ((hinter.2 x).mpr ⟨hxb, hxI2.1⟩)
          · intro p hp
            rcases List.mem_cons.mp hp with heq | hp'
            · rw [heq]; exact hkeepne
            · have hp2 : p ∈ interBk b I ::
                  _add_interval_to_list (diffBk I (interBk b I)) rest :=
                hperm.mem_iff.mp hp'
              rcases List.mem_cons.mp hp2 with heq | hp3
              · rw [heq]; exact hinterne
              · exact ihne p hp3
          · intro x
            have hmemout : memUnion x
                ((addIntervalToListLoop rest (diffBk I (interBk b I))).1 ++
                 (splitBk (addIntervalToListLoop rest (diffBk I (interBk b I))).2.1 ++
                  (interBk b I ::
                    (addIntervalToListLoop rest (diffBk I (interBk b I))).2.2))) ↔
                bkMem x (interBk b I) ∨
                memUnion x (_add_interval_to_list (diffBk I (interBk b I)) rest) := by
              constructor
              · intro hm
                rcases hm with ⟨p, hp, hpm⟩
                have hp2 := hperm.mem_iff.mp hp
                rcases List.mem_cons.mp hp2 with heq | hp3
                · rw [heq] at hpm
                  exact Or.inl hpm
                · exact Or.inr ⟨p, hp3, hpm⟩
              · intro hm
                rcases hm with hm | ⟨p, hp, hpm⟩
                · exact ⟨interBk b I,
                    hperm.mem_iff.mpr (List.mem_cons_self _ _), hm⟩
                · exact ⟨p, hperm.mem_iff.mpr (List.mem_cons_of_mem _ hp), hpm⟩
            rw [memUnion_cons, hmemout, ihmem x, memUnion_cons]
            have h1 := hkeep.2 x
            have h2 := hinter.2 x
            have h3 := hI2.2 x
            constructor
            · rintro (hk | hi | hr | hI2x)
              · exact Or.inl (Or.inl ((h1.mp hk).1))
              · exact Or.inl (Or.inl ((h2.mp hi).1))
              · exact Or.inl (Or.inr hr)
              · exact Or.inr ((h3.mp hI2x).1)
            · rintro ((hb2 | hr) | hI3)
              · by_cases hxi : bkMem x (interBk b I)
                · exact Or.inr (Or.inl hxi)
                · exact Or.inl (h1.mpr ⟨hb2, hxi⟩)
              · exact Or.inr (Or.inr (Or.inl hr))
              · by_cases hxi : bkMem x (interBk b I)
                · exact Or.inr (Or.inl hxi)
                · exact Or.inr (Or.inr (Or.inr (h3.mpr ⟨hI3, hxi⟩)))

theorem fold_add_interval_spec : ∀ (l : List IpBlock) (acc : List IpBlock),
    (∀ b ∈ l, canonical b.interval_set) →
    (∀ b ∈ acc, canonical b.interval_set) →
    pairwiseDisjoint acc →
    (∀ b ∈ acc, b.interval_set ≠ []) →
    ((∀ b ∈ l.foldl (fun acc b => _add_interval_to_list b acc) acc,
        canonical b.interval_set) ∧
     pairwiseDisjoint (l.foldl (fun acc b => _add_interval_to_list b acc) acc) ∧
     (∀ b ∈ l.foldl (fun acc b => _add_interval_to_list b acc) acc,
        b.interval_set ≠ []) ∧
     (∀ x, memUnion x (l.foldl (fun acc b => _add_interval_to_list b acc) acc) ↔
        memUnion x acc ∨ memUnion x l)) := by
  intro l
  induction l with
  | nil =>
    intro acc _ hacc hpw hne
    simp only [List.foldl_nil]
    refine ⟨hacc, hpw, hne, fun x => ?_⟩
    have h := memUnion_nil x
    tauto
  | cons b t ih =>
    intro acc hl hacc hpw hne
    simp only [List.foldl_cons]
    have hbc : canonical b.interval_set := hl b (List.mem_cons_self b t)
    have htc : ∀ p ∈ t, canonical p.interval_set :=
      fun p hp => hl p (List.mem_cons_of_mem b hp)
    obtain ⟨hc1, hpw1, hne1, hmem1⟩ :=
      add_interval_to_list_spec acc b hacc hpw hne hbc
    obtain ⟨hc2, hpw2, hne2, hmem2⟩ :=
      ih (_add_interval_to_list b acc) htc hc1 hpw1 hne1
    refine ⟨hc2, hpw2, hne2, fun x => ?_⟩
    rw [hmem2 x, hmem1 x, memUnion_cons]
    tauto

theorem pyAddBk_mem {l : List IpBlock} {m x : IpBlock} :
    x ∈ pyAddBk l m ↔ x ∈ l ∨ x = m := by
  unfold pyAddBk
  split_ifs with h
  · constructor
    · exact Or.inl
    · rintro (h1 | rfl)
      · exact h1
      · exact h
  · simp [List.mem_append]

theorem pyUnionBk_mem : ∀ {b a : List IpBlock} {x : IpBlock},
    x ∈ pyUnionBk a b ↔ x ∈ a ∨ x ∈ b := by
  intro b
  induction b with
  | nil =>
    intro a x
    simp only [pyUnionBk, List.foldl_nil]
    simp
  | cons m t ih =>
    intro a x
    simp only [pyUnionBk, List.foldl_cons] at *
    rw [ih, pyAddBk_mem]
    simp only [List.mem_cons]
    tauto

theorem pySetBk_mem {l : List IpBlock} {x : IpBlock} : x ∈ pySetBk l ↔ x ∈ l := by
  have h : pySetBk l = pyUnionBk [] l := rfl
  rw [h, pyUnionBk_mem]
  simp

theorem pairwiseDisjoint_forall {l : List IpBlock} (h : pairwiseDisjoint l) :
    ∀ p ∈ l, ∀ q ∈ l, p ≠ q → disjBk p q := by
  induction l with
  | nil => intro p hp; exact absurd hp (List.not_mem_nil p)
  | cons b t ih =>
    intro p hp q hq hpq
    have hhead := (pairwiseDisjoint_cons.mp h).1
    have htail := (pairwiseDisjoint_cons.mp h).2
    rcases List.mem_cons.mp hp with hp1 | hp1
    · rcases List.mem_cons.mp hq with hq1 | hq1
      · exact absurd (hp1.trans hq1.symm) hpq
      · rw [hp1]; exact hhead q hq1
    · rcases List.mem_cons.mp hq with hq1 | hq1
      · rw [hq1]
        exact disjBk_symm (hhead p hp1)
      · exact ih htail p hp1 q hq1 hpq

theorem resList_mem (blocks : List IpBlock) {m : Member} :
    m ∈ blocks.foldl (fun acc b => pyAdd acc (Member.ipb b)) [] ↔
      ∃ b ∈ blocks, m = Member.ipb b := by
  have h : blocks.foldl (fun acc b => pyAdd acc (Member.ipb b)) [] =
      pySet (blocks.map Member.ipb) := by
    unfold pySet
    rw [List.foldl_map]
  rw [h, pySet_mem, List.mem_map]
  constructor
  · rintro ⟨b, hb, heq⟩
    exact ⟨b, hb, heq.symm⟩
  · rintro ⟨b, hb, heq⟩
    exact ⟨b, hb, heq.symm⟩

theorem resList_empty_iff (blocks : List IpBlock) :
    blocks.foldl (fun acc b => pyAdd acc (Member.ipb b)) [] = [] ↔ blocks = [] := by
  constructor
  · intro h
    cases blocks with
    | nil => rfl
    | cons b t =>
      exfalso
      have hm := (resList_mem (b :: t)).mpr ⟨b, List.mem_cons_self b t, rfl⟩
      rw [h] at hm
      exact List.not_mem_nil _ hm
  · intro h
    rw [h]
    rfl

theorem disjoint_ip_blocks_members (l1 l2 : List IpBlock) (ex6 : Bool) :
    (disjoint_ip_blocks l1 l2 ex6).members =
      (if ((List.insertionSort countLe (pyUnionBk (pySetBk l1) l2)).foldl
            (fun acc b => _add_interval_to_list b acc) []).foldl
            (fun acc b => pyAdd acc (Member.ipb b)) [] = [] then
        [Member.ipb (get_all_ips_block ex6 false)]
      else ((List.insertionSort countLe (pyUnionBk (pySetBk l1) l2)).foldl
            (fun acc b => _add_interval_to_list b acc) []).foldl
            (fun acc b => pyAdd acc (Member.ipb b)) []) := by
  simp only [disjoint_ip_blocks]
  split_ifs with h
  · rfl
  · rfl

/-- C3 (confirmed): the members of `disjoint_ip_blocks(A, B)` are pairwise
non-overlapping; whenever the inputs cover at least one address, the members
cover exactly `union(A) ∪ union(B)`; the result is never empty; and when the
inputs cover no address at all it is the single full-address-space block. -/
theorem c3_disjoint_ip_blocks_spec (l1 l2 : List IpBlock) (ex6 : Bool)
    (h1 : ∀ b ∈ l1, canonical b.interval_set)
    (h2 : ∀ b ∈ l2, canonical b.interval_set) :
    (∀ p q : IpBlock, Member.ipb p ∈ (disjoint_ip_blocks l1 l2 ex6).members →
       Member.ipb q ∈ (disjoint_ip_blocks l1 l2 ex6).members → p ≠ q → disjBk p q) ∧
    ((∃ y, memUnion y (l1 ++ l2)) →
       ∀ x, (∃ b : IpBlock, Member.ipb b ∈ (disjoint_ip_blocks l1 l2 ex6).members ∧
         bkMem x b) ↔ memUnion x (l1 ++ l2)) ∧
    (disjoint_ip_blocks l1 l2 ex6).members ≠ [] ∧
    ((∀ x, ¬ memUnion x (l1 ++ l2)) →
       (disjoint_ip_blocks l1 l2 ex6).members =
         [Member.ipb (get_all_ips_block ex6 false)]) := by
  have hD := disjoint_ip_blocks_members l1 l2 ex6
  rw [hD]
  set sorted := List.insertionSort countLe (pyUnionBk (pySetBk l1) l2) with hs
  set blocks := sorted.foldl (fun acc b => _add_interval_to_list b acc) [] with hb2
  set resL := blocks.foldl (fun acc b => pyAdd acc (Member.ipb b)) [] with hr
  have hSmem : ∀ b : IpBlock, b ∈ sorted ↔ (b ∈ l1 ∨ b ∈ l2) := by
    intro b
    rw [hs, (List.perm_insertionSort countLe (pyUnionBk (pySetBk l1) l2)).mem_iff,
      pyUnionBk_mem, pySetBk_mem]
  have hScan : ∀ b ∈ sorted, canonical b.interval_set := by
    intro b hb
    rcases (hSmem b).mp hb with h | h
    · exact h1 b h
    · exact h2 b h
  obtain ⟨hbc, hbpw, hbne, hbmem⟩ := fold_add_interval_spec sorted [] hScan
    (by intro b hb; exact absurd hb (List.not_mem_nil b))
    List.Pairwise.nil
    (by intro b hb; exact absurd hb (List.not_mem_nil b))
  have hunion : ∀ x, memUnion x blocks ↔ memUnion x (l1 ++ l2) := by
    intro x
    rw [hb2, hbmem x, memUnion_append]
    have hn := memUnion_nil x
    have hiff : memUnion x sorted ↔ (memUnion x l1 ∨ memUnion x l2) := by
      constructor
      · rintro ⟨b, hb, hm⟩
        rcases (hSmem b).mp hb with h | h
        · exact Or.inl ⟨b, h, hm⟩
        · exact Or.inr ⟨b, h, hm⟩
      · rintro (⟨b, hb, hm⟩ | ⟨b, hb, hm⟩)
        · exact ⟨b, (hSmem b).mpr (Or.inl hb), hm⟩
        · exact ⟨b, (hSmem b).mpr (Or.inr hb), hm⟩
    tauto
  by_cases hempty : resL = []
  · rw [if_pos hempty]
    have hblocks_empty : blocks = [] := (resList_empty_iff blocks).mp hempty
    refine ⟨?_, ?_, ?_, ?_⟩
    · intro p q hp hq hpq
      have hp1 : Member.ipb p = Member.ipb (get_all_ips_block ex6 false) :=
        List.mem_singleton.mp hp
      have hq1 : Member.ipb q = Member.ipb (get_all_ips_block ex6 false) :=
        List.mem_singleton.mp hq
      simp only [Member.ipb.injEq] at hp1 hq1
      exact absurd (hp1.trans hq1.symm) hpq
    · rintro ⟨y, hy⟩
      exfalso
      have h := (hunion y).mpr hy
      rw [hblocks_empty] at h
      exact memUnion_nil y h
    · simp
    · intro _
      rfl
  · rw [if_neg hempty]
    refine ⟨?_, ?_, ?_, ?_⟩
    · intro p q hp hq hpq
      rcases (resList_mem blocks).mp hp with ⟨p2, hp2, hpe⟩
      rcases (resList_mem blocks).mp hq with ⟨q2, hq2, hqe⟩
      simp only [Member.ipb.injEq] at hpe hqe
      rw [hpe, hqe]
      rw [hpe, hqe] at hpq
      exact pairwiseDisjoint_forall hbpw p2 hp2 q2 hq2 hpq
    · intro _ x
      rw [← hunion x]
      constructor
      · rintro ⟨b, hb, hm⟩
        rcases (resList_mem blocks).mp hb with ⟨b2, hb2m, hbe⟩
        simp only [Member.ipb.injEq] at hbe
        rw [hbe] at hm
        exact ⟨b2, hb2m, hm⟩
      · rintro ⟨b, hb, hm⟩
        exact ⟨b, (resList_mem blocks).mpr ⟨b, hb, rfl⟩, hm⟩
    · exact hempty
    · intro hall
      exfalso
      apply hempty
      refine (resList_empty_iff blocks).mpr ?_
      cases hcase : blocks with
      | nil => rfl
      | cons b t =>
        exfalso
        have hbmem2 : b ∈ blocks := by rw [hcase]; exact List.mem_cons_self b t
        have hbne2 : b.interval_set ≠ [] := hbne b hbmem2
        have hbcan : canonical b.interval_set := hbc b hbmem2
        have hx : ∃ x, memL x b.interval_set := by
          by_contra hno
          push_neg at hno
          exact hbne2 ((canonical_empty_iff hbcan).mpr hno)
        rcases hx with ⟨x, hx⟩
        exact hall x ((hunion x).mp ⟨b, hbmem2, hx⟩)

/-- C3 witness: the theorem applied to the overlapping blocks `[0,5]` and
`[3,10]`. -/
theorem c3_witness :
    (∀ b ∈ [(⟨[⟨0, 5⟩]⟩ : IpBlock)], canonical b.interval_set) ∧
    ((∃ y, memUnion y ([(⟨[⟨0, 5⟩]⟩ : IpBlock)] ++ [(⟨[⟨3, 10⟩]⟩ : IpBlock)])) →
       ∀ x, (∃ b : IpBlock,
         Member.ipb b ∈ (disjoint_ip_blocks [(⟨[⟨0, 5⟩]⟩ : IpBlock)]
           [(⟨[⟨3, 10⟩]⟩ : IpBlock)] false).members ∧ bkMem x b) ↔
         memUnion x ([(⟨[⟨0, 5⟩]⟩ : IpBlock)] ++ [(⟨[⟨3, 10⟩]⟩ : IpBlock)])) := by
  constructor
  · intro b hb
    have hb1 : b = ⟨[⟨0, 5⟩]⟩ := List.mem_singleton.mp hb
    rw [hb1]
    decide
  · exact (c3_disjoint_ip_blocks_spec [(⟨[⟨0, 5⟩]⟩ : IpBlock)]
      [(⟨[⟨3, 10⟩]⟩ : IpBlock)] false
      (by
        intro b hb
        have hb1 : b = ⟨[⟨0, 5⟩]⟩ := List.mem_singleton.mp hb
        rw [hb1]
        decide)
      (by
        intro b hb
        have hb1 : b = ⟨[⟨3, 10⟩]⟩ := List.mem_singleton.mp hb
        rw [hb1]
        decide)).2.1

/-! ### C8: ClusterEP.canonical_form -/

/-- Embeds `ClusterEP`: the ordered profile list and the label dict as its
key/value pairs (dict keys are unique; other attributes play no role in
`canonical_form`). -/
structure ClusterEP where
  profiles : List String
  labels : List (String × String)
deriving DecidableEq, Repr

/-- Python string comparison, `<=` on the character lists: lexicographic on
Unicode code points, written as a Boolean recursion so that it evaluates. -/
def charLeB : List Char → List Char → Bool
  | [], _ => true
  | _ :: _, [] => false
  | a :: as, b :: bs =>
    if a.toNat < b.toNat then true
    else if b.toNat < a.toNat then false
    else charLeB as bs

/-- Python string comparison, strict `<` on the character lists. -/
def charLtB : List Char → List Char → Bool
  | [], [] => false
  | [], _ :: _ => true
  | _ :: _, [] => false
  | a :: as, b :: bs =>
    if a.toNat < b.toNat then true
    else if b.toNat < a.toNat then false
    else charLtB as bs

/-- `sorted` on Python strings orders them by `charLeB` on their characters. -/
def strLe (a b : String) : Prop := charLeB a.data b.data = true

instance : DecidableRel strLe := fun a b => by unfold strLe; infer_instance

theorem charLeB_total (x y : List Char) : charLeB x y = true ∨ charLeB y x = true := by
  induction x generalizing y with
  | nil => exact Or.inl rfl
  | cons a as ih =>
    cases y with
    | nil => exact Or.inr rfl
    | cons b bs =>
      unfold charLeB
      rcases Nat.lt_trichotomy a.toNat b.toNat with h | h | h
      · left
        rw [if_pos h]
      · rcases ih bs with h2 | h2
        · left
          rw [if_neg (by omega), if_neg (by omega)]
          exact h2
        · right
          rw [if_neg (by omega), if_neg (by omega)]
          exact h2
      · right
        rw [if_pos h]

theorem charLeB_trans (x y z : List Char) (h1 : charLeB x y = true)
    (h2 : charLeB y z = true) : charLeB x z = true := by
  induction x generalizing y z with
  | nil => rfl
  | cons a as ih =>
    cases y with
    | nil => exact absurd h1 (by simp [charLeB])
    | cons b bs =>
      cases z with
      | nil => exact absurd h2 (by simp [charLeB])
      | cons c cs =>
        unfold charLeB at h1 h2 ⊢
        rcases Nat.lt_trichotomy a.toNat b.toNat with hab | hab | hab
        · rcases Nat.lt_trichotomy b.toNat c.toNat with hbc | hbc | hbc
          · rw [if_pos (by omega)]
          · rw [if_pos (by omega)]
          · rw [if_neg (by omega), if_pos hbc] at h2
            exact absurd h2 (by simp)
        · rcases Nat.lt_trichotomy b.toNat c.toNat with hbc | hbc | hbc
          · rw [if_pos (by omega)]
          · rw [if_neg (by omega), if_neg (by omega)] at h1
            rw [if_neg (by omega), if_neg (by omega)] at h2
            rw [if_neg (by omega), if_neg (by omega)]
            exact ih bs cs h1 h2
          · rw [if_neg (by omega), if_pos hbc] at h2
            exact absurd h2 (by simp)
        · rw [if_neg (by omega), if_pos hab] at h1
          exact absurd h1 (by simp)

theorem charLeB_antisymm (x y : List Char) (h1 : charLeB x y = true)
    (h2 : charLeB y x = true) : x = y := by
  induction x generalizing y with
  | nil =>
    cases y with
    | nil => rfl
    | cons b bs => exact absurd h2 (by simp [charLeB])
  | cons a as ih =>
    cases y with
    | nil => exact absurd h1 (by simp [charLeB])
    | cons b bs =>
      unfold charLeB at h1 h2
      rcases Nat.lt_trichotomy a.toNat b.toNat with hab | hab | hab
      · rw [if_neg (by omega), if_pos hab] at h2
        exact absurd h2 (by simp)
      · rw [if_neg (by omega), if_neg (by omega)] at h1 h2
        have heq : a = b := by
          rw [← Char.ofNat_toNat a, ← Char.ofNat_toNat b, hab]
        rw [heq, ih bs h1 h2]
      · rw [if_neg (by omega), if_pos hab] at h1
        exact absurd h1 (by simp)

instance : IsTotal String strLe := ⟨fun a b => charLeB_total a.data b.data⟩

instance : IsTrans String strLe := ⟨fun a b c => charLeB_trans a.data b.data c.data⟩

instance : IsAntisymm String strLe :=
  ⟨fun a b h1 h2 => String.ext (charLeB_antisymm a.data b.data h1 h2)⟩

theorem charLtB_irrefl (x : List Char) : charLtB x x = false := by
  induction x with
  | nil => rfl
  | cons a as ih =>
    unfold charLtB
    rw [if_neg (by omega), if_neg (by omega)]
    exact ih

theorem charLtB_trans (x y z : List Char) (h1 : charLtB x y = true)
    (h2 : charLtB y z = true) : charLtB x z = true := by
  induction x generalizing y z with
  | nil =>
    cases y with
    | nil => exact absurd h1 (by simp [charLtB])
    | cons b bs =>
      cases z with
      | nil => exact absurd h2 (by simp [charLtB])
      | cons c cs => rfl
  | cons a as ih =>
    cases y with
    | nil => exact absurd h1 (by simp [charLtB])
    | cons b bs =>
      cases z with
      | nil => exact absurd h2 (by simp [charLtB])
      | cons c cs =>
        unfold charLtB at h1 h2 ⊢
        rcases Nat.lt_trichotomy a.toNat b.toNat with hab | hab | hab
        · rcases Nat.lt_trichotomy b.toNat c.toNat with hbc | hbc | hbc
          · rw [if_pos (by omega)]
          · rw [if_pos (by omega)]
          · rw [if_neg (by omega), if_pos hbc] at h2
            exact absurd h2 (by simp)
        · rcases Nat.lt_trichotomy b.toNat c.toNat with hbc | hbc | hbc
          · rw [if_pos (by omega)]
          · rw [if_neg (by omega), if_neg (by omega)] at h1
            rw [if_neg (by omega), if_neg (by omega)] at h2
            rw [if_neg (by omega), if_neg (by omega)]
            exact ih bs cs h1 h2
          · rw [if_neg (by omega), if_pos hbc] at h2
            exact absurd h2 (by simp)
        · rw [if_neg (by omega), if_pos hab] at h1
          exact absurd h1 (by simp)

theorem charLtB_trichotomy (x y : List Char) :
    charLtB x y = true ∨ x = y ∨ charLtB y x = true := by
  induction x generalizing y with
  | nil =>
    cases y with
    | nil => exact Or.inr (Or.inl rfl)
    | cons b bs => exact Or.inl rfl
  | cons a as ih =>
    cases y with
    | nil => exact Or.inr (Or.inr rfl)
    | cons b bs =>
      unfold charLtB
      rcases Nat.lt_trichotomy a.toNat b.toNat with h | h | h
      · left
        rw [if_pos h]
      · have heq : a = b := by
          rw [← Char.ofNat_toNat a, ← Char.ofNat_toNat b, h]
        rcases ih bs with h2 | h2 | h2
        · left
          rw [if_neg (by omega), if_neg (by omega)]
          exact h2
        · exact Or.inr (Or.inl (by rw [heq, h2]))
        · right
          right
          rw [if_neg (by omega), if_neg (by omega)]
          exact h2
      · right
        right
        rw [if_pos h]

theorem charLtB_ne (x y : List Char) (h : charLtB x y = true) : x ≠ y := by
  intro heq
  rw [heq, charLtB_irrefl] at h
  exact absurd h (by simp)

/-- Python tuple comparison on `(key, value)` pairs, the order used by
`sorted(self.labels.items())`. -/
def labelLeB (a b : String × String) : Bool :=
  if a.1.data = b.1.data then charLeB a.2.data b.2.data
  else charLtB a.1.data b.1.data

def labelLe (a b : String × String) : Prop := labelLeB a b = true

instance : DecidableRel labelLe := fun a b => by unfold labelLe; infer_instance

instance : IsTotal (String × String) labelLe := by
  refine ⟨fun a b => ?_⟩
  unfold labelLe labelLeB
  by_cases hk : a.1.data = b.1.data
  · rw [if_pos hk, if_pos hk.symm]
    exact charLeB_total a.2.data b.2.data
  · rw [if_neg hk, if_neg (fun h => hk h.symm)]
    rcases charLtB_trichotomy a.1.data b.1.data with h | h | h
    · exact Or.inl h
    · exact absurd h hk
    · exact Or.inr h

instance : IsTrans (String × String) labelLe := by
  refine ⟨fun a b c hab hbc => ?_⟩
  unfold labelLe labelLeB at *
  by_cases h1 : a.1.data = b.1.data
  · rw [if_pos h1] at hab
    by_cases h2 : b.1.data = c.1.data
    · rw [if_pos h2] at hbc
      rw [if_pos (h1.trans h2)]
      exact charLeB_trans _ _ _ hab hbc
    · rw [if_neg h2] at hbc
      rw [if_neg (fun h => h2 (h1 ▸ h)), h1]
      exact hbc
  · rw [if_neg h1] at hab
    by_cases h2 : b.1.data = c.1.data
    · rw [if_neg (fun h => h1 (h.trans h2.symm)), ← h2]
      exact hab
    · rw [if_neg h2] at hbc
      have hlt : charLtB a.1.data c.1.data = true := charLtB_trans _ _ _ hab hbc
      rw [if_neg (charLtB_ne _ _ hlt)]
      exact hlt

instance : IsAntisymm (String × String) labelLe := by
  refine ⟨fun a b hab hba => ?_⟩
  unfold labelLe labelLeB at hab hba
  by_cases h1 : a.1.data = b.1.data
  · rw [if_pos h1] at hab
    rw [if_pos h1.symm] at hba
    have hv : a.2.data = b.2.data := charLeB_antisymm _ _ hab hba
    have hk2 : a.1 = b.1 := String.ext h1
    have hv2 : a.2 = b.2 := String.ext hv
    cases a
    cases b
    simp only at hk2 hv2
    rw [hk2, hv2]
  · rw [if_neg h1] at hab
    rw [if_neg (fun h => h1 h.symm)] at hba
    exact absurd (charLtB_trans _ _ _ hab hba)
      (by rw [charLtB_irrefl]; simp)

/-- Embeds `ClusterEP.canonical_form` (Peer.py lines 114-133): the first
profile, then the remaining profiles sorted, then the label pairs sorted,
accumulated exactly as the Python loop does. -/
def ClusterEP.canonical_form (ep : ClusterEP) : String :=
  (List.insertionSort labelLe ep.labels).foldl
    (fun acc kv => acc ++ ",(" ++ kv.1 ++ "," ++ kv.2 ++ ")")
    (match ep.profiles with
     | [] => ""
     | p0 :: rest =>
       (List.insertionSort strLe rest).foldl (fun acc p => acc ++ "," ++ p) ("," ++ p0))

/-- C8 counterexample: the endpoints with profile lists `[p, a, a]` and
`[p, a]` have the same first profile, the same SET of remaining profiles and
the same label map, yet their canonical forms differ (the remaining profiles
are compared as a sorted list, i.e. as a multiset). -/
theorem c8_counterexample_profile_multiset :
    (ClusterEP.mk [("p" : String), "a", "a"] []).profiles.head? =
      (ClusterEP.mk [("p" : String), "a"] []).profiles.head? ∧
    (ClusterEP.mk [("p" : String), "a", "a"] []).profiles.tail.toFinset =
      (ClusterEP.mk [("p" : String), "a"] []).profiles.tail.toFinset ∧
    (ClusterEP.mk [("p" : String), "a", "a"] []).labels =
      (ClusterEP.mk [("p" : String), "a"] []).labels ∧
    (ClusterEP.mk [("p" : String), "a", "a"] []).canonical_form ≠
      (ClusterEP.mk [("p" : String), "a"] []).canonical_form := by
  refine ⟨rfl, by decide, rfl, by decide⟩

/-- The comma-joined encoding at the character-list level: each piece is
emitted after a comma, exactly as every `ret +=` in `canonical_form` starts
with a comma. -/
def encodeP : List (List Char) → List Char
  | [] => []
  | p :: t => ',' :: (p ++ encodeP t)

/-- The two pieces a label pair contributes: `(key` and `value)`. -/
def labelPieces (l : List (String × String)) : List (List Char) :=
  l.bind (fun kv => [('(' :: kv.1.data), (kv.2.data ++ [')'])])

/-- The pieces the profile list contributes: the first profile, then the
remaining profiles sorted. -/
def profilePieces (l : List String) : List (List Char) :=
  match l with
  | [] => []
  | p0 :: rest => p0.data :: (List.insertionSort strLe rest).map String.data

/-- All pieces of `canonical_form`, in order. -/
def pieceList (e : ClusterEP) : List (List Char) :=
  profilePieces e.profiles ++ labelPieces (List.insertionSort labelLe e.labels)

/-- Well-formed Kubernetes-style names: profiles carry no comma and no
opening parenthesis, label keys and values carry no comma. -/
def wfEP (e : ClusterEP) : Prop :=
  (∀ p ∈ e.profiles, (',' ∉ p.data ∧ '(' ∉ p.data)) ∧
  (∀ kv ∈ e.labels, (',' ∉ (kv : String × String).1.data ∧ ',' ∉ kv.2.data))

theorem encodeP_append (xs ys : List (List Char)) :
    encodeP (xs ++ ys) = encodeP xs ++ encodeP ys := by
  induction xs with
  | nil => rfl
  | cons p t ih =>
    show ',' :: (p ++ encodeP (t ++ ys)) = (',' :: (p ++ encodeP t)) ++ encodeP ys
    rw [ih, List.cons_append, List.append_assoc]

theorem comma_data : ("," : String).data = [','] := rfl

theorem foldl_profiles_data (l : List String) (init : String) :
    (List.foldl (fun acc p => acc ++ "," ++ p) init l).data =
      init.data ++ encodeP (l.map String.data) := by
  induction l generalizing init with
  | nil => simp [encodeP]
  | cons p t ih =>
    rw [List.foldl_cons, ih]
    simp [String.data_append, encodeP, comma_data]

theorem foldl_labels_data (l : List (String × String)) (init : String) :
    (List.foldl (fun acc kv => acc ++ ",(" ++ kv.1 ++ "," ++ kv.2 ++ ")") init l).data =
      init.data ++ encodeP (labelPieces l) := by
  induction l generalizing init with
  | nil => simp [labelPieces, encodeP]
  | cons kv t ih =>
    rw [List.foldl_cons, ih]
    simp only [labelPieces, List.cons_bind, encodeP, String.data_append,
      List.append_assoc, List.cons_append, List.nil_append]
    rfl

theorem canonical_form_data (e : ClusterEP) :
    (ClusterEP.canonical_form e).data = encodeP (pieceList e) := by
  unfold ClusterEP.canonical_form pieceList
  rw [foldl_labels_data, encodeP_append]
  cases hp : e.profiles with
  | nil => rfl
  | cons p0 rest =>
    rw [foldl_profiles_data]
    simp [profilePieces, String.data_append, encodeP, comma_data]

theorem encodeP_head_split (p : List Char) (t1 : List (List Char))
    (q : List Char) (t2 : List (List Char))
    (hp : ',' ∉ p) (hq : ',' ∉ q)
    (h : p ++ encodeP t1 = q ++ encodeP t2) : p = q := by
  induction p generalizing q with
  | nil =>
    cases q with
    | nil => rfl
    | cons c q2 =>
      exfalso
      simp only [List.nil_append, List.cons_append] at h
      cases t1 with
      | nil => simp [encodeP] at h
      | cons r t1x =>
        simp only [encodeP] at h
        injection h with h1 h2
        exact hq (by rw [← h1]; exact List.mem_cons_self _ _)
  | cons a p2 ih =>
    cases q with
    | nil =>
      exfalso
      simp only [List.nil_append, List.cons_append] at h
      cases t2 with
      | nil => simp [encodeP] at h
      | cons r t2x =>
        simp only [encodeP] at h
        injection h with h1 h2
        exact hp (by rw [h1]; exact List.mem_cons_self _ _)
    | cons b q2 =>
      simp only [List.cons_append] at h
      injection h with h1 h2
      have hp2 : ',' ∉ p2 := fun hm => hp (List.mem_cons_of_mem a hm)
      have hq2 : ',' ∉ q2 := fun hm => hq (List.mem_cons_of_mem b hm)
      rw [h1, ih q2 hp2 hq2 h2]

theorem encodeP_inj (ps qs : List (List Char))
    (hp : ∀ p ∈ ps, ',' ∉ p) (hq : ∀ q ∈ qs, ',' ∉ q)
    (h : encodeP ps = encodeP qs) : ps = qs := by
  induction ps generalizing qs with
  | nil =>
    cases qs with
    | nil => rfl
    | cons q qs2 => simp [encodeP] at h
  | cons p ps2 ih =>
    cases qs with
    | nil => simp [encodeP] at h
    | cons q qs2 =>
      simp only [encodeP] at h
      injection h with h1 h2
      have hpeq : p = q := encodeP_head_split p ps2 q qs2
        (hp p (List.mem_cons_self p ps2)) (hq q (List.mem_cons_self q qs2)) h2
      rw [hpeq] at h2
      have htail : encodeP ps2 = encodeP qs2 := List.append_cancel_left h2
      rw [hpeq, ih qs2 (fun x hx => hp x (List.mem_cons_of_mem p hx))
        (fun x hx => hq x (List.mem_cons_of_mem q hx)) htail]

/-- A piece opening a label: it starts with a parenthesis. -/
def startsParen (p : List Char) : Prop := p.head? = some '('

theorem pieces_split (P1 : List (List Char)) (L1 : List (List Char))
    (P2 : List (List Char)) (L2 : List (List Char))
    (hP1 : ∀ p ∈ P1, ¬ startsParen p) (hP2 : ∀ p ∈ P2, ¬ startsParen p)
    (hL1 : ∀ x t, L1 = x :: t → startsParen x)
    (hL2 : ∀ x t, L2 = x :: t → startsParen x)
    (h : P1 ++ L1 = P2 ++ L2) : P1 = P2 ∧ L1 = L2 := by
  induction P1 generalizing P2 with
  | nil =>
    cases P2 with
    | nil => exact ⟨rfl, h⟩
    | cons q P2x =>
      exfalso
      simp only [List.nil_append, List.cons_append] at h
      exact hP2 q (List.mem_cons_self q P2x) (hL1 q (P2x ++ L2) h)
  | cons p P1x ih =>
    cases P2 with
    | nil =>
      exfalso
      simp only [List.nil_append, List.cons_append] at h
      exact hP1 p (List.mem_cons_self p P1x) (hL2 p (P1x ++ L1) h.symm)
    | cons q P2x =>
      simp only [List.cons_append] at h
      injection h with h1 h2
      obtain ⟨hPx, hLx⟩ := ih P2x (fun x hx => hP1 x (List.mem_cons_of_mem p hx))
        (fun x hx => hP2 x (List.mem_cons_of_mem q hx)) h2
      exact ⟨by rw [h1, hPx], hLx⟩

theorem labelPieces_inj (l1 l2 : List (String × String))
    (h : labelPieces l1 = labelPieces l2) : l1 = l2 := by
  induction l1 generalizing l2 with
  | nil =>
    cases l2 with
    | nil => rfl
    | cons kv t => simp [labelPieces] at h
  | cons kv t ih =>
    cases l2 with
    | nil => simp [labelPieces] at h
    | cons kv2 t2 =>
      simp only [labelPieces, List.cons_bind, List.cons_append, List.nil_append] at h
      injection h with hk h
      injection h with hv h
      injection hk with hpar hk
      have hkey : kv.1 = kv2.1 := String.ext hk
      have hval : kv.2 = kv2.2 := String.ext ((List.append_left_inj [')']).mp hv)
      have hrest : t = t2 := ih t2 h
      rw [hrest]
      cases kv
      cases kv2
      simp only at hkey hval
      rw [hkey, hval]

theorem map_data_inj (l1 l2 : List String)
    (h : l1.map String.data = l2.map String.data) : l1 = l2 := by
  induction l1 generalizing l2 with
  | nil =>
    cases l2 with
    | nil => rfl
    | cons b t2 => simp at h
  | cons a t ih =>
    cases l2 with
    | nil => simp at h
    | cons b t2 =>
      simp only [List.map_cons] at h
      injection h with h1 h2
      rw [String.ext h1, ih t2 h2]

theorem pieceList_commaFree (e : ClusterEP) (hw : wfEP e) :
    ∀ p ∈ pieceList e, ',' ∉ p := by
  intro p hp
  rcases List.mem_append.mp hp with hmem | hmem
  · unfold profilePieces at hmem
    cases hp1 : e.profiles with
    | nil => rw [hp1] at hmem; simp at hmem
    | cons p0 rest =>
      rw [hp1] at hmem
      simp only [List.mem_cons, List.mem_map] at hmem
      rcases hmem with heq | ⟨q, hq, heq⟩
      · rw [heq]
        exact (hw.1 p0 (by rw [hp1]; exact List.mem_cons_self p0 rest)).1
      · rw [← heq]
        have hqmem : q ∈ rest := (List.perm_insertionSort strLe rest).mem_iff.mp hq
        exact (hw.1 q (by rw [hp1]; exact List.mem_cons_of_mem p0 hqmem)).1
  · unfold labelPieces at hmem
    rcases List.mem_bind.mp hmem with ⟨kv, hkv, hpm⟩
    have hkvmem : kv ∈ e.labels := (List.perm_insertionSort labelLe e.labels).mem_iff.mp hkv
    rcases hw.2 kv hkvmem with ⟨hk, hv⟩
    simp only [List.mem_cons, List.not_mem_nil, or_false] at hpm
    rcases hpm with heq | heq
    · rw [heq]
      intro hc
      rcases List.mem_cons.mp hc with hc1 | hc2
      · exact absurd hc1 (by decide)
      · exact hk hc2
    · rw [heq]
      intro hc
      rcases List.mem_append.mp hc with hc1 | hc2
      · exact hv hc1
      · exact absurd (List.mem_singleton.mp hc2) (by decide)

theorem profilePieces_no_paren (l : List String)
    (hw : ∀ p ∈ l, '(' ∉ p.data) :
    ∀ p ∈ profilePieces l, ¬ startsParen p := by
  intro p hp
  have hdata : ∃ q ∈ l, p = q.data := by
    unfold profilePieces at hp
    cases hl : l with
    | nil => rw [hl] at hp; simp at hp
    | cons p0 rest =>
      rw [hl] at hp
      simp only [List.mem_cons, List.mem_map] at hp
      rcases hp with heq | ⟨q, hq, heq⟩
      · exact ⟨p0, List.mem_cons_self p0 rest, heq⟩
      · exact ⟨q, List.mem_cons_of_mem p0
          ((List.perm_insertionSort strLe rest).mem_iff.mp hq), heq.symm⟩
  rcases hdata with ⟨q, hq, heq⟩
  intro hpar
  unfold startsParen at hpar
  rw [heq] at hpar
  cases hqd : q.data with
  | nil => rw [hqd] at hpar; simp at hpar
  | cons c cs =>
    rw [hqd] at hpar
    simp only [List.head?] at hpar
    injection hpar with hpar
    exact hw q hq (by rw [hqd, hpar]; exact List.mem_cons_self _ _)

theorem labelPieces_starts_paren (l : List (String × String)) :
    ∀ x t, labelPieces l = x :: t → startsParen x := by
  intro x t h
  cases l with
  | nil => simp [labelPieces] at h
  | cons kv t2 =>
    simp only [labelPieces, List.cons_bind, List.cons_append, List.nil_append] at h
    injection h with h1 h2
    rw [← h1]
    rfl

/-- C8 (amended): for endpoints whose names are well formed (no comma in any
profile, label key or label value; no opening parenthesis in a profile),
`canonical_form` is equal exactly when the first profile, the MULTISET of
remaining profiles, and the multiset of label pairs coincide. The original
claim's "same set of remaining profiles" is too weak: the remaining profiles
are compared after sorting, so duplicates count. -/
theorem c8_amended_canonical_form_iff (e1 e2 : ClusterEP)
    (hw1 : wfEP e1) (hw2 : wfEP e2) :
    (ClusterEP.canonical_form e1 = ClusterEP.canonical_form e2 ↔
      (e1.profiles.head? = e2.profiles.head? ∧
       e1.profiles.tail.Perm e2.profiles.tail ∧
       e1.labels.Perm e2.labels)) := by
  constructor
  · intro h
    have hdata : encodeP (pieceList e1) = encodeP (pieceList e2) := by
      rw [← canonical_form_data, ← canonical_form_data, h]
    have hpieces : pieceList e1 = pieceList e2 :=
      encodeP_inj _ _ (pieceList_commaFree e1 hw1) (pieceList_commaFree e2 hw2) hdata
    unfold pieceList at hpieces
    obtain ⟨hprof, hlab⟩ := pieces_split _ _ _ _
      (profilePieces_no_paren _ (fun p hp => (hw1.1 p hp).2))
      (profilePieces_no_paren _ (fun p hp => (hw2.1 p hp).2))
      (labelPieces_starts_paren _) (labelPieces_starts_paren _) hpieces
    have hlabsort : List.insertionSort labelLe e1.labels =
        List.insertionSort labelLe e2.labels := labelPieces_inj _ _ hlab
    have hlabperm : e1.labels.Perm e2.labels := by
      refine (List.perm_insertionSort labelLe e1.labels).symm.trans ?_
      rw [hlabsort]
      exact List.perm_insertionSort labelLe e2.labels
    cases hp1 : e1.profiles with
    | nil =>
      cases hp2 : e2.profiles with
      | nil =>
        exact ⟨rfl, List.Perm.refl _, hlabperm⟩
      | cons q0 r2 =>
        rw [hp1, hp2] at hprof
        simp [profilePieces] at hprof
    | cons p0 r1 =>
      cases hp2 : e2.profiles with
      | nil =>
        rw [hp1, hp2] at hprof
        simp [profilePieces] at hprof
      | cons q0 r2 =>
        rw [hp1, hp2] at hprof
        simp only [profilePieces] at hprof
        injection hprof with hh ht
        have hp0 : p0 = q0 := String.ext hh
        have hsort : List.insertionSort strLe r1 = List.insertionSort strLe r2 :=
          map_data_inj _ _ ht
        have hperm : r1.Perm r2 := by
          refine (List.perm_insertionSort strLe r1).symm.trans ?_
          rw [hsort]
          exact List.perm_insertionSort strLe r2
        exact ⟨by rw [hp0]; rfl, hperm, hlabperm⟩
  · rintro ⟨hhead, htail, hlab⟩
    have hlabsort : List.insertionSort labelLe e1.labels =
        List.insertionSort labelLe e2.labels :=
      List.eq_of_perm_of_sorted
        ((List.perm_insertionSort labelLe e1.labels).trans
          (hlab.trans (List.perm_insertionSort labelLe e2.labels).symm))
        (List.sorted_insertionSort labelLe e1.labels)
        (List.sorted_insertionSort labelLe e2.labels)
    cases hp1 : e1.profiles with
    | nil =>
      cases hp2 : e2.profiles with
      | nil =>
        unfold ClusterEP.canonical_form
        rw [hlabsort, hp1, hp2]
      | cons q0 r2 =>
        rw [hp1, hp2] at hhead
        simp at hhead
    | cons p0 r1 =>
      cases hp2 : e2.profiles with
      | nil =>
        rw [hp1, hp2] at hhead
        simp at hhead
      | cons q0 r2 =>
        rw [hp1, hp2] at hhead htail
        simp only [List.head?_cons, Option.some.injEq] at hhead
        simp only [List.tail_cons] at htail
        have hsort : List.insertionSort strLe r1 = List.insertionSort strLe r2 :=
          List.eq_of_perm_of_sorted
            ((List.perm_insertionSort strLe r1).trans
              (htail.trans (List.perm_insertionSort strLe r2).symm))
            (List.sorted_insertionSort strLe r1)
            (List.sorted_insertionSort strLe r2)
        unfold ClusterEP.canonical_form
        rw [hlabsort, hp1, hp2]
        simp only [hhead, hsort]

/-- C8 witness: the amended equivalence applied to the endpoints with
profiles `[p, b, a]` / `[p, a, b]` and the one-entry label map `k: v`. -/
theorem c8_amended_witness :
    (ClusterEP.canonical_form (ClusterEP.mk [("p" : String), "b", "a"] [("k", "v")]) =
      ClusterEP.canonical_form (ClusterEP.mk [("p" : String), "a", "b"] [("k", "v")]) ↔
      ((ClusterEP.mk [("p" : String), "b", "a"] [("k", "v")]).profiles.head? =
         (ClusterEP.mk [("p" : String), "a", "b"] [("k", "v")]).profiles.head? ∧
       (ClusterEP.mk [("p" : String), "b", "a"] [("k", "v")]).profiles.tail.Perm
         (ClusterEP.mk [("p" : String), "a", "b"] [("k", "v")]).profiles.tail ∧
       (ClusterEP.mk [("p" : String), "b", "a"] [("k", "v")]).labels.Perm
         (ClusterEP.mk [("p" : String), "a", "b"] [("k", "v")]).labels)) :=
  c8_amended_canonical_form_iff _ _
    (by constructor
        · intro p hp
          fin_cases hp <;> exact ⟨by decide, by decide⟩
        · intro kv hkv
          fin_cases hkv
          exact ⟨by decide, by decide⟩)
    (by constructor
        · intro p hp
          fin_cases hp <;> exact ⟨by decide, by decide⟩
        · intro kv hkv
          fin_cases hkv
          exact ⟨by decide, by decide⟩)

/-! ### C2: the interval round trip -/

theorem sortedConcrete_mem {l : List Member} {m : Member} :
    m ∈ sortedConcrete l ↔ m ∈ concreteMembers l :=
  (List.perm_insertionSort nameLe (concreteMembers l)).mem_iff

theorem sortedConcrete_concrete {l : List Member} {m : Member}
    (h : m ∈ sortedConcrete l) : m.isIpBlock = false :=
  (mem_concreteMembers.mp (sortedConcrete_mem.mp h)).2

theorem sortedConcrete_length (l : List Member) :
    (sortedConcrete l).length = (concreteMembers l).length :=
  (List.perm_insertionSort nameLe (concreteMembers l)).length_eq

/-- The receiver after `update_sorted_peer_list_if_needed`, for a receiver
whose cache is honest (a stale sorted list always comes with a stale size). -/
theorem update_stable (S : PeerSet)
    (hcache : S.last_size_when_updated_sorted_peer_list = S.members.length →
      S.sorted_peer_list = sortedConcrete S.members) :
    S.update_sorted_peer_list_if_needed =
      ⟨S.members, sortedConcrete S.members, S.members.length⟩ := by
  unfold PeerSet.update_sorted_peer_list_if_needed
  by_cases h : S.last_size_when_updated_sorted_peer_list = S.members.length
  · rw [if_neg (by simp [h])]
    cases S
    simp only at h hcache ⊢
    rw [hcache h, h]
  · rw [if_pos h]

/-- A freshly updated receiver is a fixed point of the update. -/
theorem update_fresh (mem spl : List Member) :
    PeerSet.update_sorted_peer_list_if_needed ⟨mem, spl, mem.length⟩ =
      ⟨mem, spl, mem.length⟩ := by
  unfold PeerSet.update_sorted_peer_list_if_needed
  rw [if_neg (by simp)]

/-- The pure value of the first loop of `get_peer_interval_of`: one single
point `min_pod_index + position` per selected concrete peer. -/
def podPoints (Sm : PeerSet) : Nat → List Member → List Interval → List Interval
  | _, [], acc => acc
  | k, m :: t, acc =>
    podPoints Sm (k + 1) t
      (if Sm.containsB m then
        addInterval acc ⟨min_pod_index + (k : Int), min_pod_index + (k : Int)⟩
      else acc)

theorem enumFoldM_eq_podPoints (Sm : PeerSet) (l : List Member) :
    ∀ (k : Nat) (acc : List Interval), (∀ m ∈ l, m.isIpBlock = false) →
    ((List.enumFrom k l).foldlM (fun (acc : List Interval) p =>
      if Sm.containsB p.2 then
        if p.2.isIpBlock then Except.error PyErr.assertionError
        else Except.ok (addInterval acc ⟨min_pod_index + p.1, min_pod_index + p.1⟩)
      else Except.ok acc) acc : Except PyErr (List Interval)) =
      Except.ok (podPoints Sm k l acc) := by
  induction l with
  | nil => intro k acc _; rfl
  | cons m t ih =>
    intro k acc hconc
    have hm : m.isIpBlock = false := hconc m (List.mem_cons_self m t)
    show (((k, m) :: List.enumFrom (k + 1) t).foldlM _ acc : Except PyErr _) = _
    rw [List.foldlM_cons]
    dsimp only
    by_cases hc : Sm.containsB m
    · rw [if_pos hc, if_neg (by rw [hm]; exact Bool.false_ne_true)]
      show (List.enumFrom (k + 1) t).foldlM _ (addInterval acc _) = _
      rw [ih (k + 1) _ (fun x hx => hconc x (List.mem_cons_of_mem m hx))]
      have hstep : podPoints Sm k (m :: t) acc = podPoints Sm (k + 1) t
          (addInterval acc ⟨min_pod_index + (k : Int), min_pod_index + (k : Int)⟩) := by
        simp [podPoints, hc]
      rw [hstep]
    · rw [if_neg hc]
      show (List.enumFrom (k + 1) t).foldlM _ acc = _
      rw [ih (k + 1) _ (fun x hx => hconc x (List.mem_cons_of_mem m hx))]
      have hstep : podPoints Sm k (m :: t) acc = podPoints Sm (k + 1) t acc := by
        simp [podPoints, hc]
      rw [hstep]

theorem podPoints_spec (Sm : PeerSet) (l : List Member) :
    ∀ (k : Nat) (acc : List Interval), canonical acc →
    canonical (podPoints Sm k l acc) ∧
    ∀ x, memL x (podPoints Sm k l acc) ↔
      (memL x acc ∨ ∃ i : Nat, ∃ m : Member, l[i]? = some m ∧
        Sm.containsB m = true ∧ x = min_pod_index + (k : Int) + (i : Int)) := by
  induction l with
  | nil =>
    intro k acc hacc
    refine ⟨hacc, fun x => ?_⟩
    simp [podPoints]
  | cons m t ih =>
    intro k acc hacc
    by_cases hc : Sm.containsB m
    · have hwf : (Interval.mk (min_pod_index + (k : Int)) (min_pod_index + (k : Int))).wf :=
        le_refl _
      have hacc2 : canonical (addInterval acc
          ⟨min_pod_index + (k : Int), min_pod_index + (k : Int)⟩) :=
        addInterval_canonical hacc hwf
      have hstep : podPoints Sm k (m :: t) acc =
          podPoints Sm (k + 1) t (addInterval acc
            ⟨min_pod_index + (k : Int), min_pod_index + (k : Int)⟩) := by
        simp [podPoints, hc]
      rcases ih (k + 1) _ hacc2 with ⟨hcan, hmem⟩
      rw [hstep]
      refine ⟨hcan, fun x => ?_⟩
      rw [hmem x, addInterval_mem hacc hwf x]
      constructor
      · rintro ((h | h) | ⟨i, m2, hg, hcm, hx⟩)
        · exact Or.inl h
        · refine Or.inr ⟨0, m, by simp, hc, ?_⟩
          unfold memI at h
          dsimp only at h
          push_cast
          omega
        · refine Or.inr ⟨i + 1, m2, by simpa using hg, hcm, ?_⟩
          rw [hx]
          push_cast
          ring
      · rintro (h | ⟨i, m2, hg, hcm, hx⟩)
        · exact Or.inl (Or.inl h)
        · cases i with
          | zero =>
            refine Or.inl (Or.inr ?_)
            simp only [List.getElem?_cons_zero, Option.some.injEq] at hg
            unfold memI
            dsimp only
            omega
          | succ j =>
            refine Or.inr ⟨j, m2, by simpa using hg, hcm, ?_⟩
            rw [hx]
            push_cast
            ring
    · have hstep : podPoints Sm k (m :: t) acc = podPoints Sm (k + 1) t acc := by
        simp [podPoints, hc]
      rcases ih (k + 1) acc hacc with ⟨hcan, hmem⟩
      rw [hstep]
      refine ⟨hcan, fun x => ?_⟩
      rw [hmem x]
      constructor
      · rintro (h | ⟨i, m2, hg, hcm, hx⟩)
        · exact Or.inl h
        · refine Or.inr ⟨i + 1, m2, by simpa using hg, hcm, ?_⟩
          rw [hx]
          push_cast
          ring
      · rintro (h | ⟨i, m2, hg, hcm, hx⟩)
        · exact Or.inl h
        · cases i with
          | zero =>
            simp only [List.getElem?_cons_zero, Option.some.injEq] at hg
            rw [← hg] at hcm
            exact absurd hcm (by simp [hc])
          | succ j =>
            refine Or.inr ⟨j, m2, by simpa using hg, hcm, ?_⟩
            rw [hx]
            push_cast
            ring

/-- The index image of one address range of an IpBlock member, as shifted by
the second loop of `get_peer_interval_of` (IPv4 ranges land in the IPv4
segment, IPv6 ranges in the IPv6 segment). -/
def shiftIv (iv : Interval) : Interval :=
  if iv.start ≤ v4max then ⟨min_ipv4_index + iv.start, min_ipv4_index + iv.end_⟩
  else ⟨min_ipv6_index + (iv.start - v6base), min_ipv6_index + (iv.end_ - v6base)⟩

theorem shiftIv_wf {iv : Interval} (h : iv.wf) : (shiftIv iv).wf := by
  unfold shiftIv
  unfold Interval.wf at h ⊢
  split_ifs <;> dsimp only <;> omega

theorem shiftFold_spec (ivs : List Interval) :
    ∀ (acc : List Interval), canonical acc → (∀ iv ∈ ivs, iv.wf) →
    canonical (ivs.foldl (fun acc2 cidr =>
        if cidr.start ≤ v4max then
          addInterval acc2 ⟨min_ipv4_index + cidr.start, min_ipv4_index + cidr.end_⟩
        else
          addInterval acc2 ⟨min_ipv6_index + (cidr.start - v6base),
                            min_ipv6_index + (cidr.end_ - v6base)⟩) acc) ∧
    ∀ x, memL x (ivs.foldl (fun acc2 cidr =>
        if cidr.start ≤ v4max then
          addInterval acc2 ⟨min_ipv4_index + cidr.start, min_ipv4_index + cidr.end_⟩
        else
          addInterval acc2 ⟨min_ipv6_index + (cidr.start - v6base),
                            min_ipv6_index + (cidr.end_ - v6base)⟩) acc) ↔
      (memL x acc ∨ ∃ iv ∈ ivs, memI x (shiftIv iv)) := by
  induction ivs with
  | nil =>
    intro acc hacc _
    refine ⟨hacc, fun x => ?_⟩
    simp
  | cons c t ih =>
    intro acc hacc hwf
    have hcwf : c.wf := hwf c (List.mem_cons_self c t)
    have hbody : (if c.start ≤ v4max then
          addInterval acc ⟨min_ipv4_index + c.start, min_ipv4_index + c.end_⟩
        else
          addInterval acc ⟨min_ipv6_index + (c.start - v6base),
                           min_ipv6_index + (c.end_ - v6base)⟩) =
        addInterval acc (shiftIv c) := by
      unfold shiftIv
      split_ifs <;> rfl
    have hacc2 : canonical (addInterval acc (shiftIv c)) :=
      addInterval_canonical hacc (shiftIv_wf hcwf)
    rw [List.foldl_cons, hbody]
    rcases ih (addInterval acc (shiftIv c)) hacc2
      (fun iv hiv => hwf iv (List.mem_cons_of_mem c hiv)) with ⟨hcan, hmem⟩
    refine ⟨hcan, fun x => ?_⟩
    rw [hmem x, addInterval_mem hacc (shiftIv_wf hcwf) x]
    constructor
    · rintro ((h | h) | ⟨iv, hiv, hx⟩)
      · exact Or.inl h
      · exact Or.inr ⟨c, List.mem_cons_self c t, h⟩
      · exact Or.inr ⟨iv, List.mem_cons_of_mem c hiv, hx⟩
    · rintro (h | ⟨iv, hiv, hx⟩)
      · exact Or.inl (Or.inl h)
      · rcases List.mem_cons.mp hiv with heq | hmem2
        · rw [heq] at hx
          exact Or.inl (Or.inr hx)
        · exact Or.inr ⟨iv, hmem2, hx⟩

theorem blockFold_spec (mem : List Member) :
    ∀ (acc : List Interval), canonical acc →
    (∀ b : IpBlock, Member.ipb b ∈ mem → ∀ iv ∈ b.interval_set, iv.wf) →
    canonical (mem.foldl (fun acc m => match m with
      | Member.ipb b => b.interval_set.foldl (fun acc2 cidr =>
          if cidr.start ≤ v4max then
            addInterval acc2 ⟨min_ipv4_index + cidr.start, min_ipv4_index + cidr.end_⟩
          else
            addInterval acc2 ⟨min_ipv6_index + (cidr.start - v6base),
                              min_ipv6_index + (cidr.end_ - v6base)⟩) acc
      | _ => acc) acc) ∧
    ∀ x, memL x (mem.foldl (fun acc m => match m with
      | Member.ipb b => b.interval_set.foldl (fun acc2 cidr =>
          if cidr.start ≤ v4max then
            addInterval acc2 ⟨min_ipv4_index + cidr.start, min_ipv4_index + cidr.end_⟩
          else
            addInterval acc2 ⟨min_ipv6_index + (cidr.start - v6base),
                              min_ipv6_index + (cidr.end_ - v6base)⟩) acc
      | _ => acc) acc) ↔
      (memL x acc ∨ ∃ b : IpBlock, ∃ iv : Interval, Member.ipb b ∈ mem ∧
        iv ∈ b.interval_set ∧ memI x (shiftIv iv)) := by
  induction mem with
  | nil =>
    intro acc hacc _
    refine ⟨hacc, fun x => ?_⟩
    simp
  | cons m t ih =>
    intro acc hacc hwf
    rw [List.foldl_cons]
    cases m with
    | pod n =>
      rcases ih acc hacc
        (fun b hb iv hiv => hwf b (List.mem_cons_of_mem _ hb) iv hiv) with ⟨hcan, hmem⟩
      refine ⟨hcan, fun x => ?_⟩
      rw [hmem x]
      constructor
      · rintro (h | ⟨b, iv, hb, hiv, hx⟩)
        · exact Or.inl h
        · exact Or.inr ⟨b, iv, List.mem_cons_of_mem _ hb, hiv, hx⟩
      · rintro (h | ⟨b, iv, hb, hiv, hx⟩)
        · exact Or.inl h
        · rcases List.mem_cons.mp hb with heq | hmem2
          · exact absurd heq (by simp)
          · exact Or.inr ⟨b, iv, hmem2, hiv, hx⟩
    | ipb b0 =>
      have hb0 : ∀ iv ∈ b0.interval_set, iv.wf :=
        hwf b0 (List.mem_cons_self _ t)
      rcases shiftFold_spec b0.interval_set acc hacc hb0 with ⟨hcan0, hmem0⟩
      rcases ih _ hcan0
        (fun b hb iv hiv => hwf b (List.mem_cons_of_mem _ hb) iv hiv) with ⟨hcan, hmem⟩
      refine ⟨hcan, fun x => ?_⟩
      rw [hmem x, hmem0 x]
      constructor
      · rintro ((h | ⟨iv, hiv, hx⟩) | ⟨b, iv, hb, hiv, hx⟩)
        · exact Or.inl h
        · exact Or.inr ⟨b0, iv, List.mem_cons_self _ t, hiv, hx⟩
        · exact Or.inr ⟨b, iv, List.mem_cons_of_mem _ hb, hiv, hx⟩
      · rintro (h | ⟨b, iv, hb, hiv, hx⟩)
        · exact Or.inl (Or.inl h)
        · rcases List.mem_cons.mp hb with heq | hmem2
          · have hbe : b = b0 := by
              injection heq
            rw [hbe] at hiv
            exact Or.inl (Or.inr ⟨iv, hiv, hx⟩)
          · exact Or.inr ⟨b, iv, hmem2, hiv, hx⟩

/-- The selected pod points of the first loop. -/
def podPointMem (L : List Member) (Sm : PeerSet) (x : Int) : Prop :=
  ∃ i : Nat, ∃ m : Member, L[i]? = some m ∧ Sm.containsB m = true ∧
    x = min_pod_index + (i : Int)

/-- The shifted IpBlock points of the second loop. -/
def blockPointMem (Sm : PeerSet) (x : Int) : Prop :=
  ∃ b : IpBlock, ∃ iv : Interval, Member.ipb b ∈ Sm.members ∧
    iv ∈ b.interval_set ∧ memI x (shiftIv iv)

/-- `get_peer_interval_of` on a cache-honest receiver: it always succeeds,
updates the receiver, and returns the canonical set holding exactly the
selected pod points and the shifted IpBlock ranges of the argument. -/
theorem get_peer_interval_of_spec (P S : PeerSet)
    (hcache : P.last_size_when_updated_sorted_peer_list = P.members.length →
      P.sorted_peer_list = sortedConcrete P.members)
    (hivwf : ∀ b : IpBlock, Member.ipb b ∈ S.members → ∀ iv ∈ b.interval_set, iv.wf) :
    ∃ res : List Interval,
      P.get_peer_interval_of S = Except.ok
        (res, ⟨P.members, sortedConcrete P.members, P.members.length⟩) ∧
      canonical res ∧
      ∀ x, memL x res ↔ podPointMem (sortedConcrete P.members) S x ∨ blockPointMem S x := by
  have hupd := update_stable P hcache
  have hall : ∀ m ∈ sortedConcrete P.members, m.isIpBlock = false :=
    fun m hm => sortedConcrete_concrete hm
  have hfold := enumFoldM_eq_podPoints S (sortedConcrete P.members) 0 [] hall
  rcases podPoints_spec S (sortedConcrete P.members) 0 [] canonical_nil with ⟨hcan1, hmem1⟩
  rcases blockFold_spec S.members (podPoints S 0 (sortedConcrete P.members) []) hcan1
    hivwf with ⟨hcan2, hmem2⟩
  refine ⟨_, ?_, hcan2, fun x => ?_⟩
  · unfold PeerSet.get_peer_interval_of
    rw [hupd]
    show (List.enum (sortedConcrete P.members)).foldlM _ [] >>= _ = _
    show (List.enumFrom 0 (sortedConcrete P.members)).foldlM _ [] >>= _ = _
    rw [hfold]
    rfl
  · rw [hmem2 x]
    unfold podPointMem blockPointMem
    rw [hmem1 x]
    have hnil := memL_nil x
    constructor
    · rintro ((h | ⟨i, m, hg, hcm, hx⟩) | h)
      · exact absurd h hnil
      · exact Or.inl ⟨i, m, hg, hcm, by rw [hx]; push_cast; ring⟩
      · exact Or.inr h
    · rintro (⟨i, m, hg, hcm, hx⟩ | h)
      · exact Or.inl (Or.inr ⟨i, m, hg, hcm, by rw [hx]; push_cast; ring⟩)
      · exact Or.inr h

/-- The address values an `IPNetworkAddress` inside an IpBlock can carry:
an IPv4 value in `[0, v4max]` or an IPv6 value in `[v6base, v6maxAddr]`. -/
def validIv (iv : Interval) : Prop :=
  (0 ≤ iv.start ∧ iv.end_ ≤ v4max) ∨ (v6base ≤ iv.start ∧ iv.end_ ≤ v6maxAddr)

instance (iv : Interval) : Decidable (validIv iv) := by
  unfold validIv
  infer_instance

/-- A member is a genuine IpBlock: canonical interval set over valid
addresses (concrete peers carry no constraint). -/
def blockWf (m : Member) : Prop :=
  match m with
  | Member.ipb b => canonical b.interval_set ∧ ∀ iv ∈ b.interval_set, validIv iv
  | _ => True

instance (m : Member) : Decidable (blockWf m) := by
  unfold blockWf
  cases m <;> infer_instance

/-- The linear relations between the segment-boundary constants. -/
theorem const_rel :
    min_ipv4_index = 0 ∧ max_ipv4_index = v4max ∧
    min_ipv6_index = max_ipv4_index + 5 ∧
    max_ipv6_index = min_ipv6_index + (ipv6Count - 1) ∧
    min_pod_index = max_ipv6_index + 5 ∧
    max_pod_index = min_pod_index + 9999 ∧
    v6base = v4max + 2 ∧ v6maxAddr = v6base + (ipv6Count - 1) ∧
    2 ≤ v4max ∧ 2 ≤ ipv6Count := by
  refine ⟨rfl, ?_, ?_, ?_, ?_, ?_, ?_, ?_, ?_, ?_⟩
  · show min_ipv4_index + (ipv4Count - 1) = v4max
    show (0 : Int) + (ipv4Count - 1) = ipv4Count - 1
    ring
  · show max_ipv4_index + gap_width = max_ipv4_index + 5
    rfl
  · rfl
  · show max_ipv6_index + gap_width = max_ipv6_index + 5
    rfl
  · show min_pod_index + (max_num_of_pods : Int) - 1 = min_pod_index + 9999
    show min_pod_index + (10000 : Int) - 1 = min_pod_index + 9999
    ring
  · show ipv4Count + 1 = (ipv4Count - 1) + 2
    ring
  · show v6base + ipv6Count - 1 = v6base + (ipv6Count - 1)
    ring
  · show (2 : Int) ≤ 2 ^ 32 - 1
    norm_num
  · show (2 : Int) ≤ 2 ^ 128
    norm_num

/-- An interval lying inside the IPv4 index segment. -/
def v4Seg (iv : Interval) : Prop :=
  min_ipv4_index ≤ iv.start ∧ iv.end_ ≤ max_ipv4_index

/-- An interval lying inside the IPv6 index segment. -/
def v6Seg (iv : Interval) : Prop :=
  min_ipv6_index ≤ iv.start ∧ iv.end_ ≤ max_ipv6_index

/-- An interval lying inside the first `n` positions of the pod segment. -/
def podSeg (n : Nat) (iv : Interval) : Prop :=
  min_pod_index ≤ iv.start ∧ iv.end_ ≤ min_pod_index + (n : Int) - 1

theorem getElem?_some_lt {L : List Member} {i : Nat} {m : Member}
    (hg : L[i]? = some m) : i < L.length := by
  by_contra hlt
  push_neg at hlt
  rw [List.getElem?_eq_none hlt] at hg
  exact Option.noConfusion hg

/-- Every point of the interval set produced by `get_peer_interval_of` lies
in one of the three index segments. -/
theorem res_point_class (L : List Member) (S : PeerSet)
    (hwfS : ∀ m ∈ S.members, blockWf m) (x : Int)
    (h : podPointMem L S x ∨ blockPointMem S x) :
    (min_ipv4_index ≤ x ∧ x ≤ max_ipv4_index) ∨
    (min_ipv6_index ≤ x ∧ x ≤ max_ipv6_index) ∨
    (min_pod_index ≤ x ∧ x ≤ min_pod_index + (L.length : Int) - 1) := by
  obtain ⟨hc1, hc2, hc3, hc4, hc5, hc6, hc7, hc8, hc9, hc10⟩ := const_rel
  rcases h with ⟨i, m, hg, _, hx⟩ | ⟨b, iv, hb, hiv, hx⟩
  · have hlen : i < L.length := getElem?_some_lt hg
    refine Or.inr (Or.inr ?_)
    have hlen2 : (i : Int) < (L.length : Int) := by exact_mod_cast hlen
    omega
  · have hbwf := hwfS (Member.ipb b) hb
    unfold blockWf at hbwf
    rcases hbwf with ⟨hcanb, hvalb⟩
    have hwfiv : iv.wf := hcanb.1 iv hiv
    have hval := hvalb iv hiv
    unfold Interval.wf at hwfiv
    unfold validIv at hval
    unfold shiftIv memI at hx
    rcases hval with ⟨hv1, hv2⟩ | ⟨hv1, hv2⟩
    · rw [if_pos (by omega)] at hx
      dsimp only at hx
      exact Or.inl (by omega)
    · rw [if_neg (by omega)] at hx
      dsimp only at hx
      exact Or.inr (Or.inl (by omega))

/-- Every interval of the canonical result lies entirely inside one
segment: the five-unit gaps keep the canonical merge from bridging two
segments. -/
theorem res_seg_class (L : List Member) (S : PeerSet) (res : List Interval)
    (hcan : canonical res)
    (hwfS : ∀ m ∈ S.members, blockWf m)
    (hmem : ∀ x, memL x res ↔ podPointMem L S x ∨ blockPointMem S x) :
    ∀ iv ∈ res, v4Seg iv ∨ v6Seg iv ∨ podSeg L.length iv := by
  intro iv hiv
  obtain ⟨hc1, hc2, hc3, hc4, hc5, hc6, hc7, hc8, hc9, hc10⟩ := const_rel
  have hwfiv : iv.wf := hcan.1 iv hiv
  unfold Interval.wf at hwfiv
  have hpt : ∀ y, iv.start ≤ y → y ≤ iv.end_ →
      (min_ipv4_index ≤ y ∧ y ≤ max_ipv4_index) ∨
      (min_ipv6_index ≤ y ∧ y ≤ max_ipv6_index) ∨
      (min_pod_index ≤ y ∧ y ≤ min_pod_index + (L.length : Int) - 1) := by
    intro y h1 h2
    exact res_point_class L S hwfS y ((hmem y).mp ⟨iv, hiv, h1, h2⟩)
  have hs := hpt iv.start (le_refl _) hwfiv
  have he := hpt iv.end_ hwfiv (le_refl _)
  unfold v4Seg v6Seg podSeg
  by_cases h4 : iv.end_ ≤ max_ipv4_index
  · refine Or.inl ⟨?_, h4⟩
    rcases hs with ⟨hh1, hh2⟩ | ⟨hh1, hh2⟩ | ⟨hh1, hh2⟩ <;> omega
  · by_cases h6 : iv.end_ ≤ max_ipv6_index
    · refine Or.inr (Or.inl ⟨?_, h6⟩)
      rcases hs with ⟨hh1, hh2⟩ | ⟨hh1, hh2⟩ | ⟨hh1, hh2⟩
      · have hg := hpt (max_ipv4_index + 1) (by omega) (by omega)
        rcases hg with ⟨hg1, hg2⟩ | ⟨hg1, hg2⟩ | ⟨hg1, hg2⟩ <;> omega
      · omega
      · omega
    · refine Or.inr (Or.inr ⟨?_, ?_⟩)
      · rcases hs with ⟨hh1, hh2⟩ | ⟨hh1, hh2⟩ | ⟨hh1, hh2⟩
        · have hg := hpt (max_ipv6_index + 1) (by omega) (by omega)
          rcases hg with ⟨hg1, hg2⟩ | ⟨hg1, hg2⟩ | ⟨hg1, hg2⟩ <;> omega
        · have hg := hpt (max_ipv6_index + 1) (by omega) (by omega)
          rcases hg with ⟨hg1, hg2⟩ | ⟨hg1, hg2⟩ | ⟨hg1, hg2⟩ <;> omega
        · omega
      · rcases he with ⟨hh1, hh2⟩ | ⟨hh1, hh2⟩ | ⟨hh1, hh2⟩ <;> omega

theorem intRange_mem {a b i : Int} : i ∈ intRange a b ↔ a ≤ i ∧ i < b := by
  unfold intRange
  simp only [List.mem_map, List.mem_range]
  constructor
  · rintro ⟨k, hk, heq⟩
    omega
  · rintro ⟨h1, h2⟩
    exact ⟨(i - a).toNat, by omega, by omega⟩

theorem pyGet_ok (L : List Member) (i : Int) (h0 : 0 ≤ i)
    (hlt : i.toNat < L.length) :
    pyGet L i = Except.ok (L.getD i.toNat (Member.pod nameA)) := by
  have hD : L.getD i.toNat (Member.pod nameA) = L[i.toNat] := by
    rw [List.getD_eq_getElem?_getD, List.getElem?_eq_getElem hlt]
    rfl
  unfold pyGet
  rw [if_neg (by omega : ¬ i < 0)]
  rw [if_pos h0, List.getElem?_eq_getElem hlt, hD]

theorem pyGetFold (S' : PeerSet) : ∀ (idxs : List Int) (acc : List Member),
    (∀ i ∈ idxs, 0 ≤ i ∧ i.toNat < S'.sorted_peer_list.length) →
    ((idxs.foldlM (fun (acc2 : List Member) ind => do
        let p ← pyGet S'.sorted_peer_list ind
        Except.ok (acc2 ++ [p])) acc) : Except PyErr (List Member)) =
      Except.ok (acc ++ idxs.map
        (fun i => S'.sorted_peer_list.getD i.toNat (Member.pod nameA))) := by
  intro idxs
  induction idxs with
  | nil =>
    intro acc _
    simp only [List.foldlM_nil, List.map_nil, List.append_nil]
    rfl
  | cons i t ih =>
    intro acc hrange
    rcases hrange i (List.mem_cons_self i t) with ⟨h0, hlt⟩
    rw [List.foldlM_cons]
    rw [pyGet_ok _ i h0 hlt]
    show (t.foldlM _ (acc ++ [S'.sorted_peer_list.getD i.toNat (Member.pod nameA)])
        : Except PyErr (List Member)) = _
    rw [ih _ (fun j hj => hrange j (List.mem_cons_of_mem i hj))]
    simp [List.append_assoc]

/-- What one interval of the index set contributes to the reconstructed peer
list: a single-range IpBlock for an address-segment interval, the cached
concrete peers at the covered positions for a pod-segment interval. -/
def contribOf (L : List Member) (iv : Interval) : List Member :=
  if iv.end_ ≤ max_ipv4_index then
    [Member.ipb ⟨[⟨iv.start - min_ipv4_index, iv.end_ - min_ipv4_index⟩]⟩]
  else if iv.end_ ≤ max_ipv6_index then
    [Member.ipb ⟨[⟨v6base + (iv.start - min_ipv6_index),
                   v6base + (iv.end_ - min_ipv6_index)⟩]⟩]
  else
    (intRange (iv.start - min_pod_index) (iv.end_ - min_pod_index + 1)).map
      (fun i => L.getD i.toNat (Member.pod nameA))

theorem byIndicesFold (S' : PeerSet) (n : Nat)
    (hlen : n ≤ S'.sorted_peer_list.length)
    (hmemlen : S'.sorted_peer_list.length ≤ S'.members.length)
    (hnle : n ≤ max_num_of_pods) :
    ∀ (ivs : List Interval) (acc : List Member),
    (∀ iv ∈ ivs, iv.wf) →
    (∀ iv ∈ ivs, v4Seg iv ∨ v6Seg iv ∨ podSeg n iv) →
    ((ivs.foldlM (fun (acc : List Member) interval => do
      if interval.end_ ≤ max_ipv4_index then
        let s := interval.start - min_ipv4_index
        let e := interval.end_ - min_ipv4_index
        if 0 ≤ s ∧ s ≤ v4max ∧ 0 ≤ e ∧ e ≤ v4max then
          Except.ok (acc ++ [Member.ipb ⟨[⟨s, e⟩]⟩])
        else Except.error PyErr.addressValueError
      else if interval.end_ ≤ max_ipv6_index then
        let s := interval.start - min_ipv6_index
        let e := interval.end_ - min_ipv6_index
        if 0 ≤ s ∧ s ≤ ipv6Count - 1 ∧ 0 ≤ e ∧ e ≤ ipv6Count - 1 then
          Except.ok (acc ++ [Member.ipb ⟨[⟨v6base + s, v6base + e⟩]⟩])
        else Except.error PyErr.addressValueError
      else if interval.end_ ≤ max_pod_index then
        let mx : Int := (S'.members.length : Int) - 1
        (intRange (min (interval.start - min_pod_index) mx)
                  (min (interval.end_ - min_pod_index) mx + 1)).foldlM
          (fun (acc2 : List Member) ind => do
            let p ← pyGet S'.sorted_peer_list ind
            Except.ok (acc2 ++ [p])) acc
      else Except.error PyErr.assertionError) acc) : Except PyErr (List Member)) =
      Except.ok (acc ++ ivs.bind (contribOf S'.sorted_peer_list)) := by
  obtain ⟨hc1, hc2, hc3, hc4, hc5, hc6, hc7, hc8, hc9, hc10⟩ := const_rel
  intro ivs
  induction ivs with
  | nil =>
    intro acc _ _
    simp only [List.foldlM_nil, List.nil_bind, List.append_nil]
    rfl
  | cons iv t ih =>
    intro acc hwf hcls
    have hivwf : iv.wf := hwf iv (List.mem_cons_self iv t)
    unfold Interval.wf at hivwf
    rw [List.foldlM_cons]
    have hstep : (do
        if iv.end_ ≤ max_ipv4_index then
          let s := iv.start - min_ipv4_index
          let e := iv.end_ - min_ipv4_index
          if 0 ≤ s ∧ s ≤ v4max ∧ 0 ≤ e ∧ e ≤ v4max then
            Except.ok (acc ++ [Member.ipb ⟨[⟨s, e⟩]⟩])
          else Except.error PyErr.addressValueError
        else if iv.end_ ≤ max_ipv6_index then
          let s := iv.start - min_ipv6_index
          let e := iv.end_ - min_ipv6_index
          if 0 ≤ s ∧ s ≤ ipv6Count - 1 ∧ 0 ≤ e ∧ e ≤ ipv6Count - 1 then
            Except.ok (acc ++ [Member.ipb ⟨[⟨v6base + s, v6base + e⟩]⟩])
          else Except.error PyErr.addressValueError
        else if iv.end_ ≤ max_pod_index then
          let mx : Int := (S'.members.length : Int) - 1
          (intRange (min (iv.start - min_pod_index) mx)
                    (min (iv.end_ - min_pod_index) mx + 1)).foldlM
            (fun (acc2 : List Member) ind => do
              let p ← pyGet S'.sorted_peer_list ind
              Except.ok (acc2 ++ [p])) acc
        else Except.error PyErr.assertionError : Except PyErr (List Member)) =
        Except.ok (acc ++ contribOf S'.sorted_peer_list iv) := by
      show (if iv.end_ ≤ max_ipv4_index then
          (if 0 ≤ iv.start - min_ipv4_index ∧ iv.start - min_ipv4_index ≤ v4max ∧
              0 ≤ iv.end_ - min_ipv4_index ∧ iv.end_ - min_ipv4_index ≤ v4max then
            Except.ok (acc ++ [Member.ipb
              ⟨[⟨iv.start - min_ipv4_index, iv.end_ - min_ipv4_index⟩]⟩])
          else Except.error PyErr.addressValueError)
        else if iv.end_ ≤ max_ipv6_index then
          (if 0 ≤ iv.start - min_ipv6_index ∧ iv.start - min_ipv6_index ≤ ipv6Count - 1 ∧
              0 ≤ iv.end_ - min_ipv6_index ∧ iv.end_ - min_ipv6_index ≤ ipv6Count - 1 then
            Except.ok (acc ++ [Member.ipb
              ⟨[⟨v6base + (iv.start - min_ipv6_index),
                 v6base + (iv.end_ - min_ipv6_index)⟩]⟩])
          else Except.error PyErr.addressValueError)
        else if iv.end_ ≤ max_pod_index then
          (intRange (min (iv.start - min_pod_index) ((S'.members.length : Int) - 1))
                    (min (iv.end_ - min_pod_index) ((S'.members.length : Int) - 1) + 1)).foldlM
            (fun (acc2 : List Member) ind => do
              let p ← pyGet S'.sorted_peer_list ind
              Except.ok (acc2 ++ [p])) acc
        else Except.error PyErr.assertionError) =
        Except.ok (acc ++ contribOf S'.sorted_peer_list iv)
      rcases hcls iv (List.mem_cons_self iv t) with hseg | hseg | hseg
      · unfold v4Seg at hseg
        rw [if_pos hseg.2]
        rw [if_pos (by omega)]
        unfold contribOf
        rw [if_pos hseg.2]
      · unfold v6Seg at hseg
        rw [if_neg (by omega), if_pos hseg.2]
        rw [if_pos (by omega)]
        unfold contribOf
        rw [if_neg (by omega), if_pos hseg.2]
      · unfold podSeg at hseg
        have hn2 : (n : Int) ≤ (S'.members.length : Int) := by
          have hx1 : (n : Int) ≤ (S'.sorted_peer_list.length : Int) := by
            exact_mod_cast hlen
          have hx2 : (S'.sorted_peer_list.length : Int) ≤ (S'.members.length : Int) := by
            exact_mod_cast hmemlen
          omega
        rw [if_neg (by omega), if_neg (by omega), if_pos (by
          have hnle2 : (n : Int) ≤ 10000 := by exact_mod_cast hnle
          omega)]
        have hmin1 : min (iv.start - min_pod_index) ((S'.members.length : Int) - 1) =
            iv.start - min_pod_index := by
          apply min_eq_left
          omega
        have hmin2 : min (iv.end_ - min_pod_index) ((S'.members.length : Int) - 1) =
            iv.end_ - min_pod_index := by
          apply min_eq_left
          omega
        rw [hmin1, hmin2]
        rw [pyGetFold S' _ acc (by
          intro i hi
          rw [intRange_mem] at hi
          have hnL : (n : Int) ≤ (S'.sorted_peer_list.length : Int) := by
            exact_mod_cast hlen
          constructor
          · omega
          · omega)]
        unfold contribOf
        rw [if_neg (by omega), if_neg (by omega)]
    rw [hstep]
    show (t.foldlM _ (acc ++ contribOf S'.sorted_peer_list iv)
        : Except PyErr (List Member)) = _
    rw [ih _ (fun j hj => hwf j (List.mem_cons_of_mem iv hj))
      (fun j hj => hcls j (List.mem_cons_of_mem iv hj))]
    have hbind : (iv :: t).bind (contribOf S'.sorted_peer_list) =
        contribOf S'.sorted_peer_list iv ++ t.bind (contribOf S'.sorted_peer_list) := rfl
    rw [hbind, List.append_assoc]

theorem getD_eq_getElem {L : List Member} {k : Nat} (h : k < L.length) (d : Member) :
    L.getD k d = L[k] := by
  rw [List.getD_eq_getElem?_getD, List.getElem?_eq_getElem h]
  rfl

theorem getD_mem {L : List Member} {k : Nat} (h : k < L.length) (d : Member) :
    L.getD k d ∈ L := by
  rw [getD_eq_getElem h d]
  exact List.getElem_mem h

theorem containsB_concrete {S : PeerSet} {m : Member} (h : m.isIpBlock = false) :
    (S.containsB m = true ↔ m ∈ S.members) := by
  cases m with
  | pod nm =>
    unfold PeerSet.containsB
    simp
  | ipb b => exact absurd h (by simp [Member.isIpBlock])

theorem pyAdd_nodup {l : List Member} {m : Member} (h : l.Nodup) :
    (pyAdd l m).Nodup := by
  unfold pyAdd
  split_ifs with hm
  · exact h
  · refine List.Nodup.append h (List.nodup_singleton m) ?_
    intro a ha hb
    rw [List.mem_singleton] at hb
    rw [hb] at ha
    exact hm ha

theorem foldl_pyAdd_nodup : ∀ (l acc : List Member), acc.Nodup →
    (l.foldl pyAdd acc).Nodup := by
  intro l
  induction l with
  | nil => intro acc h; exact h
  | cons m t ih =>
    intro acc h
    rw [List.foldl_cons]
    exact ih _ (pyAdd_nodup h)

theorem pySet_nodup (l : List Member) : (pySet l).Nodup :=
  foldl_pyAdd_nodup l [] List.nodup_nil

theorem nodup_subset_length {l1 l2 : List Member} (h1 : l1.Nodup)
    (hsub : ∀ x ∈ l1, x ∈ l2) : l1.length ≤ l2.length := by
  have hcard1 : l1.toFinset.card = l1.length := List.toFinset_card_of_nodup h1
  have hsub2 : l1.toFinset ⊆ l2.toFinset := by
    intro x hx
    rw [List.mem_toFinset] at hx ⊢
    exact hsub x hx
  calc l1.length = l1.toFinset.card := hcard1.symm
    _ ≤ l2.toFinset.card := Finset.card_le_card hsub2
    _ ≤ l2.length := l2.toFinset_card_le

theorem memL_singleton {x : Int} {a : Interval} : memL x [a] ↔ memI x a := by
  unfold memL
  simp

/-- The image of a valid address range stays inside the two address
segments, strictly below the pod segment. -/
theorem shiftIv_bounds {iv : Interval} (hwf : iv.wf) (hv : validIv iv) {y : Int}
    (h : memI y (shiftIv iv)) :
    min_ipv4_index ≤ y ∧ y ≤ max_ipv6_index := by
  obtain ⟨hc1, hc2, hc3, hc4, hc5, hc6, hc7, hc8, hc9, hc10⟩ := const_rel
  unfold Interval.wf at hwf
  unfold validIv at hv
  unfold shiftIv memI at h
  rcases hv with ⟨hv1, hv2⟩ | ⟨hv1, hv2⟩
  · rw [if_pos (by omega)] at h
    dsimp only at h
    omega
  · rw [if_neg (by omega)] at h
    dsimp only at h
    omega

theorem contrib_concrete_mem (L : List Member) (iv : Interval) (n : Nat)
    (hn : n = L.length) (hwfiv : iv.wf)
    (hcls : v4Seg iv ∨ v6Seg iv ∨ podSeg n iv) (m : Member)
    (hconc : m.isIpBlock = false) :
    (m ∈ contribOf L iv ↔ (podSeg n iv ∧ ∃ i : Nat,
      memI (min_pod_index + (i : Int)) iv ∧ m = L.getD i (Member.pod nameA))) := by
  obtain ⟨hc1, hc2, hc3, hc4, hc5, hc6, hc7, hc8, hc9, hc10⟩ := const_rel
  unfold Interval.wf at hwfiv
  unfold contribOf
  rcases hcls with hseg | hseg | hseg
  · unfold v4Seg at hseg
    rw [if_pos hseg.2]
    constructor
    · intro hm
      rw [List.mem_singleton] at hm
      rw [hm] at hconc
      exact absurd hconc (by simp [Member.isIpBlock])
    · rintro ⟨hpod, _⟩
      unfold podSeg at hpod
      exact absurd rfl (by omega : ¬ (0 : Int) = 0)
  · unfold v6Seg at hseg
    rw [if_neg (by omega), if_pos hseg.2]
    constructor
    · intro hm
      rw [List.mem_singleton] at hm
      rw [hm] at hconc
      exact absurd hconc (by simp [Member.isIpBlock])
    · rintro ⟨hpod, _⟩
      unfold podSeg at hpod
      exact absurd rfl (by omega : ¬ (0 : Int) = 0)
  · unfold podSeg at hseg
    rw [if_neg (by omega), if_neg (by omega)]
    constructor
    · intro hm
      rw [List.mem_map] at hm
      rcases hm with ⟨j, hj, heq⟩
      rw [intRange_mem] at hj
      refine ⟨⟨hseg.1, hseg.2⟩, j.toNat, ?_, ?_⟩
      · unfold memI
        omega
      · exact heq.symm
    · rintro ⟨_, i, hmem, heq⟩
      unfold memI at hmem
      rw [List.mem_map]
      refine ⟨(i : Int), ?_, ?_⟩
      · rw [intRange_mem]
        omega
      · rw [Int.toNat_natCast]
        exact heq.symm

theorem contrib_block_mem (L : List Member)
    (hLconc : ∀ m ∈ L, m.isIpBlock = false)
    (iv : Interval) (b : IpBlock) (n : Nat) (hn : n = L.length)
    (hwfiv : iv.wf) (hcls : v4Seg iv ∨ v6Seg iv ∨ podSeg n iv) :
    (Member.ipb b ∈ contribOf L iv ↔
      (v4Seg iv ∧ b = ⟨[⟨iv.start - min_ipv4_index, iv.end_ - min_ipv4_index⟩]⟩) ∨
      (v6Seg iv ∧ b = ⟨[⟨v6base + (iv.start - min_ipv6_index),
                        v6base + (iv.end_ - min_ipv6_index)⟩]⟩)) := by
  obtain ⟨hc1, hc2, hc3, hc4, hc5, hc6, hc7, hc8, hc9, hc10⟩ := const_rel
  unfold Interval.wf at hwfiv
  unfold contribOf
  rcases hcls with hseg | hseg | hseg
  · have hseg2 := hseg
    unfold v4Seg at hseg2
    rw [if_pos hseg2.2]
    constructor
    · intro hm
      rw [List.mem_singleton] at hm
      injection hm with hm
      exact Or.inl ⟨hseg, hm⟩
    · rintro (⟨_, hb⟩ | ⟨hseg6, _⟩)
      · rw [hb]
        exact List.mem_singleton.mpr rfl
      · unfold v6Seg at hseg6
        exact absurd rfl (by omega : ¬ (0 : Int) = 0)
  · have hseg2 := hseg
    unfold v6Seg at hseg2
    rw [if_neg (by omega), if_pos hseg2.2]
    constructor
    · intro hm
      rw [List.mem_singleton] at hm
      injection hm with hm
      exact Or.inr ⟨hseg, hm⟩
    · rintro (⟨hseg4, _⟩ | ⟨_, hb⟩)
      · unfold v4Seg at hseg4
        exact absurd rfl (by omega : ¬ (0 : Int) = 0)
      · rw [hb]
        exact List.mem_singleton.mpr rfl
  · have hseg2 := hseg
    unfold podSeg at hseg2
    rw [if_neg (by omega), if_neg (by omega)]
    constructor
    · intro hm
      rw [List.mem_map] at hm
      rcases hm with ⟨j, hj, heq⟩
      rw [intRange_mem] at hj
      have hjn : j.toNat < L.length := by omega
      have hmem := getD_mem hjn (Member.pod nameA)
      rw [heq] at hmem
      exact absurd (hLconc _ hmem) (by simp [Member.isIpBlock])
    · rintro (⟨hseg4, _⟩ | ⟨hseg6, _⟩)
      · unfold v4Seg at hseg4
        exact absurd rfl (by omega : ¬ (0 : Int) = 0)
      · unfold v6Seg at hseg6
        exact absurd rfl (by omega : ¬ (0 : Int) = 0)

/-- C2 (amended): the round trip through `get_peer_interval_of` and
`get_peer_set_by_indices` reproduces the argument set (up to PeerSet
equality) PROVIDED the receiver's cached ordering is honest (a cache of the
same size as the member set really is the sorted concrete member list), the
receiver satisfies the documented capacity bound, the argument's concrete
members all belong to the receiver, and the argument's IpBlock members are
genuine blocks.  The original claim, which only forbids mutation between the
two calls, is false: a stale same-size cache (reachable through the
inherited `set.remove`/`set.add`, which update neither cache field) breaks
the round trip before the first call, and an over-capacity receiver
(reachable through the inherited `set.add`) makes the reconstruction fail
its assertion. -/
theorem c2_amended_round_trip (P S : PeerSet)
    (hcache : P.last_size_when_updated_sorted_peer_list = P.members.length →
      P.sorted_peer_list = sortedConcrete P.members)
    (hcap : (concreteMembers P.members).length ≤ max_num_of_pods)
    (hsub : ∀ m ∈ concreteMembers S.members, m ∈ P.members)
    (hwfS : ∀ m ∈ S.members, blockWf m) :
    ∃ ivs : List Interval, ∃ Q : PeerSet,
      P.get_peer_interval_of S = Except.ok
        (ivs, ⟨P.members, sortedConcrete P.members, P.members.length⟩) ∧
      PeerSet.get_peer_set_by_indices
        ⟨P.members, sortedConcrete P.members, P.members.length⟩ ivs = Except.ok Q ∧
      Q.eqB S = true := by
  obtain ⟨hk1, hk2, hk3, hk4, hk5, hk6, hk7, hk8, hk9, hk10⟩ := const_rel
  have hblk : ∀ b : IpBlock, Member.ipb b ∈ S.members →
      canonical b.interval_set ∧ ∀ iv ∈ b.interval_set, validIv iv := by
    intro b hb
    have h := hwfS _ hb
    unfold blockWf at h
    exact h
  have hivwf : ∀ b : IpBlock, Member.ipb b ∈ S.members →
      ∀ iv ∈ b.interval_set, iv.wf :=
    fun b hb iv hiv => (hblk b hb).1.1 iv hiv
  obtain ⟨res, hok1, hcanres, hmemres⟩ := get_peer_interval_of_spec P S hcache hivwf
  have hLconc : ∀ m ∈ sortedConcrete P.members, m.isIpBlock = false :=
    fun m hm => sortedConcrete_concrete hm
  have hlen : (sortedConcrete P.members).length ≤ max_num_of_pods := by
    rw [sortedConcrete_length]
    exact hcap
  have hmemlen : (sortedConcrete P.members).length ≤ P.members.length := by
    rw [sortedConcrete_length]
    exact List.length_filter_le _ _
  have hwfres : ∀ iv ∈ res, iv.wf := hcanres.1
  have hclsres : ∀ iv ∈ res,
      v4Seg iv ∨ v6Seg iv ∨ podSeg (sortedConcrete P.members).length iv :=
    res_seg_class (sortedConcrete P.members) S res hcanres hwfS hmemres
  have hbyidx : PeerSet.get_peer_set_by_indices
      ⟨P.members, sortedConcrete P.members, P.members.length⟩ res =
      PeerSet.init (res.bind (contribOf (sortedConcrete P.members))) := by
    unfold PeerSet.get_peer_set_by_indices
    rw [update_fresh]
    show (res.foldlM _ [] : Except PyErr (List Member)) >>= _ = _
    rw [byIndicesFold ⟨P.members, sortedConcrete P.members, P.members.length⟩
      (sortedConcrete P.members).length (le_refl _) hmemlen hlen res [] hwfres hclsres]
    show PeerSet.init ([] ++ res.bind (contribOf (sortedConcrete P.members))) = _
    rw [List.nil_append]
  have hcontribpod : ∀ m ∈ res.bind (contribOf (sortedConcrete P.members)),
      m.isIpBlock = false → m ∈ sortedConcrete P.members := by
    intro m hm hconc
    rw [List.mem_bind] at hm
    rcases hm with ⟨iv, hiv, hmc⟩
    rcases (contrib_concrete_mem (sortedConcrete P.members) iv _ rfl (hwfres iv hiv)
      (hclsres iv hiv) m hconc).mp hmc with ⟨hpod, i, hmemi, heq⟩
    unfold podSeg at hpod
    unfold memI at hmemi
    have hin : i < (sortedConcrete P.members).length := by omega
    rw [heq]
    exact getD_mem hin _
  have hcapQ : (concreteMembers (pySet
      (res.bind (contribOf (sortedConcrete P.members))))).length ≤ max_num_of_pods := by
    have hnodup : (concreteMembers (pySet
        (res.bind (contribOf (sortedConcrete P.members))))).Nodup :=
      List.Nodup.filter _ (pySet_nodup _)
    have hsub2 : ∀ x ∈ concreteMembers (pySet
        (res.bind (contribOf (sortedConcrete P.members)))),
        x ∈ sortedConcrete P.members := by
      intro x hx
      rcases mem_concreteMembers.mp hx with ⟨hx1, hx2⟩
      exact hcontribpod x (pySet_mem.mp hx1) hx2
    exact le_trans (nodup_subset_length hnodup hsub2) hlen
  refine ⟨res, ⟨pySet (res.bind (contribOf (sortedConcrete P.members))), [], 0⟩,
    hok1, ?_, ?_⟩
  · rw [hbyidx]
    exact init_eq_ok hcapQ
  · unfold PeerSet.eqB
    rw [Bool.and_eq_true]
    constructor
    · unfold PeerSet.get_set_without_ip_block
      rw [setEqB_iff]
      intro m
      constructor
      · intro hm
        rcases mem_concreteMembers.mp hm with ⟨hm1, hconc⟩
        have hmpl := pySet_mem.mp hm1
        rw [List.mem_bind] at hmpl
        rcases hmpl with ⟨iv, hiv, hmc⟩
        rcases (contrib_concrete_mem (sortedConcrete P.members) iv _ rfl (hwfres iv hiv)
          (hclsres iv hiv) m hconc).mp hmc with ⟨hpod, i, hmemi, heq⟩
        have hx : memL (min_pod_index + (i : Int)) res := ⟨iv, hiv, hmemi⟩
        rcases (hmemres _).mp hx with hpp | hbp
        · rcases hpp with ⟨i2, m2, hg, hcont, hxeq⟩
          have hieq : i = i2 := by omega
          subst hieq
          have hilen := getElem?_some_lt hg
          rw [List.getElem?_eq_getElem hilen] at hg
          injection hg with hLi
          have hme : m = m2 := by
            rw [heq, getD_eq_getElem hilen]
            exact hLi
          exact mem_concreteMembers.mpr
            ⟨(containsB_concrete hconc).mp (by rw [hme]; exact hcont), hconc⟩
        · exfalso
          rcases hbp with ⟨b, iv0, hbS, hiv0, hsh⟩
          have hb2 := hblk b hbS
          have hbd := shiftIv_bounds (hb2.1.1 iv0 hiv0) (hb2.2 iv0 hiv0) hsh
          unfold podSeg at hpod
          unfold memI at hmemi
          omega
      · intro hm
        rcases mem_concreteMembers.mp hm with ⟨hmS, hconc⟩
        have hmP : m ∈ P.members := hsub m hm
        have hmL : m ∈ sortedConcrete P.members :=
          sortedConcrete_mem.mpr (mem_concreteMembers.mpr ⟨hmP, hconc⟩)
        rcases List.getElem_of_mem hmL with ⟨i, hilen, hieq⟩
        have hgg : (sortedConcrete P.members)[i]? = some m := by
          rw [List.getElem?_eq_getElem hilen, hieq]
        have hcont : S.containsB m = true := (containsB_concrete hconc).mpr hmS
        have hx : memL (min_pod_index + (i : Int)) res :=
          (hmemres _).mpr (Or.inl ⟨i, m, hgg, hcont, rfl⟩)
        rcases hx with ⟨iv, hiv, hmemi⟩
        have hcls := hclsres iv hiv
        have hgoal : m ∈ contribOf (sortedConcrete P.members) iv := by
          rw [contrib_concrete_mem (sortedConcrete P.members) iv _ rfl (hwfres iv hiv)
            hcls m hconc]
          have hpodseg : podSeg (sortedConcrete P.members).length iv := by
            rcases hcls with hseg | hseg | hseg
            · exfalso
              unfold v4Seg at hseg
              unfold memI at hmemi
              omega
            · exfalso
              unfold v6Seg at hseg
              unfold memI at hmemi
              omega
            · exact hseg
          refine ⟨hpodseg, i, hmemi, ?_⟩
          rw [getD_eq_getElem hilen, hieq]
        rw [mem_concreteMembers]
        refine ⟨pySet_mem.mpr ?_, hconc⟩
        rw [List.mem_bind]
        exact ⟨iv, hiv, hgoal⟩
    · have haggQ : aggWf ⟨pySet (res.bind (contribOf (sortedConcrete P.members))), [], 0⟩ := by
        intro b hb iv0 hiv0
        have hb2 := pySet_mem.mp hb
        rw [List.mem_bind] at hb2
        rcases hb2 with ⟨iv, hiv, hmc⟩
        have hwfiv := hwfres iv hiv
        unfold Interval.wf at hwfiv
        rcases (contrib_block_mem (sortedConcrete P.members) hLconc iv b _ rfl
          (hwfres iv hiv) (hclsres iv hiv)).mp hmc with ⟨hseg, hbe⟩ | ⟨hseg, hbe⟩
        · rw [hbe] at hiv0
          have hiv02 : iv0 = ⟨iv.start - min_ipv4_index, iv.end_ - min_ipv4_index⟩ :=
            List.mem_singleton.mp hiv0
          rw [hiv02]
          unfold Interval.wf
          dsimp only
          omega
        · rw [hbe] at hiv0
          have hiv02 : iv0 = ⟨v6base + (iv.start - min_ipv6_index),
              v6base + (iv.end_ - min_ipv6_index)⟩ :=
            List.mem_singleton.mp hiv0
          rw [hiv02]
          unfold Interval.wf
          dsimp only
          omega
      have haggS : aggWf S := fun b hb iv hiv => (hblk b hb).1.1 iv hiv
      obtain ⟨hcanQ, hmemQ⟩ := get_ip_block_canonical_form_spec _ haggQ
      obtain ⟨hcanS, hmemS⟩ := get_ip_block_canonical_form_spec S haggS
      have hagg : (⟨pySet (res.bind (contribOf (sortedConcrete P.members))), [], 0⟩
          : PeerSet).get_ip_block_canonical_form = S.get_ip_block_canonical_form := by
        apply canonical_ext hcanQ hcanS
        intro x
        rw [hmemQ x, hmemS x]
        constructor
        · rintro ⟨b, hbQ, hxb⟩
          have hb2 := pySet_mem.mp hbQ
          rw [List.mem_bind] at hb2
          rcases hb2 with ⟨iv, hiv, hmc⟩
          have hwfiv := hwfres iv hiv
          unfold Interval.wf at hwfiv
          rcases (contrib_block_mem (sortedConcrete P.members) hLconc iv b _ rfl
            (hwfres iv hiv) (hclsres iv hiv)).mp hmc with ⟨hseg, hbe⟩ | ⟨hseg, hbe⟩
          · unfold v4Seg at hseg
            rw [hbe] at hxb
            have hxi : memI x ⟨iv.start - min_ipv4_index, iv.end_ - min_ipv4_index⟩ :=
              memL_singleton.mp hxb
            unfold memI at hxi
            dsimp only at hxi
            have hy : memL x res := ⟨iv, hiv, by unfold memI; omega⟩
            rcases (hmemres x).mp hy with hpp | hbp
            · exfalso
              rcases hpp with ⟨i, m2, hg, _, hxeq⟩
              omega
            · rcases hbp with ⟨b0, iv0, hb0S, hiv0, hsh⟩
              have hb0w := hblk b0 hb0S
              have hwf0 := hb0w.1.1 iv0 hiv0
              have hval0 := hb0w.2 iv0 hiv0
              refine ⟨b0, hb0S, iv0, hiv0, ?_⟩
              unfold validIv at hval0
              unfold Interval.wf at hwf0
              unfold shiftIv memI at hsh
              rcases hval0 with ⟨hv1, hv2⟩ | ⟨hv1, hv2⟩
              · rw [if_pos (by omega)] at hsh
                dsimp only at hsh
                unfold memI
                omega
              · rw [if_neg (by omega)] at hsh
                dsimp only at hsh
                exfalso
                omega
          · unfold v6Seg at hseg
            rw [hbe] at hxb
            have hxi : memI x ⟨v6base + (iv.start - min_ipv6_index),
                v6base + (iv.end_ - min_ipv6_index)⟩ :=
              memL_singleton.mp hxb
            unfold memI at hxi
            dsimp only at hxi
            have hy : memL (min_ipv6_index + (x - v6base)) res :=
              ⟨iv, hiv, by unfold memI; omega⟩
            rcases (hmemres _).mp hy with hpp | hbp
            · exfalso
              rcases hpp with ⟨i, m2, hg, _, hxeq⟩
              omega
            · rcases hbp with ⟨b0, iv0, hb0S, hiv0, hsh⟩
              have hb0w := hblk b0 hb0S
              have hwf0 := hb0w.1.1 iv0 hiv0
              have hval0 := hb0w.2 iv0 hiv0
              refine ⟨b0, hb0S, iv0, hiv0, ?_⟩
              unfold validIv at hval0
              unfold Interval.wf at hwf0
              unfold shiftIv memI at hsh
              rcases hval0 with ⟨hv1, hv2⟩ | ⟨hv1, hv2⟩
              · rw [if_pos (by omega)] at hsh
                dsimp only at hsh
                exfalso
                omega
              · rw [if_neg (by omega)] at hsh
                dsimp only at hsh
                unfold memI
                omega
        · rintro ⟨b, hbS, hxb⟩
          unfold memL at hxb
          rcases hxb with ⟨iv0, hiv0, hx0⟩
          have hbw := hblk b hbS
          have hwf0 := hbw.1.1 iv0 hiv0
          have hval0 := hbw.2 iv0 hiv0
          unfold validIv at hval0
          unfold Interval.wf at hwf0
          unfold memI at hx0
          rcases hval0 with ⟨hv1, hv2⟩ | ⟨hv1, hv2⟩
          · have hy : memL x res := (hmemres x).mpr (Or.inr ⟨b, iv0, hbS, hiv0, by
              unfold shiftIv memI
              rw [if_pos (by omega)]
              dsimp only
              omega⟩)
            rcases hy with ⟨iv, hiv, hmemiv⟩
            have hcls := hclsres iv hiv
            have hwfiv := hwfres iv hiv
            unfold Interval.wf at hwfiv
            unfold memI at hmemiv
            have hseg4 : v4Seg iv := by
              rcases hcls with hseg | hseg | hseg
              · exact hseg
              · exfalso
                unfold v6Seg at hseg
                omega
              · exfalso
                unfold podSeg at hseg
                omega
            refine ⟨⟨[⟨iv.start - min_ipv4_index, iv.end_ - min_ipv4_index⟩]⟩, ?_, ?_⟩
            · apply pySet_mem.mpr
              rw [List.mem_bind]
              refine ⟨iv, hiv, ?_⟩
              rw [contrib_block_mem (sortedConcrete P.members) hLconc iv _ _ rfl
                (hwfres iv hiv) hcls]
              exact Or.inl ⟨hseg4, rfl⟩
            · refine ⟨⟨iv.start - min_ipv4_index, iv.end_ - min_ipv4_index⟩,
                List.mem_singleton.mpr rfl, ?_⟩
              unfold v4Seg at hseg4
              unfold memI
              dsimp only
              omega
          · have hy : memL (min_ipv6_index + (x - v6base)) res :=
              (hmemres _).mpr (Or.inr ⟨b, iv0, hbS, hiv0, by
                unfold shiftIv memI
                rw [if_neg (by omega)]
                dsimp only
                omega⟩)
            rcases hy with ⟨iv, hiv, hmemiv⟩
            have hcls := hclsres iv hiv
            have hwfiv := hwfres iv hiv
            unfold Interval.wf at hwfiv
            unfold memI at hmemiv
            have hseg6 : v6Seg iv := by
              rcases hcls with hseg | hseg | hseg
              · exfalso
                unfold v4Seg at hseg
                omega
              · exact hseg
              · exfalso
                unfold podSeg at hseg
                omega
            refine ⟨⟨[⟨v6base + (iv.start - min_ipv6_index),
                v6base + (iv.end_ - min_ipv6_index)⟩]⟩, ?_, ?_⟩
            · apply pySet_mem.mpr
              rw [List.mem_bind]
              refine ⟨iv, hiv, ?_⟩
              rw [contrib_block_mem (sortedConcrete P.members) hLconc iv _ _ rfl
                (hwfres iv hiv) hcls]
              exact Or.inr ⟨hseg6, rfl⟩
            · refine ⟨⟨v6base + (iv.start - min_ipv6_index),
                v6base + (iv.end_ - min_ipv6_index)⟩,
                List.mem_singleton.mpr rfl, ?_⟩
              unfold v6Seg at hseg6
              unfold memI
              dsimp only
              omega
      exact decide_eq_true hagg

/-- The concrete receiver for the C2 witness: one pod and one IPv4 block. -/
def c2P : PeerSet := ⟨[Member.pod nameA, Member.ipb ⟨[⟨0, 0⟩]⟩], [], 0⟩

/-- C2 witness: the amended round trip applied to the two-member set
holding the pod `a` and the IPv4 block `0.0.0.0/32`, used as both receiver
and argument. -/
theorem c2_amended_witness :
    ∃ ivs : List Interval, ∃ Q : PeerSet,
      c2P.get_peer_interval_of c2P = Except.ok
        (ivs, ⟨c2P.members, sortedConcrete c2P.members, c2P.members.length⟩) ∧
      PeerSet.get_peer_set_by_indices
        ⟨c2P.members, sortedConcrete c2P.members, c2P.members.length⟩ ivs =
        Except.ok Q ∧
      Q.eqB c2P = true :=
  c2_amended_round_trip c2P c2P (by decide) (by decide) (by decide) (by decide)

/-- The pod name `b`. -/
def nameB : String := "b"

/-- The pod name `c`. -/
def nameC : String := "c"

/-- C2 counterexample: the claim conditions only on the concrete membership
not being mutated BETWEEN the two calls, but a receiver whose cached
ordering is stale at the same size already breaks the round trip.  The
state below is reachable: PeerSet({a, c}) after a first conversion caches
the ordering [a, c] at size 2; the inherited `set.remove(c)` and
`set.add(b)` (neither touches the cache fields) leave members {a, b} at
size 2 with the stale cache.  With S = {b} ⊆ P and no mutation between the
calls, both calls succeed but return the empty set instead of S. -/
theorem c2_counterexample_stale_cache :
    (∀ m ∈ concreteMembers ((⟨[Member.pod nameB], [], 0⟩ : PeerSet)).members,
      m ∈ (⟨[Member.pod nameA, Member.pod nameB],
            [Member.pod nameA, Member.pod nameC], 2⟩ : PeerSet).members) ∧
    PeerSet.get_peer_interval_of
      ⟨[Member.pod nameA, Member.pod nameB], [Member.pod nameA, Member.pod nameC], 2⟩
      ⟨[Member.pod nameB], [], 0⟩ = Except.ok
        ([], ⟨[Member.pod nameA, Member.pod nameB],
              [Member.pod nameA, Member.pod nameC], 2⟩) ∧
    PeerSet.get_peer_set_by_indices
      ⟨[Member.pod nameA, Member.pod nameB], [Member.pod nameA, Member.pod nameC], 2⟩
      [] = Except.ok ⟨[], [], 0⟩ ∧
    (⟨[], [], 0⟩ : PeerSet).eqB ⟨[Member.pod nameB], [], 0⟩ = false := by
  refine ⟨by decide, rfl, rfl, by decide⟩

end NCA
